import Mathlib

/-!
Verification of the hash-table repository (open-addressing table with linear
probing and lazy deletion, and an AVL-tree-bucket table) against its
natural-language specification.  The C++ sources are shallowly embedded:
`int` keys/values become `Int`, `size_t` quantities become `Nat` (with the
C++ conversions made explicit as reductions modulo `2 ^ 64` or `2 ^ 32`
where they matter), `std::vector` becomes `List`, and the `bool&` output
flags become components of returned pairs.
-/

set_option maxHeartbeats 1000000
set_option linter.unusedVariables false
set_option linter.unreachableTactic false
set_option linter.unusedTactic false

/-! ## Hashing utility (`hash_table_base.h`) -/

/-- The value of `std::hash<int>{}(key)` under the Itanium ABI used by
libstdc++: the identity on the key's bit pattern, converted to `size_t`,
i.e. the key reduced modulo `2 ^ 64`. -/
def std_hash_int (key : Int) : Nat :=
  (key % ((2 : Int) ^ 64)).toNat

/-- `HashTableBase::hash_function`: `std::hash<int>{}(key) % table_size`.
For `table_size = 0` the C++ `%` is undefined behaviour; the Lean `%`
totalizes it (see `hash_function_checked` for the faulting version). -/
def hash_function (key : Int) (table_size : Nat) : Nat :=
  std_hash_int key % table_size

/-- The multiplicative-mix variant of `HashTableBase::hash_function`:
`unsigned int` arithmetic on the key (reduction modulo `2 ^ 32`), two
rounds of shift-xor and multiplication by `0x45d9f3b`, a final shift-xor,
then reduction modulo the table size. -/
def hash_function_mix (key : Int) (table_size : Nat) : Nat :=
  let ukey0 : Nat := (key % ((2 : Int) ^ 32)).toNat
  let ukey1 : Nat := (((ukey0 >>> 16) ^^^ ukey0) * 0x45d9f3b) % 2 ^ 32
  let ukey2 : Nat := (((ukey1 >>> 16) ^^^ ukey1) * 0x45d9f3b) % 2 ^ 32
  let ukey3 : Nat := (ukey2 >>> 16) ^^^ ukey2
  ukey3 % table_size

/-- Variant of `hash_function` that records the modulo-by-zero fault:
`key % table_size` with `table_size = 0` is undefined behaviour in C++,
modelled as `none`. -/
def hash_function_checked (key : Int) (table_size : Nat) : Option Nat :=
  if table_size = 0 then none else some (hash_function key table_size)

/-! ## Operations issued by a caller, shared by both tables -/

/-- A caller-visible operation: `insert`, `remove`, `clear` or `find`
(`qry` has no effect on the state). -/
inductive Op where
  | ins (key value : Int)
  | del (key : Int)
  | clr
  | qry (key : Int)
deriving DecidableEq, Repr

/-- Value tracked for a single key across a sequence of operations,
starting from "the key is currently mapped to the given value": a later
insert of the key replaces the value, a remove of the key or a clear drops
it, operations on other keys leave it alone. -/
def trackKey (key : Int) (cur : Option Int) : Op → Option Int
  | .ins k v => if k = key then some v else cur
  | .del k => if k = key then none else cur
  | .clr => none
  | .qry _ => cur

/-! ## Open-addressing hash table (`open_addressing_hash_table.h`) -/

namespace OA

/-- `OpenAddressingHashTable::EntryState`. -/
inductive EntryState where
  | EMPTY
  | OCCUPIED
  | DELETED
deriving DecidableEq, Repr

/-- `OpenAddressingHashTable::Entry`. -/
structure Entry where
  key : Int
  value : Int
  state : EntryState
deriving DecidableEq, Repr

/-- The default constructor `Entry()`. -/
def Entry.init : Entry := ⟨0, 0, EntryState.EMPTY⟩

/-- The constructor `Entry(int k, int v)`. -/
def Entry.mk2 (k v : Int) : Entry := ⟨k, v, EntryState.OCCUPIED⟩

/-- The fields of `OpenAddressingHashTable`: the slot vector, its size
`table_size` and the live-entry count `current_size`. -/
structure OATable where
  table : List Entry
  table_size : Nat
  current_size : Nat
deriving DecidableEq, Repr

/-- The constructor `OpenAddressingHashTable(initial_size)`:
`table.resize(table_size)` default-constructs every slot. -/
def mkTable (initial_size : Nat) : OATable :=
  { table := List.replicate initial_size Entry.init
    table_size := initial_size
    current_size := 0 }

/-- The loop of `OpenAddressingHashTable::probe`: while the current slot is
non-`EMPTY` and is `DELETED` or holds a different key, advance by
`+1 mod table_size`, breaking when the index returns to the start.  The
fuel argument bounds the number of advances; `table_size` units always
suffice because the index returns to `original_index` after exactly
`table_size` advances (the fuel-zero fallback is unreachable, see
`probeGo_fuel_stable`). -/
def probeGo (table : List Entry) (table_size : Nat) (key : Int)
    (original_index : Nat) : Nat → Nat → Nat
  | 0, index => index
  | fuel + 1, index =>
    let e := table.getD index Entry.init
    if e.state ≠ EntryState.EMPTY ∧
        (e.state = EntryState.DELETED ∨ e.key ≠ key) then
      let index2 := (index + 1) % table_size
      if index2 = original_index then index2
      else probeGo table table_size key original_index fuel index2
    else index

/-- `OpenAddressingHashTable::probe`. -/
def probe (t : OATable) (key : Int) : Nat :=
  let index := hash_function key t.table_size
  probeGo t.table t.table_size key index t.table_size index

/-- The body of `OpenAddressingHashTable::insert` after the load-factor
check: probe, then update in place / write a fresh entry / report failure.
The load-factor check and the resize are layered on top in `insert`;
`resize` re-enters this body directly, which agrees with the C++ (where
`resize` calls `insert`) because the load condition can never fire during
the re-insertion loop, see `resize_eq_full_insert`. -/
def insert_entry (t : OATable) (key value : Int) : OATable × Bool :=
  let index := probe t key
  let e := t.table.getD index Entry.init
  if e.state = EntryState.OCCUPIED ∧ e.key = key then
    ({ t with table := t.table.set index { e with value := value } }, true)
  else if e.state ≠ EntryState.OCCUPIED then
    ({ t with table := t.table.set index (Entry.mk2 key value)
              current_size := t.current_size + 1 }, true)
  else
    (t, false)

/-- `OpenAddressingHashTable::resize`: double the capacity, clear the new
table, reset the count and re-insert every `OCCUPIED` entry. -/
def resize (t : OATable) : OATable :=
  let new_size := t.table_size * 2
  let fresh : OATable :=
    { table := List.replicate new_size Entry.init
      table_size := new_size
      current_size := 0 }
  t.table.foldl
    (fun acc e =>
      if e.state = EntryState.OCCUPIED then (insert_entry acc e.key e.value).1
      else acc)
    fresh

/-- `OpenAddressingHashTable::insert`.  The C++ guard
`(double) current_size / table_size > MAX_LOAD_FACTOR` with
`MAX_LOAD_FACTOR = 0.5` is the exact rational comparison
`2 * current_size > table_size` (both sides are far below `2 ^ 53`, where
double rounding of the quotient cannot cross `0.5`; for `table_size = 0`
the C++ quotient is NaN and the comparison is false, matching `0 > 0`). -/
def insert (t : OATable) (key value : Int) : OATable × Bool :=
  let t1 := if 2 * t.current_size > t.table_size then resize t else t
  insert_entry t1 key value

/-- `OpenAddressingHashTable::remove`: probe, and mark a matching
`OCCUPIED` slot `DELETED` (lazy deletion).  `current_size--` on `size_t`
matches Nat subtraction because a matching occupied slot forces
`current_size ≥ 1` in any well-formed table. -/
def remove (t : OATable) (key : Int) : OATable × Bool :=
  let index := probe t key
  let e := t.table.getD index Entry.init
  if e.state = EntryState.OCCUPIED ∧ e.key = key then
    ({ t with table := t.table.set index { e with state := EntryState.DELETED }
              current_size := t.current_size - 1 }, true)
  else
    (t, false)

/-- `OpenAddressingHashTable::find`: the `bool` result and the `int&`
output slot are combined into an `Option`. -/
def find (t : OATable) (key : Int) : Option Int :=
  let index := probe t key
  let e := t.table.getD index Entry.init
  if e.state = EntryState.OCCUPIED ∧ e.key = key then some e.value
  else none

/-- `OpenAddressingHashTable::clear`: set every state to `EMPTY` and reset
the count. -/
def clear (t : OATable) : OATable :=
  { t with table := t.table.map (fun e => { e with state := EntryState.EMPTY })
           current_size := 0 }

/-- One caller-visible operation applied to the table. -/
def step (t : OATable) : Op → OATable
  | .ins k v => (insert t k v).1
  | .del k => (remove t k).1
  | .clr => clear t
  | .qry _ => t

/-- A whole sequence of caller-visible operations. -/
def exec (t : OATable) (ops : List Op) : OATable :=
  ops.foldl step t

/-- State of the slot at an index (out-of-range reads give the
default-constructed entry, which is never reached at in-range indices). -/
def slotState (t : OATable) (i : Nat) : EntryState :=
  (t.table.getD i Entry.init).state

/-- Key stored in the slot at an index. -/
def slotKey (t : OATable) (i : Nat) : Int :=
  (t.table.getD i Entry.init).key

/-- Value stored in the slot at an index. -/
def slotValue (t : OATable) (i : Nat) : Int :=
  (t.table.getD i Entry.init).value

/-- A probe for `key` stops at index `i`: the slot is `EMPTY`, or it is
`OCCUPIED` and holds `key`. -/
def Stops (t : OATable) (key : Int) (i : Nat) : Prop :=
  slotState t i = EntryState.EMPTY ∨
    (slotState t i = EntryState.OCCUPIED ∧ slotKey t i = key)

/-- The abstract key-value map stored in the table: the (unique, in a
well-formed table) occupied slot holding the key, if any. -/
def model (t : OATable) (key : Int) : Option Int :=
  (t.table.find? (fun e =>
    decide (e.state = EntryState.OCCUPIED ∧ e.key = key))).map Entry.value

/-- Number of `OCCUPIED` slots. -/
def countOcc (t : OATable) : Nat :=
  t.table.countP (fun e => decide (e.state = EntryState.OCCUPIED))

/-- The live key at slot `i` is reached by its probe sequence before any
`EMPTY` slot: some offset `s < table_size` lands on `i` and no earlier
offset lands on an `EMPTY` slot. -/
def ReachesBeforeEmpty (t : OATable) (i : Nat) : Prop :=
  ∃ s, s < t.table_size ∧
    (hash_function (slotKey t i) t.table_size + s) % t.table_size = i ∧
    ∀ s', s' < s →
      slotState t ((hash_function (slotKey t i) t.table_size + s') % t.table_size)
        ≠ EntryState.EMPTY

/-- Well-formedness invariant of the open-addressing table, preserved by
all operations and establishing `find`-correctness: the vector length
matches `table_size`, the capacity is positive, `current_size` counts the
occupied slots, occupied keys are pairwise distinct, and every occupied
slot is reachable by its probe sequence before any empty slot. -/
def Inv (t : OATable) : Prop :=
  t.table.length = t.table_size ∧
  0 < t.table_size ∧
  t.current_size = countOcc t ∧
  (∀ i j, i < t.table_size → j < t.table_size →
    slotState t i = EntryState.OCCUPIED → slotState t j = EntryState.OCCUPIED →
    slotKey t i = slotKey t j → i = j) ∧
  (∀ i, i < t.table_size → slotState t i = EntryState.OCCUPIED →
    ReachesBeforeEmpty t i)

end OA

namespace OA

/-- All inserts in the given key-value list succeed when played in order
(this is the "each insert returning true" hypothesis of the spec). -/
def insertAllOk (t : OATable) : List (Int × Int) → Prop
  | [] => True
  | (k, v) :: rest =>
    (insert t k v).2 = true ∧ insertAllOk (insert t k v).1 rest

/-- Play a list of key-value inserts in order. -/
def insRun (t : OATable) (kvs : List (Int × Int)) : OATable :=
  kvs.foldl (fun acc kv => (insert acc kv.1 kv.2).1) t

/-- `find` instrumented with the modulo-by-zero fault of `hash_function`:
the very first step of `find` hashes the key, which is undefined behaviour
when `table_size = 0`. -/
def find_checked (t : OATable) (key : Int) : Option (Option Int) :=
  match hash_function_checked key t.table_size with
  | none => none
  | some _ => some (find t key)

/-- `remove` instrumented with the modulo-by-zero fault of
`hash_function`. -/
def remove_checked (t : OATable) (key : Int) : Option (OATable × Bool) :=
  match hash_function_checked key t.table_size with
  | none => none
  | some _ => some (remove t key)

/-- `insert` instrumented with the modulo-by-zero fault of
`hash_function` (for `table_size = 0` no resize fires, so the probe hashes
with a zero modulus). -/
def insert_checked (t : OATable) (key value : Int) : Option (OATable × Bool) :=
  let t1 := if 2 * t.current_size > t.table_size then resize t else t
  match hash_function_checked key t1.table_size with
  | none => none
  | some _ => some (insert_entry t1 key value)

end OA

/-! ## AVL-tree-bucket hash table (`avl_hash_table.h`) -/

namespace AVL

/-- `AVLHashTable::AVLNode`: the pointer structure becomes an inductive
tree, `nullptr` becomes `nil`; the stored `int height` field is kept. -/
inductive AVLNode where
  | nil
  | node (key value height : Int) (left right : AVLNode)
deriving DecidableEq, Repr

/-- `node->key`, with a default for `nil` (the C++ dereferences are only
performed on non-null nodes). -/
def node_key : AVLNode → Int
  | .nil => 0
  | .node k _ _ _ _ => k

/-- `node->value`, with a default for `nil`. -/
def node_value : AVLNode → Int
  | .nil => 0
  | .node _ v _ _ _ => v

/-- `node->left`, with `nil` for `nil`. -/
def child_left : AVLNode → AVLNode
  | .nil => .nil
  | .node _ _ _ l _ => l

/-- `node->right`, with `nil` for `nil`. -/
def child_right : AVLNode → AVLNode
  | .nil => .nil
  | .node _ _ _ _ r => r

/-- Replace the left child of a non-null node (`node->left = ...`). -/
def set_left : AVLNode → AVLNode → AVLNode
  | .nil, _ => .nil
  | .node k v h _ r, l2 => .node k v h l2 r

/-- Replace the right child of a non-null node (`node->right = ...`). -/
def set_right : AVLNode → AVLNode → AVLNode
  | .nil, _ => .nil
  | .node k v h l _, r2 => .node k v h l r2

/-- `AVLHashTable::get_height`: the stored height, `0` for null. -/
def get_height : AVLNode → Int
  | .nil => 0
  | .node _ _ h _ _ => h

/-- `AVLHashTable::get_balance`: stored height of the left child minus
stored height of the right child, `0` for null. -/
def get_balance : AVLNode → Int
  | .nil => 0
  | .node _ _ _ l r => get_height l - get_height r

/-- `AVLHashTable::update_height`: recompute the stored height from the
children's stored heights (no-op on null). -/
def update_height : AVLNode → AVLNode
  | .nil => .nil
  | .node k v _ l r => .node k v (1 + max (get_height l) (get_height r)) l r

/-- `AVLHashTable::rotate_right`.  The C++ dereferences `y->left`, so the
function is only called on nodes with a non-null left child; the
fall-through case returns the input unchanged and is unreachable at call
sites. -/
def rotate_right : AVLNode → AVLNode
  | .node yk yv yh (.node xk xv xh T1 T2) T3 =>
    let y2 := update_height (.node yk yv yh T2 T3)
    update_height (.node xk xv xh T1 y2)
  | t => t

/-- `AVLHashTable::rotate_left` (mirror of `rotate_right`). -/
def rotate_left : AVLNode → AVLNode
  | .node xk xv xh T1 (.node yk yv yh T2 T3) =>
    let x2 := update_height (.node xk xv xh T1 T2)
    update_height (.node yk yv yh x2 T3)
  | t => t

/-- The rebalancing tail of `AVLHashTable::insert_avl`, applied to the
node after `update_height`: the four rotation cases selected by the
balance factor and the inserted key's position relative to the child's
key, in the order of the C++ source. -/
def rebalance_insert (n : AVLNode) (key : Int) : AVLNode :=
  let balance := get_balance n
  if balance > 1 ∧ key < node_key (child_left n) then
    rotate_right n
  else if balance < -1 ∧ key > node_key (child_right n) then
    rotate_left n
  else if balance > 1 ∧ key > node_key (child_left n) then
    rotate_right (set_left n (rotate_left (child_left n)))
  else if balance < -1 ∧ key < node_key (child_right n) then
    rotate_left (set_right n (rotate_right (child_right n)))
  else n

/-- `AVLHashTable::insert_avl`: returns the new subtree root together with
the `bool& inserted` flag. -/
def insert_avl : AVLNode → Int → Int → AVLNode × Bool
  | .nil, key, value => (.node key value 1 .nil .nil, true)
  | .node nk nv nh l r, key, value =>
    if key < nk then
      let p := insert_avl l key value
      (rebalance_insert (update_height (.node nk nv nh p.1 r)) key, p.2)
    else if nk < key then
      let p := insert_avl r key value
      (rebalance_insert (update_height (.node nk nv nh l p.1)) key, p.2)
    else
      (.node nk value nh l r, false)

/-- `AVLHashTable::find_min` (leftmost node; the C++ requires a non-null
argument, `nil` maps to `nil`). -/
def find_min : AVLNode → AVLNode
  | .nil => .nil
  | .node k v h l r =>
    match l with
    | .nil => .node k v h .nil r
    | .node lk lv lh ll lr => find_min (.node lk lv lh ll lr)

/-- The rebalancing tail of `AVLHashTable::remove_avl`, applied to the
node after `update_height`: the four deletion rotation cases selected by
the balance factor and the child's own balance factor, in the order of
the C++ source. -/
def rebalance_delete (n : AVLNode) : AVLNode :=
  let balance := get_balance n
  if balance > 1 ∧ get_balance (child_left n) ≥ 0 then
    rotate_right n
  else if balance > 1 ∧ get_balance (child_left n) < 0 then
    rotate_right (set_left n (rotate_left (child_left n)))
  else if balance < -1 ∧ get_balance (child_right n) ≤ 0 then
    rotate_left n
  else if balance < -1 ∧ get_balance (child_right n) > 0 then
    rotate_left (set_right n (rotate_right (child_right n)))
  else n

/-- `AVLHashTable::remove_avl`: returns the new subtree root together with
the `bool& removed` flag.  In the at-most-one-child case the C++ either
nulls the node (leaf) or copies the single child's contents over the node
(`*node = *temp`), which is the child subtree itself; in the two-children
case the in-order successor's key/value are copied into the node and the
successor is deleted from the right subtree. -/
def remove_avl : AVLNode → Int → AVLNode × Bool
  | .nil, _ => (.nil, false)
  | .node nk nv nh l r, key =>
    if key < nk then
      let p := remove_avl l key
      (rebalance_delete (update_height (.node nk nv nh p.1 r)), p.2)
    else if nk < key then
      let p := remove_avl r key
      (rebalance_delete (update_height (.node nk nv nh l p.1)), p.2)
    else
      match l, r with
      | .nil, .nil => (.nil, true)
      | .nil, .node rk rv rh rl rr =>
        (rebalance_delete (update_height (.node rk rv rh rl rr)), true)
      | .node lk lv lh ll lr, .nil =>
        (rebalance_delete (update_height (.node lk lv lh ll lr)), true)
      | .node lk lv lh ll lr, .node rk rv rh rl rr =>
        let succ := find_min (.node rk rv rh rl rr)
        let p := remove_avl (.node rk rv rh rl rr) (node_key succ)
        (rebalance_delete (update_height
          (.node (node_key succ) (node_value succ) nh
            (.node lk lv lh ll lr) p.1)), true)

/-- `AVLHashTable::find_avl`: the `bool` result and the `int&` output slot
combined into an `Option`. -/
def find_avl : AVLNode → Int → Option Int
  | .nil, _ => none
  | .node nk nv _ l r, key =>
    if key = nk then some nv
    else if key < nk then find_avl l key
    else find_avl r key

/-- The fields of `AVLHashTable`: the bucket-root vector, its size and the
total entry count. -/
structure AVLTable where
  table : List AVLNode
  table_size : Nat
  current_size : Nat
deriving DecidableEq, Repr

/-- The constructor `AVLHashTable(initial_size)`. -/
def mkTable (initial_size : Nat) : AVLTable :=
  { table := List.replicate initial_size AVLNode.nil
    table_size := initial_size
    current_size := 0 }

/-- The body of `AVLHashTable::insert` after the load-factor check: hash,
insert into the bucket tree, bump the count when a new node was created.
Always returns `true`.  The load check and resize are layered on top in
`insert`; `resize` re-enters this body directly, which agrees with the C++
(where the re-insertion helper calls `insert`) because the load condition
can never fire during re-insertion, see `avl_resize_eq_full_insert`. -/
def insert_bucket (t : AVLTable) (key value : Int) : AVLTable × Bool :=
  let index := hash_function key t.table_size
  let p := insert_avl (t.table.getD index .nil) key value
  ({ t with table := t.table.set index p.1
            current_size := if p.2 then t.current_size + 1 else t.current_size },
   true)

/-- `AVLHashTable::collect_and_reinsert`: pre-order traversal of an old
bucket tree, inserting every node into the accumulating new table. -/
def collect_and_reinsert (acc : AVLTable) : AVLNode → AVLTable
  | .nil => acc
  | .node k v _ l r =>
    let acc1 := (insert_bucket acc k v).1
    let acc2 := collect_and_reinsert acc1 l
    collect_and_reinsert acc2 r

/-- `AVLHashTable::resize`: double the capacity, reset, and re-insert the
contents of every old bucket. -/
def resize (t : AVLTable) : AVLTable :=
  let fresh : AVLTable :=
    { table := List.replicate (t.table_size * 2) AVLNode.nil
      table_size := t.table_size * 2
      current_size := 0 }
  t.table.foldl collect_and_reinsert fresh

/-- `AVLHashTable::insert`.  The C++ guard
`(double) current_size / table_size > MAX_LOAD_FACTOR` with
`MAX_LOAD_FACTOR = 1.0` is the exact comparison
`current_size > table_size` (for `table_size = 0` the C++ quotient is NaN
and the comparison false, matching `0 > 0`). -/
def insert (t : AVLTable) (key value : Int) : AVLTable × Bool :=
  let t1 := if t.current_size > t.table_size then resize t else t
  insert_bucket t1 key value

/-- `AVLHashTable::remove`.  `current_size--` on `size_t` matches Nat
subtraction because a successful removal forces `current_size ≥ 1` in any
well-formed table. -/
def remove (t : AVLTable) (key : Int) : AVLTable × Bool :=
  let index := hash_function key t.table_size
  let p := remove_avl (t.table.getD index .nil) key
  ({ t with table := t.table.set index p.1
            current_size := if p.2 then t.current_size - 1 else t.current_size },
   p.2)

/-- `AVLHashTable::find`. -/
def find (t : AVLTable) (key : Int) : Option Int :=
  find_avl (t.table.getD (hash_function key t.table_size) .nil) key

/-- `AVLHashTable::clear`: every bucket tree is released and nulled. -/
def clear (t : AVLTable) : AVLTable :=
  { t with table := t.table.map (fun _ => AVLNode.nil)
           current_size := 0 }

/-- One caller-visible operation applied to the table. -/
def step (t : AVLTable) : Op → AVLTable
  | .ins k v => (insert t k v).1
  | .del k => (remove t k).1
  | .clr => clear t
  | .qry _ => t

/-- A whole sequence of caller-visible operations. -/
def exec (t : AVLTable) (ops : List Op) : AVLTable :=
  ops.foldl step t

/-- In-order key list of a bucket tree. -/
def keys : AVLNode → List Int
  | .nil => []
  | .node k _ _ l r => keys l ++ k :: keys r

/-- Structural binary-search-tree property on keys. -/
def BSTp : AVLNode → Prop
  | .nil => True
  | .node k _ _ l r =>
    (∀ x ∈ keys l, x < k) ∧ (∀ x ∈ keys r, k < x) ∧ BSTp l ∧ BSTp r

/-- Height of the tree as actually realized by its structure. -/
def realHeight : AVLNode → Nat
  | .nil => 0
  | .node _ _ _ l r => 1 + max (realHeight l) (realHeight r)

/-- Every stored height field equals one plus the maximum of the
children's stored heights (with `0` for an absent child). -/
def HeightsOK : AVLNode → Prop
  | .nil => True
  | .node _ _ h l r =>
    HeightsOK l ∧ HeightsOK r ∧ h = 1 + max (get_height l) (get_height r)

/-- AVL balance: at every node the realized heights of the two subtrees
differ by at most one. -/
def BalancedP : AVLNode → Prop
  | .nil => True
  | .node _ _ _ l r =>
    BalancedP l ∧ BalancedP r ∧
    ((realHeight l : Int) - (realHeight r : Int)).natAbs ≤ 1

/-- Full per-tree invariant: search-tree order, correct stored heights and
AVL balance. -/
def Good (t : AVLNode) : Prop :=
  BSTp t ∧ HeightsOK t ∧ BalancedP t

/-- Total number of keys stored across all buckets. -/
def totalCount (t : AVLTable) : Nat :=
  (t.table.map (fun b => (keys b).length)).sum

/-- Well-formedness invariant of the AVL table: vector length matches
`table_size`, positive capacity, `current_size` counts all stored keys and
exceeds the capacity by at most one, and every bucket tree is `Good` with
all its keys hashing to that bucket. -/
def Inv (t : AVLTable) : Prop :=
  t.table.length = t.table_size ∧
  0 < t.table_size ∧
  t.current_size = totalCount t ∧
  t.current_size ≤ t.table_size + 1 ∧
  ∀ i, i < t.table_size →
    Good (t.table.getD i .nil) ∧
    ∀ k ∈ keys (t.table.getD i .nil), hash_function k t.table_size = i

end AVL

namespace AVL

/-- All inserts in the given key-value list succeed when played in order. -/
def insertAllOk (t : AVLTable) : List (Int × Int) → Prop
  | [] => True
  | (k, v) :: rest =>
    (insert t k v).2 = true ∧ insertAllOk (insert t k v).1 rest

/-- Play a list of key-value inserts in order. -/
def insRun (t : AVLTable) (kvs : List (Int × Int)) : AVLTable :=
  kvs.foldl (fun acc kv => (insert acc kv.1 kv.2).1) t

/-- `find` instrumented with the modulo-by-zero fault of
`hash_function`. -/
def find_checked (t : AVLTable) (key : Int) : Option (Option Int) :=
  match hash_function_checked key t.table_size with
  | none => none
  | some _ => some (find t key)

/-- `remove` instrumented with the modulo-by-zero fault of
`hash_function`. -/
def remove_checked (t : AVLTable) (key : Int) : Option (AVLTable × Bool) :=
  match hash_function_checked key t.table_size with
  | none => none
  | some _ => some (remove t key)

/-- `insert` instrumented with the modulo-by-zero fault of
`hash_function`. -/
def insert_checked (t : AVLTable) (key value : Int) : Option (AVLTable × Bool) :=
  let t1 := if t.current_size > t.table_size then resize t else t
  match hash_function_checked key t1.table_size with
  | none => none
  | some _ => some (insert_bucket t1 key value)

/-- Pre-order key-value pairs of a bucket tree (the order in which
`collect_and_reinsert` replays them). -/
def preorderPairs : AVLNode → List (Int × Int)
  | .nil => []
  | .node k v _ l r => (k, v) :: (preorderPairs l ++ preorderPairs r)

/-- Variant of `collect_and_reinsert` written with the full `insert`
(including the load-factor check), exactly as in the C++ source; see
`avl_resize_eq_full_insert` for the proof that during a resize of a
well-formed table it coincides with `collect_and_reinsert`. -/
def collect_and_reinsert_full (acc : AVLTable) : AVLNode → AVLTable
  | .nil => acc
  | .node k v _ l r =>
    let acc1 := (insert acc k v).1
    let acc2 := collect_and_reinsert_full acc1 l
    collect_and_reinsert_full acc2 r

end AVL

/-! ## Arithmetic helpers for probe sequences -/

/-- Adding one commutes with an outer reduction modulo `n`. -/
theorem add_one_mod_eq (a n : Nat) : (a % n + 1) % n = (a + 1) % n :=
  Nat.ModEq.add_right 1 (Nat.mod_modEq a n)

/-- An inner reduction modulo `n` is absorbed by the outer one. -/
theorem add_mod_absorb (h x n : Nat) : (h + x % n) % n = (h + x) % n :=
  Nat.ModEq.add_left h (Nat.mod_modEq x n)

/-- For a start index below `n`, an offset lands back on the start exactly
when the offset is a multiple of `n`. -/
theorem mod_add_eq_self_iff {h n : Nat} (hh : h < n) (x : Nat) :
    (h + x) % n = h ↔ x % n = 0 := by
  have hpos : 0 < n := Nat.lt_of_le_of_lt (Nat.zero_le h) hh
  rw [← add_mod_absorb h x n]
  have hr : x % n < n := Nat.mod_lt _ hpos
  constructor
  · intro he
    by_contra hne
    rcases Nat.lt_or_ge (h + x % n) n with hlt | hge
    · rw [Nat.mod_eq_of_lt hlt] at he
      omega
    · have h2 : h + x % n - n < n := by omega
      rw [Nat.mod_eq_sub_mod hge, Nat.mod_eq_of_lt h2] at he
      omega
  · intro he
    rw [he, Nat.add_zero, Nat.mod_eq_of_lt hh]

/-- Distinct offsets below `n` land on distinct indices. -/
theorem mod_add_inj {h n : Nat} (s s' : Nat) (hs : s < n) (hs' : s' < n)
    (he : (h + s) % n = (h + s') % n) : s = s' := by
  have hm : Nat.ModEq n (h + s) (h + s') := he
  have h1 : s % n = s' % n := Nat.ModEq.add_left_cancel' h hm
  rwa [Nat.mod_eq_of_lt hs, Nat.mod_eq_of_lt hs'] at h1

/-- Every index below `n` is hit by some offset below `n`. -/
theorem mod_add_surj {h n : Nat} (hh : h < n) (i : Nat) (hi : i < n) :
    ∃ s, s < n ∧ (h + s) % n = i := by
  have hpos : 0 < n := Nat.lt_of_le_of_lt (Nat.zero_le h) hh
  refine ⟨(n + i - h) % n, Nat.mod_lt _ hpos, ?_⟩
  rw [add_mod_absorb]
  have hy : h + (n + i - h) = n + i := by omega
  rw [hy, Nat.add_mod_left, Nat.mod_eq_of_lt hi]

/-! ## Probe characterization -/

namespace OA

/-- The loop guard of `probe` is the negation of `Stops`. -/
theorem cont_iff_not_stops (t : OATable) (key : Int) (i : Nat) :
    ((t.table.getD i Entry.init).state ≠ EntryState.EMPTY ∧
      ((t.table.getD i Entry.init).state = EntryState.DELETED ∨
        (t.table.getD i Entry.init).key ≠ key))
    ↔ ¬ Stops t key i := by
  unfold Stops slotState slotKey
  cases hs : (t.table.getD i Entry.init).state <;> simp [hs]

/-- A probe that starts on a stopping slot returns it unchanged, whatever
the fuel. -/
theorem probeGo_at_stop (t : OATable) (key : Int) (orig : Nat)
    (i : Nat) (hstop : Stops t key i) :
    ∀ fuel, probeGo t.table t.table_size key orig fuel i = i := by
  intro fuel
  cases fuel with
  | zero => rfl
  | succ fuel =>
    have hcond : ¬ ((t.table.getD i Entry.init).state ≠ EntryState.EMPTY ∧
        ((t.table.getD i Entry.init).state = EntryState.DELETED ∨
          (t.table.getD i Entry.init).key ≠ key)) :=
      fun hc => ((cont_iff_not_stops t key i).mp hc) hstop
    simp only [probeGo]
    rw [if_neg hcond]

/-- Auxiliary run of the probe loop towards the first stopping offset
`s0`: from position `j ≤ s0` with enough fuel, the loop returns the slot
at offset `s0`. -/
theorem probeGo_run_to_stop (t : OATable) (key : Int)
    (hpos : 0 < t.table_size)
    (hh : hash_function key t.table_size < t.table_size)
    (s0 : Nat) (hs0 : s0 < t.table_size)
    (hstop : Stops t key ((hash_function key t.table_size + s0) % t.table_size))
    (hmin : ∀ s, s < s0 →
      ¬ Stops t key ((hash_function key t.table_size + s) % t.table_size)) :
    ∀ d j fuel, j + d = s0 → d ≤ fuel →
      probeGo t.table t.table_size key (hash_function key t.table_size) fuel
        ((hash_function key t.table_size + j) % t.table_size)
      = (hash_function key t.table_size + s0) % t.table_size := by
  intro d
  induction d with
  | zero =>
    intro j fuel hj _
    have hj' : j = s0 := by omega
    subst hj'
    exact probeGo_at_stop t key _ _ hstop fuel
  | succ d ih =>
    intro j fuel hj hfuel
    have hjlt : j < s0 := by omega
    have hns : ¬ Stops t key ((hash_function key t.table_size + j) % t.table_size) :=
      hmin j hjlt
    have hcond := (cont_iff_not_stops t key _).mpr hns
    obtain ⟨fuel', rfl⟩ : ∃ f, fuel = f + 1 := ⟨fuel - 1, by omega⟩
    simp only [probeGo]
    rw [if_pos hcond]
    have hidx : ((hash_function key t.table_size + j) % t.table_size + 1) % t.table_size
        = (hash_function key t.table_size + (j + 1)) % t.table_size := by
      rw [add_one_mod_eq, Nat.add_assoc]
    simp only [hidx]
    have hnb : (hash_function key t.table_size + (j + 1)) % t.table_size
        ≠ hash_function key t.table_size := by
      rw [Ne, mod_add_eq_self_iff hh]
      rw [Nat.mod_eq_of_lt (by omega)]
      omega
    rw [if_neg hnb]
    exact ih (j + 1) fuel' (by omega) (by omega)

/-- Auxiliary run of the probe loop when no offset stops it: the loop
wraps all the way around and returns the start index. -/
theorem probeGo_run_wrap (t : OATable) (key : Int)
    (hpos : 0 < t.table_size)
    (hh : hash_function key t.table_size < t.table_size)
    (hall : ∀ s, s < t.table_size →
      ¬ Stops t key ((hash_function key t.table_size + s) % t.table_size)) :
    ∀ d j fuel, j + d = t.table_size → j < t.table_size → d ≤ fuel →
      probeGo t.table t.table_size key (hash_function key t.table_size) fuel
        ((hash_function key t.table_size + j) % t.table_size)
      = hash_function key t.table_size := by
  intro d
  induction d with
  | zero => intro j fuel hj hjlt _; omega
  | succ d ih =>
    intro j fuel hj hjlt hfuel
    have hns := hall j hjlt
    have hcond := (cont_iff_not_stops t key _).mpr hns
    obtain ⟨fuel', rfl⟩ : ∃ f, fuel = f + 1 := ⟨fuel - 1, by omega⟩
    simp only [probeGo]
    rw [if_pos hcond]
    have hidx : ((hash_function key t.table_size + j) % t.table_size + 1) % t.table_size
        = (hash_function key t.table_size + (j + 1)) % t.table_size := by
      rw [add_one_mod_eq, Nat.add_assoc]
    simp only [hidx]
    by_cases hwrap : j + 1 = t.table_size
    · have heq : (hash_function key t.table_size + (j + 1)) % t.table_size
          = hash_function key t.table_size := by
        rw [hwrap, Nat.add_mod_right]
        exact Nat.mod_eq_of_lt hh
      rw [if_pos heq]
      exact heq
    · have hnb : (hash_function key t.table_size + (j + 1)) % t.table_size
          ≠ hash_function key t.table_size := by
        rw [Ne, mod_add_eq_self_iff hh]
        rw [Nat.mod_eq_of_lt (by omega)]
        omega
      rw [if_neg hnb]
      exact ih (j + 1) fuel' (by omega) (by omega) (by omega)

end OA

namespace OA

/-- The hash index is always within bounds for a positive capacity. -/
theorem hash_lt (key : Int) (n : Nat) (hpos : 0 < n) :
    hash_function key n < n :=
  Nat.mod_lt _ hpos

/-- Complete characterization of `probe`: either some offset below the
capacity stops the probe, and `probe` returns the slot at the least such
offset; or no offset stops it, and `probe` wraps back to the start
index. -/
theorem probe_cases (t : OATable) (key : Int) (hpos : 0 < t.table_size) :
    (∃ s0, s0 < t.table_size ∧
      Stops t key ((hash_function key t.table_size + s0) % t.table_size) ∧
      (∀ s, s < s0 →
        ¬ Stops t key ((hash_function key t.table_size + s) % t.table_size)) ∧
      probe t key = (hash_function key t.table_size + s0) % t.table_size)
    ∨ ((∀ s, s < t.table_size →
        ¬ Stops t key ((hash_function key t.table_size + s) % t.table_size)) ∧
      probe t key = hash_function key t.table_size) := by
  have hh := hash_lt key t.table_size hpos
  by_cases hex : ∃ s, s < t.table_size ∧
      Stops t key ((hash_function key t.table_size + s) % t.table_size)
  · left
    classical
    have hfind := Nat.find_spec hex
    refine ⟨Nat.find hex, hfind.1, hfind.2, ?_, ?_⟩
    · intro s hs
      have := Nat.find_min hex hs
      intro hstop
      exact this ⟨Nat.lt_trans hs hfind.1, hstop⟩
    · have hrun := probeGo_run_to_stop t key hpos hh (Nat.find hex) hfind.1 hfind.2
        (fun s hs hstop => Nat.find_min hex hs ⟨Nat.lt_trans hs hfind.1, hstop⟩)
        (Nat.find hex) 0 t.table_size (by omega) (by omega)
      rw [Nat.add_zero, Nat.mod_eq_of_lt hh] at hrun
      exact hrun
  · right
    push_neg at hex
    have hall : ∀ s, s < t.table_size →
        ¬ Stops t key ((hash_function key t.table_size + s) % t.table_size) :=
      fun s hs => hex s hs
    refine ⟨hall, ?_⟩
    have hrun := probeGo_run_wrap t key hpos hh hall t.table_size 0 t.table_size
      (by omega) hpos (by omega)
    rw [Nat.add_zero, Nat.mod_eq_of_lt hh] at hrun
    exact hrun

/-- The index returned by `probe` is within bounds. -/
theorem probe_lt (t : OATable) (key : Int) (hpos : 0 < t.table_size) :
    probe t key < t.table_size := by
  rcases probe_cases t key hpos with ⟨s0, _, _, _, hp⟩ | ⟨_, hp⟩
  · rw [hp]; exact Nat.mod_lt _ hpos
  · rw [hp]; exact hash_lt key t.table_size hpos

/-- The slot returned by `probe` is an `EMPTY` slot, the `OCCUPIED` slot
holding the key, or — only when no offset in the whole probe cycle stops
the probe — the start index itself. -/
theorem probe_trichotomy (t : OATable) (key : Int) (hpos : 0 < t.table_size) :
    Stops t key (probe t key) ∨
    (probe t key = hash_function key t.table_size ∧
      ∀ s, s < t.table_size →
        ¬ Stops t key ((hash_function key t.table_size + s) % t.table_size)) := by
  rcases probe_cases t key hpos with ⟨s0, _, hstop, _, hp⟩ | ⟨hall, hp⟩
  · left; rw [hp]; exact hstop
  · right; exact ⟨hp, hall⟩

/-- Fuel above the capacity is never consumed: the probe loop examines at
most `table_size` slots before stopping or wrapping. -/
theorem probeGo_fuel_stable (t : OATable) (key : Int) (hpos : 0 < t.table_size) :
    ∀ extra,
      probeGo t.table t.table_size key (hash_function key t.table_size)
        (t.table_size + extra) (hash_function key t.table_size)
      = probe t key := by
  intro extra
  have hh := hash_lt key t.table_size hpos
  rcases probe_cases t key hpos with ⟨s0, hs0, hstop, hmin, hp⟩ | ⟨hall, hp⟩
  · have hrun := probeGo_run_to_stop t key hpos hh s0 hs0 hstop hmin
      s0 0 (t.table_size + extra) (by omega) (by omega)
    rw [Nat.add_zero, Nat.mod_eq_of_lt hh] at hrun
    rw [hrun, hp]
  · have hrun := probeGo_run_wrap t key hpos hh hall t.table_size 0
      (t.table_size + extra) (by omega) hpos (by omega)
    rw [Nat.add_zero, Nat.mod_eq_of_lt hh] at hrun
    rw [hrun, hp]

end OA

/-! ## List-level helpers -/

/-- Reading a just-written position. -/
theorem getD_set_self {α : Type} (l : List α) (i : Nat) (a d : α)
    (h : i < l.length) : (l.set i a).getD i d = a := by
  simp [List.getD, List.getElem?_set, h]

/-- Reading another position after a write. -/
theorem getD_set_ne {α : Type} (l : List α) (i j : Nat) (a d : α)
    (h : i ≠ j) : (l.set i a).getD j d = l.getD j d := by
  simp [List.getD, List.getElem?_set, h]

/-- Out-of-range reads give the default. -/
theorem getD_eq_default {α : Type} (l : List α) (n : Nat) (d : α)
    (h : l.length ≤ n) : l.getD n d = d := by
  simp [List.getD, List.getElem?_eq_none h]

/-- A predicate holding at no more than one position bounds the count by
one. -/
theorem countP_le_one_of_at_most_one {α : Type} (p : α → Bool) (d : α) :
    ∀ l : List α,
      (∀ i j, i < l.length → j < l.length →
        p (l.getD i d) = true → p (l.getD j d) = true → i = j) →
      l.countP p ≤ 1 := by
  intro l
  induction l with
  | nil => intro _; simp
  | cons e rest ih =>
    intro huniq
    rw [List.countP_cons]
    by_cases hp : p e = true
    · have hzero : rest.countP p = 0 := by
        rw [List.countP_eq_zero]
        intro x hx hpx
        obtain ⟨i, hi, hgx⟩ := List.mem_iff_getElem.mp hx
        have hgetd : rest.getD i d = x := by
          rw [List.getD_eq_getElem rest d hi, hgx]
        have h0 : (e :: rest).getD 0 d = e := rfl
        have hsi : (e :: rest).getD (i + 1) d = rest.getD i d := rfl
        have := huniq 0 (i + 1) (by simp) (by simp; omega)
          (by rw [h0]; exact hp) (by rw [hsi, hgetd]; exact hpx)
        omega
      rw [hzero, if_pos hp]
    · rw [if_neg hp, Nat.add_zero]
      refine ih ?_
      intro i j hi hj hpi hpj
      have := huniq (i + 1) (j + 1) (by simp; omega) (by simp; omega)
        (by simpa using hpi) (by simpa using hpj)
      omega

/-- Count after overwriting a non-satisfying element with a satisfying
one. -/
theorem countP_set_new {α : Type} (p : α → Bool) (d : α) :
    ∀ (l : List α) (i : Nat) (a : α), i < l.length →
      p (l.getD i d) = false → p a = true →
      (l.set i a).countP p = l.countP p + 1 := by
  intro l
  induction l with
  | nil => intro i a hi; simp at hi
  | cons e rest ih =>
    intro i a hi hold hnew
    cases i with
    | zero =>
      simp only [List.getD_cons_zero] at hold
      simp only [List.set]
      rw [List.countP_cons, List.countP_cons, if_pos hnew, if_neg (by simp [hold])]
    | succ i =>
      simp only [List.getD_cons_succ] at hold
      simp only [List.set]
      rw [List.countP_cons, List.countP_cons,
        ih i a (by simpa using hi) hold hnew]
      omega

/-- Count after overwriting a satisfying element with a non-satisfying
one. -/
theorem countP_set_drop {α : Type} (p : α → Bool) (d : α) :
    ∀ (l : List α) (i : Nat) (a : α), i < l.length →
      p (l.getD i d) = true → p a = false →
      (l.set i a).countP p + 1 = l.countP p := by
  intro l
  induction l with
  | nil => intro i a hi; simp at hi
  | cons e rest ih =>
    intro i a hi hold hnew
    cases i with
    | zero =>
      simp only [List.getD_cons_zero] at hold
      simp only [List.set]
      rw [List.countP_cons, List.countP_cons, if_pos hold, if_neg (by simp [hnew])]
    | succ i =>
      simp only [List.getD_cons_succ] at hold
      simp only [List.set]
      rw [List.countP_cons, List.countP_cons,
        ← ih i a (by simpa using hi) hold hnew]
      omega

/-- Count after a write that does not change whether the predicate
holds. -/
theorem countP_set_same {α : Type} (p : α → Bool) (d : α) :
    ∀ (l : List α) (i : Nat) (a : α), i < l.length →
      p (l.getD i d) = p a →
      (l.set i a).countP p = l.countP p := by
  intro l
  induction l with
  | nil => intro i a hi; simp at hi
  | cons e rest ih =>
    intro i a hi hsame
    cases i with
    | zero =>
      simp only [List.getD_cons_zero] at hsame
      simp only [List.set]
      rw [List.countP_cons, List.countP_cons, ← hsame]
    | succ i =>
      simp only [List.getD_cons_succ] at hsame
      simp only [List.set]
      rw [List.countP_cons, List.countP_cons,
        ih i a (by simpa using hi) hsame]

/-! ## Open-addressing invariant machinery -/

namespace OA

/-- The table holds no binding for `q` exactly when no in-range slot is
occupied with key `q`. -/
theorem model_none_iff (t : OATable) (q : Int)
    (hlen : t.table.length = t.table_size) :
    model t q = none ↔ ∀ i, i < t.table_size →
      ¬ (slotState t i = EntryState.OCCUPIED ∧ slotKey t i = q) := by
  unfold model
  rw [Option.map_eq_none', List.find?_eq_none]
  constructor
  · intro hm i hi hslot
    have hi' : i < t.table.length := by omega
    have hmem : t.table.getD i Entry.init ∈ t.table := by
      rw [List.getD_eq_getElem t.table Entry.init hi']
      exact List.getElem_mem hi'
    rcases hslot with ⟨h1, h2⟩
    unfold slotState at h1
    unfold slotKey at h2
    exact hm _ hmem (decide_eq_true ⟨h1, h2⟩)
  · intro hall e hmem hp
    obtain ⟨i, hi, hei⟩ := List.mem_iff_getElem.mp hmem
    have hgd : t.table.getD i Entry.init = e := by
      rw [List.getD_eq_getElem t.table Entry.init hi, hei]
    refine hall i (by omega) ?_
    constructor
    · unfold slotState; rw [hgd]; exact (of_decide_eq_true hp).1
    · unfold slotKey; rw [hgd]; exact (of_decide_eq_true hp).2

/-- Under the invariant, the table holds `q ↦ v` exactly when some
in-range slot is occupied with key `q` and value `v`. -/
theorem model_some_iff (t : OATable) (q : Int) (v : Int) (hInv : Inv t) :
    model t q = some v ↔ ∃ i, i < t.table_size ∧
      slotState t i = EntryState.OCCUPIED ∧ slotKey t i = q ∧
      slotValue t i = v := by
  obtain ⟨hlen, hpos, hcount, huniq, hreach⟩ := hInv
  constructor
  · intro hm
    unfold model at hm
    rw [Option.map_eq_some'] at hm
    obtain ⟨e, hfind, hval⟩ := hm
    have hp := List.find?_some hfind
    have hmem := List.mem_of_find?_eq_some hfind
    obtain ⟨i, hi, hei⟩ := List.mem_iff_getElem.mp hmem
    have hgd : t.table.getD i Entry.init = e := by
      rw [List.getD_eq_getElem t.table Entry.init hi, hei]
    refine ⟨i, by omega, ?_, ?_, ?_⟩
    · unfold slotState; rw [hgd]; exact (of_decide_eq_true hp).1
    · unfold slotKey; rw [hgd]; exact (of_decide_eq_true hp).2
    · unfold slotValue; rw [hgd, hval]
  · intro ⟨i, hi, hocc, hkey, hval⟩
    have hi' : i < t.table.length := by omega
    have hmem : t.table.getD i Entry.init ∈ t.table := by
      rw [List.getD_eq_getElem t.table Entry.init hi']
      exact List.getElem_mem hi'
    unfold slotState at hocc
    unfold slotKey at hkey
    have hpself : decide ((t.table.getD i Entry.init).state = EntryState.OCCUPIED ∧
        (t.table.getD i Entry.init).key = q) = true :=
      decide_eq_true ⟨hocc, hkey⟩
    have hsome : (t.table.find? (fun e =>
        decide (e.state = EntryState.OCCUPIED ∧ e.key = q))).isSome := by
      rw [List.find?_isSome]
      exact ⟨_, hmem, hpself⟩
    obtain ⟨e, hfind⟩ := Option.isSome_iff_exists.mp hsome
    have hp := List.find?_some hfind
    have hmem2 := List.mem_of_find?_eq_some hfind
    obtain ⟨j, hj, hej⟩ := List.mem_iff_getElem.mp hmem2
    have hgd : t.table.getD j Entry.init = e := by
      rw [List.getD_eq_getElem t.table Entry.init hj, hej]
    have hoccj : (t.table.getD j Entry.init).state = EntryState.OCCUPIED := by
      rw [hgd]; exact (of_decide_eq_true hp).1
    have hkeyj : (t.table.getD j Entry.init).key = q := by
      rw [hgd]; exact (of_decide_eq_true hp).2
    have hij : i = j := huniq i j hi (by omega) hocc hoccj (by
      show (t.table.getD i Entry.init).key = (t.table.getD j Entry.init).key
      rw [hkey, hkeyj])
    unfold model
    rw [hfind]
    unfold slotValue at hval
    rw [← hij] at hgd
    rw [hgd] at hval
    show some e.value = some v
    exact congrArg some hval

/-- Under the invariant, the probe for the key stored in a live slot
returns exactly that slot. -/
theorem probe_at_present (t : OATable) (k : Int) (j : Nat) (hInv : Inv t)
    (hj : j < t.table_size) (hocc : slotState t j = EntryState.OCCUPIED)
    (hkey : slotKey t j = k) : probe t k = j := by
  obtain ⟨hlen, hpos, hcount, huniq, hreach⟩ := hInv
  obtain ⟨sj, hsj, hsj_eq, hsj_pre⟩ := hreach j hj hocc
  rw [hkey] at hsj_eq hsj_pre
  have hstopj : Stops t k ((hash_function k t.table_size + sj) % t.table_size) := by
    rw [hsj_eq]; right; exact ⟨hocc, hkey⟩
  rcases probe_cases t k hpos with ⟨s0, hs0, hstop, hmin, hp⟩ | ⟨hall, hp⟩
  · have hs0_le : s0 ≤ sj := by
      by_contra hgt
      exact hmin sj (by omega) hstopj
    rcases Nat.eq_or_lt_of_le hs0_le with heq | hlt
    · rw [hp, heq, hsj_eq]
    · rcases hstop with hemp | ⟨hocc0, hkey0⟩
      · exact absurd hemp (hsj_pre s0 hlt)
      · have : (hash_function k t.table_size + s0) % t.table_size = j :=
          huniq _ j (Nat.mod_lt _ hpos) hj hocc0 hocc (by rw [hkey0, hkey])
        rw [← hsj_eq] at this
        have := mod_add_inj s0 sj hs0 hsj this
        omega
  · exact absurd hstopj (hall sj hsj)

/-- Under the invariant, `find` computes the abstract map. -/
theorem find_eq_model (t : OATable) (k : Int) (hInv : Inv t) :
    find t k = model t k := by
  have hInv' := hInv
  obtain ⟨hlen, hpos, hcount, huniq, hreach⟩ := hInv'
  cases hm : model t k with
  | some v =>
    obtain ⟨i, hi, hocc, hkey, hval⟩ := (model_some_iff t k v hInv).mp hm
    have hp := probe_at_present t k i hInv hi hocc hkey
    unfold find
    simp only [hp]
    unfold slotState at hocc
    unfold slotKey at hkey
    unfold slotValue at hval
    rw [if_pos ⟨hocc, hkey⟩, hval]
  | none =>
    have hnone := (model_none_iff t k hlen).mp hm
    unfold find
    rcases probe_trichotomy t k hpos with hstop | ⟨hp, hall⟩
    · rcases hstop with hemp | ⟨hocc, hkey⟩
      · rw [if_neg]
        intro ⟨h1, _⟩
        unfold slotState at hemp
        rw [hemp] at h1
        simp at h1
      · have hplt := probe_lt t k hpos
        exact absurd ⟨hocc, hkey⟩ (hnone _ hplt)
    · rw [if_neg]
      intro ⟨h1, h2⟩
      have hplt := probe_lt t k hpos
      exact hnone _ hplt ⟨h1, h2⟩

end OA

namespace OA

/-- Transfer of the invariant along pointwise-equal slot contents. -/
theorem Inv_of_pointwise (t t' : OATable)
    (hsz : t'.table_size = t.table_size)
    (hlen : t'.table.length = t.table.length)
    (hcs : t'.current_size = t.current_size)
    (hst : ∀ x, slotState t' x = slotState t x)
    (hky : ∀ x, slotKey t' x = slotKey t x)
    (hInv : Inv t) : Inv t' := by
  obtain ⟨hlen0, hpos, hcount, huniq, hreach⟩ := hInv
  refine ⟨by omega, by omega, ?_, ?_, ?_⟩
  · rw [hcs, hcount]
    unfold countOcc
    have : ∀ i, i < t.table.length →
        (fun e => decide (e.state = EntryState.OCCUPIED)) (t'.table.getD i Entry.init)
        = (fun e => decide (e.state = EntryState.OCCUPIED)) (t.table.getD i Entry.init) := by
      intro i hi
      have hx := hst i
      unfold slotState at hx
      show decide ((t'.table.getD i Entry.init).state = EntryState.OCCUPIED)
          = decide ((t.table.getD i Entry.init).state = EntryState.OCCUPIED)
      rw [hx]
    clear hst hky hreach huniq hcount
    revert this hlen
    generalize t'.table = l1
    generalize t.table = l2
    intro hlen hpt
    induction l2 generalizing l1 with
    | nil =>
      cases l1 with
      | nil => simp
      | cons a l => simp at hlen
    | cons b l2t ih =>
      cases l1 with
      | nil => simp at hlen
      | cons a l1t =>
        rw [List.countP_cons, List.countP_cons]
        have h0 := hpt 0 (by simp)
        simp only [List.getD_cons_zero] at h0
        rw [h0]
        have := ih l1t (by simpa using hlen) (fun i hi => by
          have := hpt (i + 1) (by simp; omega)
          simpa using this)
        omega
  · intro i j hi hj hoi hoj hks
    rw [hsz] at hi hj
    exact huniq i j hi hj (by rw [← hst]; exact hoi) (by rw [← hst]; exact hoj)
      (by rw [← hky i, ← hky j]; exact hks)
  · intro i hi hocc
    rw [hsz] at hi
    obtain ⟨s, hs, hseq, hpre⟩ := hreach i hi (by rw [← hst]; exact hocc)
    refine ⟨s, by omega, ?_, ?_⟩
    · rw [hky, hsz]; exact hseq
    · intro s' hs'
      rw [hky, hsz, hst]
      exact hpre s' hs'

/-- Probe-reachability survives any modification that creates no new
`EMPTY` slot and does not touch the reached slot. -/
theorem reach_of_no_new_empty (t t' : OATable) (j : Nat)
    (hsz : t'.table_size = t.table_size)
    (hkey : slotKey t' j = slotKey t j)
    (hne : ∀ x, slotState t' x = EntryState.EMPTY → slotState t x = EntryState.EMPTY)
    (hr : ReachesBeforeEmpty t j) : ReachesBeforeEmpty t' j := by
  obtain ⟨s, hs, hseq, hpre⟩ := hr
  refine ⟨s, by omega, by rw [hkey, hsz]; exact hseq, ?_⟩
  intro s' hs'
  rw [hkey, hsz]
  intro hemp
  exact hpre s' hs' (hne _ hemp)

/-- Which of the three `insert_entry` branches fires, together with the
abstract precondition that selects it. -/
theorem insert_entry_classify (t : OATable) (k v : Int) (hInv : Inv t) :
    (slotState t (probe t k) = EntryState.OCCUPIED ∧ slotKey t (probe t k) = k ∧
      model t k = some (slotValue t (probe t k)) ∧
      insert_entry t k v =
        ({ t with table := (t.table.set (probe t k)
            (Entry.mk (t.table.getD (probe t k) Entry.init).key v
              (t.table.getD (probe t k) Entry.init).state)) }, true))
  ∨ (model t k = none ∧ slotState t (probe t k) ≠ EntryState.OCCUPIED ∧
      insert_entry t k v =
        ({ t with table := (t.table.set (probe t k) (Entry.mk2 k v))
                  current_size := t.current_size + 1 }, true))
  ∨ (model t k = none ∧ slotState t (probe t k) = EntryState.OCCUPIED ∧
      slotKey t (probe t k) ≠ k ∧
      insert_entry t k v = (t, false) ∧
      probe t k = hash_function k t.table_size ∧
      (∀ s, s < t.table_size →
        ¬ Stops t k ((hash_function k t.table_size + s) % t.table_size))) := by
  have hInv' := hInv
  obtain ⟨hlen, hpos, hcount, huniq, hreach⟩ := hInv'
  have hplt := probe_lt t k hpos
  have hnone_of_not_occ_k :
      (¬ (slotState t (probe t k) = EntryState.OCCUPIED ∧ slotKey t (probe t k) = k)) →
      model t k = none := by
    intro hno
    cases hm : model t k with
    | none => rfl
    | some w =>
      obtain ⟨j, hj, hoj, hkj, hvj⟩ := (model_some_iff t k w hInv).mp hm
      have := probe_at_present t k j hInv hj hoj hkj
      rw [this] at hno
      exact absurd ⟨hoj, hkj⟩ hno
  unfold insert_entry
  simp only []
  by_cases h1 : (t.table.getD (probe t k) Entry.init).state = EntryState.OCCUPIED ∧
      (t.table.getD (probe t k) Entry.init).key = k
  · left
    refine ⟨h1.1, h1.2, ?_, ?_⟩
    · exact (model_some_iff t k _ hInv).mpr
        ⟨probe t k, hplt, h1.1, h1.2, rfl⟩
    · rw [if_pos h1]
  · by_cases h2 : (t.table.getD (probe t k) Entry.init).state ≠ EntryState.OCCUPIED
    · right; left
      refine ⟨hnone_of_not_occ_k (by
          intro ⟨ha, hb⟩
          exact h2 ha), h2, ?_⟩
      rw [if_neg h1, if_pos h2]
    · right; right
      push_neg at h2
      have hkne : (t.table.getD (probe t k) Entry.init).key ≠ k := by
        intro hk
        exact h1 ⟨h2, hk⟩
      have hmn : model t k = none := hnone_of_not_occ_k (by
        intro ⟨ha, hb⟩
        exact hkne hb)
      have hwrap : probe t k = hash_function k t.table_size ∧
          (∀ s, s < t.table_size →
            ¬ Stops t k ((hash_function k t.table_size + s) % t.table_size)) := by
        rcases probe_trichotomy t k hpos with hstop | hw
        · rcases hstop with hemp | ⟨ho, hk⟩
          · unfold slotState at hemp
            rw [hemp] at h2
            simp at h2
          · exact absurd hk hkne
        · exact hw
      refine ⟨hmn, h2, hkne, ?_, hwrap.1, hwrap.2⟩
      rw [if_neg h1, if_neg (by simpa using h2)]

end OA

/-- Reading any position after a write, as a single case split. -/
theorem set_getD_cases {α : Type} (l : List α) (i x : Nat) (a d : α) :
    (l.set i a).getD x d = if x = i ∧ i < l.length then a else l.getD x d := by
  by_cases hx : x = i
  · subst hx
    by_cases hi : x < l.length
    · rw [getD_set_self _ _ _ _ hi, if_pos ⟨rfl, hi⟩]
    · rw [if_neg (by tauto)]
      have hlen : (l.set x a).length = l.length := List.length_set l x a
      rw [getD_eq_default _ _ _ (by omega), getD_eq_default _ _ _ (by omega)]
  · rw [getD_set_ne _ _ _ _ _ (fun h => hx h.symm), if_neg (by tauto)]

namespace OA

/-- Inserting a key that is already live overwrites its value in place:
the flag is true, the invariant is preserved, capacity and size are
unchanged and the abstract map gains only the new binding. -/
theorem insert_entry_present (t : OATable) (k v w : Int) (hInv : Inv t)
    (hm : model t k = some w) :
    (insert_entry t k v).2 = true ∧
    Inv (insert_entry t k v).1 ∧
    (insert_entry t k v).1.table_size = t.table_size ∧
    (insert_entry t k v).1.current_size = t.current_size ∧
    ∀ q, model (insert_entry t k v).1 q = if q = k then some v else model t q := by
  have hInv' := hInv
  obtain ⟨hlen, hpos, hcount, huniq, hreach⟩ := hInv'
  have hplt := probe_lt t k hpos
  rcases insert_entry_classify t k v hInv with
    ⟨hocc, hkey, hmodel, heq⟩ | ⟨hmn, _, _⟩ | ⟨hmn, _, _, _, _, _⟩
  · set i := probe t k with hidef
    set a : Entry := Entry.mk (t.table.getD i Entry.init).key v
      (t.table.getD i Entry.init).state with hadef
    set t1 : OATable := { t with table := (t.table.set i a) } with ht1
    have hres1 : (insert_entry t k v).1 = t1 := by rw [heq]
    have hres2 : (insert_entry t k v).2 = true := by rw [heq]
    have hlen1 : t1.table.length = t.table.length := List.length_set _ _ _
    have hst : ∀ x, slotState t1 x = slotState t x := by
      intro x
      unfold slotState
      show ((t.table.set i a).getD x Entry.init).state = _
      rw [set_getD_cases]
      by_cases hx : x = i ∧ i < t.table.length
      · rw [if_pos hx, hadef, hx.1]
      · rw [if_neg hx]
    have hky : ∀ x, slotKey t1 x = slotKey t x := by
      intro x
      unfold slotKey
      show ((t.table.set i a).getD x Entry.init).key = _
      rw [set_getD_cases]
      by_cases hx : x = i ∧ i < t.table.length
      · rw [if_pos hx, hadef, hx.1]
      · rw [if_neg hx]
    have hInv1 : Inv t1 := Inv_of_pointwise t t1 rfl hlen1 rfl hst hky hInv
    refine ⟨hres2, by rw [hres1]; exact hInv1, by rw [hres1], by rw [hres1], ?_⟩
    intro q
    rw [hres1]
    by_cases hq : q = k
    · subst hq
      rw [if_pos rfl]
      refine (model_some_iff t1 q v hInv1).mpr ⟨i, hplt, ?_, ?_, ?_⟩
      · rw [hst]; exact hocc
      · rw [hky]; exact hkey
      · unfold slotValue
        show ((t.table.set i a).getD i Entry.init).value = v
        rw [getD_set_self _ _ _ _ (by omega)]
    · rw [if_neg hq]
      cases hmq : model t q with
      | some u =>
        obtain ⟨j, hj, hoj, hkj, hvj⟩ := (model_some_iff t q u hInv).mp hmq
        have hji : j ≠ i := by
          intro hji
          rw [hji] at hkj
          rw [hkj] at hkey
          exact hq hkey
        refine (model_some_iff t1 q u hInv1).mpr ⟨j, hj, ?_, ?_, ?_⟩
        · rw [hst]; exact hoj
        · rw [hky]; exact hkj
        · unfold slotValue
          show ((t.table.set i a).getD j Entry.init).value = u
          rw [getD_set_ne _ _ _ _ _ (fun h => hji h.symm)]
          exact hvj
      | none =>
        rw [model_none_iff t1 q (by rw [hlen1]; exact hlen)]
        intro x hx hslot
        rw [hst, hky] at hslot
        exact (model_none_iff t q hlen).mp hmq x hx hslot
  · rw [hm] at hmn; exact absurd hmn (by simp)
  · rw [hm] at hmn; exact absurd hmn (by simp)

end OA


namespace OA

/-- Inserting an absent key, when the flag comes back true, writes a fresh
occupied entry: the invariant is preserved, the size grows by one, the
abstract map gains exactly the new binding, and no slot becomes `EMPTY`. -/
theorem insert_entry_absent (t : OATable) (k v : Int) (hInv : Inv t)
    (hm : model t k = none) (hflag : (insert_entry t k v).2 = true) :
    Inv (insert_entry t k v).1 ∧
    (insert_entry t k v).1.table_size = t.table_size ∧
    (insert_entry t k v).1.current_size = t.current_size + 1 ∧
    (∀ q, model (insert_entry t k v).1 q = if q = k then some v else model t q) ∧
    (∀ x, slotState (insert_entry t k v).1 x = EntryState.EMPTY →
      slotState t x = EntryState.EMPTY) := by
  have hInv' := hInv
  obtain ⟨hlen, hpos, hcount, huniq, hreach⟩ := hInv'
  have hplt := probe_lt t k hpos
  have hhlt := hash_lt k t.table_size hpos
  rcases insert_entry_classify t k v hInv with
    ⟨hocc, hkey, hmodel, heq⟩ | ⟨hmn, hnocc, heq⟩ | ⟨_, _, _, heq, _, _⟩
  · rw [hm] at hmodel; exact absurd hmodel (by simp)
  · set i := probe t k with hidef
    set t1 : OATable := { t with table := (t.table.set i (Entry.mk2 k v))
                                 current_size := t.current_size + 1 } with ht1
    have hres1 : (insert_entry t k v).1 = t1 := by rw [heq]
    have hlen1 : t1.table.length = t.table.length := List.length_set _ _ _
    have hilen : i < t.table.length := by omega
    have hst : ∀ x, slotState t1 x =
        if x = i then EntryState.OCCUPIED else slotState t x := by
      intro x
      unfold slotState
      show ((t.table.set i (Entry.mk2 k v)).getD x Entry.init).state = _
      rw [set_getD_cases]
      by_cases hx : x = i
      · rw [if_pos ⟨hx, hilen⟩, if_pos hx]; rfl
      · rw [if_neg (by tauto), if_neg hx]
    have hky : ∀ x, x ≠ i → slotKey t1 x = slotKey t x := by
      intro x hx
      unfold slotKey
      show ((t.table.set i (Entry.mk2 k v)).getD x Entry.init).key = _
      rw [set_getD_cases, if_neg (by tauto)]
    have hvl : ∀ x, x ≠ i → slotValue t1 x = slotValue t x := by
      intro x hx
      unfold slotValue
      show ((t.table.set i (Entry.mk2 k v)).getD x Entry.init).value = _
      rw [set_getD_cases, if_neg (by tauto)]
    have hkyi : slotKey t1 i = k := by
      unfold slotKey
      show ((t.table.set i (Entry.mk2 k v)).getD i Entry.init).key = k
      rw [getD_set_self _ _ _ _ hilen]; rfl
    have hvli : slotValue t1 i = v := by
      unfold slotValue
      show ((t.table.set i (Entry.mk2 k v)).getD i Entry.init).value = v
      rw [getD_set_self _ _ _ _ hilen]; rfl
    have hsti : slotState t1 i = EntryState.OCCUPIED := by
      rw [hst, if_pos rfl]
    have hnomem := (model_none_iff t k hlen).mp hm
    have hno_new_empty : ∀ x, slotState t1 x = EntryState.EMPTY →
        slotState t x = EntryState.EMPTY := by
      intro x hx
      rw [hst] at hx
      by_cases hxi : x = i
      · rw [if_pos hxi] at hx; simp at hx
      · rwa [if_neg hxi] at hx
    have hcount1 : countOcc t1 = countOcc t + 1 := by
      unfold countOcc
      show (t.table.set i (Entry.mk2 k v)).countP _ = _
      refine countP_set_new _ Entry.init t.table i (Entry.mk2 k v) hilen ?_ (by
        simp [Entry.mk2])
      unfold slotState at hnocc
      simp only [decide_eq_false_iff_not]
      exact hnocc
    have hInv1 : Inv t1 := by
      refine ⟨by rw [hlen1]; exact hlen, hpos, ?_, ?_, ?_⟩
      · show t.current_size + 1 = countOcc t1
        rw [hcount1, hcount]
      · intro x y hx hy hox hoy hkxy
        rw [hst] at hox hoy
        by_cases hxi : x = i <;> by_cases hyi : y = i
        · rw [hxi, hyi]
        · rw [if_neg hyi] at hoy
          rw [hxi] at hkxy
          rw [hkyi, hky y hyi] at hkxy
          exact absurd ⟨hoy, hkxy.symm⟩ (hnomem y hy)
        · rw [if_neg hxi] at hox
          rw [hyi] at hkxy
          rw [hkyi, hky x hxi] at hkxy
          exact absurd ⟨hox, hkxy⟩ (hnomem x hx)
        · rw [if_neg hxi] at hox
          rw [if_neg hyi] at hoy
          rw [hky x hxi, hky y hyi] at hkxy
          exact huniq x y hx hy hox hoy hkxy
      · intro x hx hox
        by_cases hxi : x = i
        · subst hxi
          unfold ReachesBeforeEmpty
          have hsz1 : t1.table_size = t.table_size := rfl
          rw [hkyi, hsz1]
          rcases probe_cases t k hpos with ⟨s0, hs0, hstop, hmin, hp⟩ | ⟨hall, hp⟩
          · refine ⟨s0, hs0, ?_, ?_⟩
            · rw [hidef, hp]
            · intro s' hs'
              have hnstop := hmin s' hs'
              have hne : (hash_function k t.table_size + s') % t.table_size ≠ i := by
                rw [hidef, hp]
                intro hcontra
                have := mod_add_inj s' s0 (by omega) hs0 hcontra
                omega
              rw [hst, if_neg hne]
              intro hemp
              exact hnstop (Or.inl hemp)
          · refine ⟨0, hpos, ?_, by intro s' hs'; omega⟩
            rw [Nat.add_zero, Nat.mod_eq_of_lt hhlt, hidef, hp]
        · rw [hst, if_neg hxi] at hox
          exact reach_of_no_new_empty t t1 x rfl (hky x hxi) hno_new_empty
            (hreach x hx hox)
    refine ⟨by rw [hres1]; exact hInv1, by rw [hres1], by rw [hres1], ?_,
      by rw [hres1]; exact hno_new_empty⟩
    intro q
    rw [hres1]
    by_cases hq : q = k
    · subst hq
      rw [if_pos rfl]
      exact (model_some_iff t1 q v hInv1).mpr ⟨i, hplt, hsti, hkyi, hvli⟩
    · rw [if_neg hq]
      cases hmq : model t q with
      | some u =>
        obtain ⟨j, hj, hoj, hkj, hvj⟩ := (model_some_iff t q u hInv).mp hmq
        have hji : j ≠ i := by
          intro hji
          rw [hji] at hoj
          exact hnocc hoj
        refine (model_some_iff t1 q u hInv1).mpr ⟨j, hj, ?_, ?_, ?_⟩
        · rw [hst, if_neg hji]; exact hoj
        · rw [hky j hji]; exact hkj
        · rw [hvl j hji]; exact hvj
      | none =>
        rw [model_none_iff t1 q (by rw [hlen1]; exact hlen)]
        intro x hx hslot
        by_cases hxi : x = i
        · rw [hxi, hkyi] at hslot
          exact hq hslot.2.symm
        · rw [hst, if_neg hxi, hky x hxi] at hslot
          exact (model_none_iff t q hlen).mp hmq x hx hslot
  · rw [heq] at hflag; simp at hflag

end OA

namespace OA

/-- The failing branch of `insert_entry`: the flag is false exactly when
the whole probe cycle contains no `EMPTY` slot and no slot holding the
key (so the probe wrapped) and the start slot is occupied by a different
key; a failing insert leaves the table untouched. -/
theorem insert_entry_fail_iff (t : OATable) (k v : Int) (hInv : Inv t) :
    ((insert_entry t k v).2 = false ↔
      ((∀ s, s < t.table_size →
          ¬ Stops t k ((hash_function k t.table_size + s) % t.table_size)) ∧
        slotState t (hash_function k t.table_size) = EntryState.OCCUPIED ∧
        slotKey t (hash_function k t.table_size) ≠ k)) ∧
    ((insert_entry t k v).2 = false → (insert_entry t k v).1 = t) := by
  have hInv' := hInv
  obtain ⟨hlen, hpos, hcount, huniq, hreach⟩ := hInv'
  have hplt := probe_lt t k hpos
  have hhlt := hash_lt k t.table_size hpos
  rcases insert_entry_classify t k v hInv with
    ⟨hocc, hkey, hmodel, heq⟩ | ⟨hmn, hnocc, heq⟩ | ⟨hmn, hocc, hkne, heq, hp, hall⟩
  · constructor
    · constructor
      · intro hf; rw [heq] at hf; simp at hf
      · intro ⟨hall, hsh, hkh⟩
        obtain ⟨s, hs, hseq⟩ := mod_add_surj hhlt (probe t k) hplt
        exact absurd (by rw [hseq]; exact Or.inr ⟨hocc, hkey⟩) (hall s hs)
    · intro hf; rw [heq] at hf; simp at hf
  · constructor
    · constructor
      · intro hf; rw [heq] at hf; simp at hf
      · intro ⟨hall, hsh, hkh⟩
        rcases probe_trichotomy t k hpos with hstop | ⟨hpw, _⟩
        · obtain ⟨s, hs, hseq⟩ := mod_add_surj hhlt (probe t k) hplt
          exact absurd (by rw [hseq]; exact hstop) (hall s hs)
        · rw [hpw] at hnocc
          exact absurd hsh hnocc
    · intro hf; rw [heq] at hf; simp at hf
  · constructor
    · constructor
      · intro _
        refine ⟨hall, ?_, ?_⟩
        · rw [← hp]; exact hocc
        · rw [← hp]; exact hkne
      · intro _; rw [heq]
    · intro _; rw [heq]

/-- Whenever some slot is still `EMPTY`, `insert_entry` cannot fail. -/
theorem insert_entry_true_of_empty (t : OATable) (k v : Int) (hInv : Inv t)
    (hex : ∃ j, j < t.table_size ∧ slotState t j = EntryState.EMPTY) :
    (insert_entry t k v).2 = true := by
  have hInv' := hInv
  obtain ⟨hlen, hpos, hcount, huniq, hreach⟩ := hInv'
  have hhlt := hash_lt k t.table_size hpos
  rcases insert_entry_classify t k v hInv with
    ⟨_, _, _, heq⟩ | ⟨_, _, heq⟩ | ⟨_, _, _, heq, hp, hall⟩
  · rw [heq]
  · rw [heq]
  · obtain ⟨j, hj, hemp⟩ := hex
    obtain ⟨s, hs, hseq⟩ := mod_add_surj hhlt j hj
    exact absurd (by rw [hseq]; exact Or.inl hemp) (hall s hs)

/-- `insert_entry` never turns a slot into a tombstone. -/
theorem insert_entry_no_delete (t : OATable) (k v : Int) (hInv : Inv t) :
    ∀ x, slotState (insert_entry t k v).1 x = EntryState.DELETED →
      slotState t x = EntryState.DELETED := by
  intro x hx
  rcases insert_entry_classify t k v hInv with
    ⟨_, _, _, heq⟩ | ⟨_, _, heq⟩ | ⟨_, _, _, heq, _, _⟩
  · have htbl : (insert_entry t k v).1.table = t.table.set (probe t k)
        (Entry.mk (t.table.getD (probe t k) Entry.init).key v
          (t.table.getD (probe t k) Entry.init).state) := by rw [heq]
    unfold slotState at hx ⊢
    rw [htbl, set_getD_cases] at hx
    by_cases hxc : x = probe t k ∧ probe t k < t.table.length
    · rw [if_pos hxc] at hx
      rw [hxc.1]
      exact hx
    · rwa [if_neg hxc] at hx
  · have htbl : (insert_entry t k v).1.table =
        t.table.set (probe t k) (Entry.mk2 k v) := by rw [heq]
    unfold slotState at hx
    rw [htbl, set_getD_cases] at hx
    by_cases hxc : x = probe t k ∧ probe t k < t.table.length
    · rw [if_pos hxc] at hx
      exact absurd hx (by simp [Entry.mk2])
    · rwa [if_neg hxc] at hx
  · have htbl : (insert_entry t k v).1.table = t.table := by rw [heq]
    unfold slotState at hx
    rw [htbl] at hx
    exact hx

end OA

namespace OA

/-- Full specification of `remove`: the flag is true exactly when the key
is live; success marks the unique matching slot `DELETED` (never `EMPTY`),
decrements the size by one and deletes exactly that binding from the
abstract map; failure leaves the table untouched. -/
theorem remove_spec (t : OATable) (k : Int) (hInv : Inv t) :
    Inv (remove t k).1 ∧
    (remove t k).1.table_size = t.table_size ∧
    ((remove t k).2 = true ↔ ∃ w, model t k = some w) ∧
    ((remove t k).2 = false → (remove t k).1 = t) ∧
    ((remove t k).2 = true → t.current_size = (remove t k).1.current_size + 1) ∧
    ((remove t k).2 = true →
      ∀ q, model (remove t k).1 q = if q = k then none else model t q) ∧
    (∀ x, slotState (remove t k).1 x = EntryState.EMPTY →
      slotState t x = EntryState.EMPTY) ∧
    (∀ j, j < t.table_size → slotState t j = EntryState.OCCUPIED →
      slotKey t j = k → slotState (remove t k).1 j = EntryState.DELETED) := by
  have hInv' := hInv
  obtain ⟨hlen, hpos, hcount, huniq, hreach⟩ := hInv'
  have hplt := probe_lt t k hpos
  by_cases hbr : (t.table.getD (probe t k) Entry.init).state = EntryState.OCCUPIED ∧
      (t.table.getD (probe t k) Entry.init).key = k
  · -- a live slot for the key exists at the probe result
    set i := probe t k with hidef
    set a : Entry := { t.table.getD (probe t k) Entry.init with
      state := EntryState.DELETED } with hadef
    have heq : remove t k =
        ({ t with table := (t.table.set i a)
                  current_size := t.current_size - 1 }, true) := by
      unfold remove
      rw [if_pos hbr]
    set t1 : OATable := { t with table := (t.table.set i a)
                                 current_size := t.current_size - 1 } with ht1
    have hres1 : (remove t k).1 = t1 := by rw [heq]
    have hres2 : (remove t k).2 = true := by rw [heq]
    have hlen1 : t1.table.length = t.table.length := List.length_set _ _ _
    have hilen : i < t.table.length := by omega
    have hsti : slotState t i = EntryState.OCCUPIED := hbr.1
    have hkyi : slotKey t i = k := hbr.2
    have hst : ∀ x, slotState t1 x =
        if x = i then EntryState.DELETED else slotState t x := by
      intro x
      unfold slotState
      show ((t.table.set i a).getD x Entry.init).state = _
      rw [set_getD_cases]
      by_cases hx : x = i
      · rw [if_pos ⟨hx, hilen⟩, if_pos hx, hadef]
      · rw [if_neg (by tauto), if_neg hx]
    have hky : ∀ x, slotKey t1 x = slotKey t x := by
      intro x
      unfold slotKey
      show ((t.table.set i a).getD x Entry.init).key = _
      rw [set_getD_cases]
      by_cases hx : x = i ∧ i < t.table.length
      · rw [if_pos hx, hadef, hx.1]
      · rw [if_neg hx]
    have hvl : ∀ x, slotValue t1 x = slotValue t x := by
      intro x
      unfold slotValue
      show ((t.table.set i a).getD x Entry.init).value = _
      rw [set_getD_cases]
      by_cases hx : x = i ∧ i < t.table.length
      · rw [if_pos hx, hadef, hx.1]
      · rw [if_neg hx]
    have hmodel_some : model t k = some (slotValue t i) :=
      (model_some_iff t k _ hInv).mpr ⟨i, hplt, hsti, hkyi, rfl⟩
    have hcpos : 1 ≤ t.current_size := by
      rw [hcount]
      unfold countOcc
      rw [Nat.succ_le_iff, List.countP_pos_iff]
      refine ⟨t.table.getD i Entry.init, ?_, ?_⟩
      · rw [List.getD_eq_getElem t.table Entry.init hilen]
        exact List.getElem_mem hilen
      · exact decide_eq_true hsti
    have hcount1 : countOcc t1 + 1 = countOcc t := by
      unfold countOcc
      show (t.table.set i a).countP _ + 1 = _
      have hastate : a.state = EntryState.DELETED := rfl
      refine countP_set_drop _ Entry.init t.table i a hilen (decide_eq_true hsti)
        (decide_eq_false (by rw [hastate]; simp))
    have hno_new_empty : ∀ x, slotState t1 x = EntryState.EMPTY →
        slotState t x = EntryState.EMPTY := by
      intro x hx
      rw [hst] at hx
      by_cases hxi : x = i
      · rw [if_pos hxi] at hx; simp at hx
      · rwa [if_neg hxi] at hx
    have hInv1 : Inv t1 := by
      refine ⟨by rw [hlen1]; exact hlen, hpos, ?_, ?_, ?_⟩
      · show t.current_size - 1 = countOcc t1
        omega
      · intro x y hx hy hox hoy hkxy
        rw [hst] at hox hoy
        by_cases hxi : x = i
        · rw [if_pos hxi] at hox; simp at hox
        · by_cases hyi : y = i
          · rw [if_pos hyi] at hoy; simp at hoy
          · rw [if_neg hxi] at hox
            rw [if_neg hyi] at hoy
            rw [hky x, hky y] at hkxy
            exact huniq x y hx hy hox hoy hkxy
      · intro x hx hox
        rw [hst] at hox
        by_cases hxi : x = i
        · rw [if_pos hxi] at hox; simp at hox
        · rw [if_neg hxi] at hox
          exact reach_of_no_new_empty t t1 x rfl (hky x) hno_new_empty
            (hreach x hx hox)
    refine ⟨by rw [hres1]; exact hInv1, by rw [hres1], ?_, ?_, ?_, ?_, ?_, ?_⟩
    · rw [hres2]
      simp only [true_iff]
      exact ⟨_, hmodel_some⟩
    · intro hf; rw [hres2] at hf; simp at hf
    · intro _
      rw [hres1]
      show t.current_size = t.current_size - 1 + 1
      omega
    · intro _ q
      rw [hres1]
      by_cases hq : q = k
      · subst hq
        rw [if_pos rfl]
        rw [model_none_iff t1 q (by rw [hlen1]; exact hlen)]
        intro x hx hslot
        rw [hst] at hslot
        by_cases hxi : x = i
        · rw [if_pos hxi] at hslot
          exact absurd hslot.1 (by simp)
        · rw [if_neg hxi] at hslot
          rw [hky x] at hslot
          have := huniq x i hx hplt hslot.1 hsti (by rw [hslot.2, hkyi])
          exact hxi this
      · rw [if_neg hq]
        cases hmq : model t q with
        | some u =>
          obtain ⟨j, hj, hoj, hkj, hvj⟩ := (model_some_iff t q u hInv).mp hmq
          have hji : j ≠ i := by
            intro hji
            rw [hji, hkyi] at hkj
            exact hq hkj.symm
          refine (model_some_iff t1 q u hInv1).mpr ⟨j, hj, ?_, ?_, ?_⟩
          · rw [hst, if_neg hji]; exact hoj
          · rw [hky]; exact hkj
          · rw [hvl]; exact hvj
        | none =>
          rw [model_none_iff t1 q (by rw [hlen1]; exact hlen)]
          intro x hx hslot
          rw [hst] at hslot
          by_cases hxi : x = i
          · rw [if_pos hxi] at hslot
            exact absurd hslot.1 (by simp)
          · rw [if_neg hxi] at hslot
            rw [hky x] at hslot
            exact (model_none_iff t q hlen).mp hmq x hx hslot
    · intro x
      rw [hres1]
      exact hno_new_empty x
    · intro j hj hoj hkj
      have hpj : probe t k = j := probe_at_present t k j hInv hj hoj hkj
      rw [hres1, hst]
      rw [if_pos (by rw [hidef, hpj])]
  · -- the key is not live: the probe lands on a non-matching slot
    have heq : remove t k = (t, false) := by
      unfold remove
      rw [if_neg hbr]
    have hmn : model t k = none := by
      cases hm : model t k with
      | none => rfl
      | some w =>
        obtain ⟨j, hj, hoj, hkj, hvj⟩ := (model_some_iff t k w hInv).mp hm
        have := probe_at_present t k j hInv hj hoj hkj
        rw [this] at hbr
        exact absurd ⟨hoj, hkj⟩ hbr
    refine ⟨by rw [heq]; exact hInv, by rw [heq], ?_, ?_, ?_, ?_, ?_, ?_⟩
    · rw [heq]
      simp only []
      constructor
      · intro hf; simp at hf
      · intro ⟨w, hw⟩
        rw [hmn] at hw
        simp at hw
    · intro _; rw [heq]
    · intro hf; rw [heq] at hf; simp at hf
    · intro hf; rw [heq] at hf; simp at hf
    · intro x
      rw [heq]
      exact fun h => h
    · intro j hj hoj hkj
      have := probe_at_present t k j hInv hj hoj hkj
      rw [this] at hbr
      exact absurd ⟨hoj, hkj⟩ hbr

end OA

namespace OA

/-- Every slot of a freshly constructed table is `EMPTY`. -/
theorem mk_slotState (cap : Nat) (x : Nat) :
    slotState (mkTable cap) x = EntryState.EMPTY := by
  unfold slotState mkTable
  by_cases hx : x < cap
  · rw [List.getD_eq_getElem _ _ (by simpa using hx)]
    simp [List.getElem_replicate]
    rfl
  · rw [getD_eq_default _ _ _ (by simpa using hx)]
    rfl

/-- A freshly constructed table with positive capacity satisfies the
invariant, stores nothing, and holds no tombstone. -/
theorem mk_spec (cap : Nat) (hpos : 0 < cap) :
    Inv (mkTable cap) ∧
    (mkTable cap).table_size = cap ∧
    (mkTable cap).current_size = 0 ∧
    (∀ q, model (mkTable cap) q = none) ∧
    (∀ x, slotState (mkTable cap) x ≠ EntryState.DELETED) := by
  have hlen : (mkTable cap).table.length = (mkTable cap).table_size := by
    unfold mkTable
    simp
  have hcz : countOcc (mkTable cap) = 0 := by
    unfold countOcc mkTable
    rw [List.countP_eq_zero]
    intro e he
    rw [List.eq_of_mem_replicate he]
    simp [Entry.init]
  refine ⟨⟨hlen, hpos, hcz.symm, ?_, ?_⟩, rfl, rfl, ?_, ?_⟩
  · intro i j hi hj hoi hoj hk
    rw [mk_slotState] at hoi
    simp at hoi
  · intro i hi hoi
    rw [mk_slotState] at hoi
    simp at hoi
  · intro q
    rw [model_none_iff _ _ hlen]
    intro i hi hslot
    rw [mk_slotState] at hslot
    exact absurd hslot.1 (by simp)
  · intro x
    rw [mk_slotState]
    simp

/-- `clear` empties every slot, resets the size, and leaves the invariant
intact. -/
theorem clear_spec (t : OATable) (hInv : Inv t) :
    Inv (clear t) ∧
    (clear t).table_size = t.table_size ∧
    (clear t).current_size = 0 ∧
    (∀ q, model (clear t) q = none) := by
  obtain ⟨hlen, hpos, hcount, huniq, hreach⟩ := hInv
  have hst : ∀ x, slotState (clear t) x = EntryState.EMPTY := by
    intro x
    unfold slotState clear
    by_cases hx : x < t.table.length
    · rw [List.getD_eq_getElem _ _ (by simpa using hx)]
      simp
    · rw [getD_eq_default _ _ _ (by simpa using hx)]
      rfl
  have hlen1 : (clear t).table.length = t.table.length := by
    unfold clear
    simp
  have hcz : countOcc (clear t) = 0 := by
    unfold countOcc clear
    rw [List.countP_eq_zero]
    intro e he
    obtain ⟨y, hy, rfl⟩ := List.mem_map.mp he
    simp
  refine ⟨⟨by rw [hlen1]; exact hlen, hpos, hcz.symm, ?_, ?_⟩, rfl, rfl, ?_⟩
  · intro i j hi hj hoi hoj hk
    rw [hst] at hoi
    simp at hoi
  · intro i hi hoi
    rw [hst] at hoi
    simp at hoi
  · intro q
    rw [model_none_iff _ _ (by rw [hlen1]; exact hlen)]
    intro i hi hslot
    rw [hst] at hslot
    exact absurd hslot.1 (by simp)

end OA

namespace OA

/-- A tombstone-free table that is not full still has an `EMPTY` slot. -/
theorem exists_empty_slot (t : OATable)
    (hlen : t.table.length = t.table_size)
    (hnd : ∀ x, slotState t x ≠ EntryState.DELETED)
    (hlt : countOcc t < t.table_size) :
    ∃ j, j < t.table_size ∧ slotState t j = EntryState.EMPTY := by
  by_contra hno
  push_neg at hno
  have hfull : countOcc t = t.table.length := by
    unfold countOcc
    rw [List.countP_eq_length]
    intro e he
    obtain ⟨i, hi, hei⟩ := List.mem_iff_getElem.mp he
    have hgd : t.table.getD i Entry.init = e := by
      rw [List.getD_eq_getElem t.table Entry.init hi, hei]
    have h1 : slotState t i ≠ EntryState.EMPTY := hno i (by omega)
    have h2 : slotState t i ≠ EntryState.DELETED := hnd i
    unfold slotState at h1 h2
    rw [hgd] at h1 h2
    cases hstate : e.state with
    | EMPTY => exact absurd hstate h1
    | OCCUPIED => simp
    | DELETED => exact absurd hstate h2
  omega

/-- Invariant and abstraction of the re-insertion loop of `resize`:
folding the occupied entries of a list into a tombstone-free table with
enough room and fresh keys preserves the invariant, keeps the table
tombstone-free, adds exactly the occupied entries to the size, and the
final map is the union of the input bindings and the accumulator's. -/
theorem resize_fold (es : List Entry) : ∀ acc : OATable,
    Inv acc →
    (∀ x, slotState acc x ≠ EntryState.DELETED) →
    (∀ e ∈ es, e.state = EntryState.OCCUPIED → model acc e.key = none) →
    (∀ q, es.countP
      (fun e => decide (e.state = EntryState.OCCUPIED ∧ e.key = q)) ≤ 1) →
    countOcc acc + es.countP (fun e => decide (e.state = EntryState.OCCUPIED))
      ≤ acc.table_size →
    Inv (es.foldl (fun acc e =>
        if e.state = EntryState.OCCUPIED then (insert_entry acc e.key e.value).1
        else acc) acc) ∧
    (es.foldl (fun acc e =>
        if e.state = EntryState.OCCUPIED then (insert_entry acc e.key e.value).1
        else acc) acc).table_size = acc.table_size ∧
    (∀ x, slotState (es.foldl (fun acc e =>
        if e.state = EntryState.OCCUPIED then (insert_entry acc e.key e.value).1
        else acc) acc) x ≠ EntryState.DELETED) ∧
    (es.foldl (fun acc e =>
        if e.state = EntryState.OCCUPIED then (insert_entry acc e.key e.value).1
        else acc) acc).current_size = acc.current_size +
      es.countP (fun e => decide (e.state = EntryState.OCCUPIED)) ∧
    (∀ q, model (es.foldl (fun acc e =>
        if e.state = EntryState.OCCUPIED then (insert_entry acc e.key e.value).1
        else acc) acc) q =
      match es.find? (fun e =>
        decide (e.state = EntryState.OCCUPIED ∧ e.key = q)) with
      | some e => some e.value
      | none => model acc q) := by
  induction es with
  | nil =>
    intro acc hInv hnd hfresh huniq hroom
    refine ⟨hInv, rfl, hnd, by simp, ?_⟩
    intro q
    rfl
  | cons e rest ih =>
    intro acc hInv hnd hfresh huniq hroom
    by_cases hocc : e.state = EntryState.OCCUPIED
    · -- the head entry is re-inserted
      have hmn : model acc e.key = none := hfresh e (by simp) hocc
      have hcnt_cons : (e :: rest).countP
          (fun x => decide (x.state = EntryState.OCCUPIED)) =
          rest.countP (fun x => decide (x.state = EntryState.OCCUPIED)) + 1 := by
        rw [List.countP_cons, if_pos (decide_eq_true hocc)]
      have hroom' : countOcc acc < acc.table_size := by
        rw [hcnt_cons] at hroom
        omega
      have hex := exists_empty_slot acc hInv.1 hnd hroom'
      have hflag := insert_entry_true_of_empty acc e.key e.value hInv hex
      obtain ⟨hInv1, hsz1, hcs1, hmodel1, hemp1⟩ :=
        insert_entry_absent acc e.key e.value hInv hmn hflag
      set acc1 := (insert_entry acc e.key e.value).1 with hacc1
      have hnd1 : ∀ x, slotState acc1 x ≠ EntryState.DELETED := by
        intro x hdel
        exact hnd x (insert_entry_no_delete acc e.key e.value hInv x hdel)
      have hcount_acc1 : countOcc acc1 = countOcc acc + 1 := by
        have h1 : acc1.current_size = countOcc acc1 := hInv1.2.2.1
        have h2 : acc.current_size = countOcc acc := hInv.2.2.1
        omega
      have hfresh1 : ∀ x ∈ rest, x.state = EntryState.OCCUPIED →
          model acc1 x.key = none := by
        intro x hx hxocc
        rw [hmodel1 x.key]
        by_cases hkk : x.key = e.key
        · exfalso
          have h1 : (e :: rest).countP
              (fun y => decide (y.state = EntryState.OCCUPIED ∧ y.key = e.key))
              ≥ 2 := by
            rw [List.countP_cons, if_pos (decide_eq_true ⟨hocc, rfl⟩)]
            have : 0 < rest.countP
                (fun y => decide (y.state = EntryState.OCCUPIED ∧ y.key = e.key)) := by
              rw [List.countP_pos_iff]
              exact ⟨x, hx, decide_eq_true ⟨hxocc, hkk⟩⟩
            omega
          have := huniq e.key
          omega
        · rw [if_neg hkk]
          exact hfresh x (by simp [hx]) hxocc
      have huniq1 : ∀ q, rest.countP
          (fun y => decide (y.state = EntryState.OCCUPIED ∧ y.key = q)) ≤ 1 := by
        intro q
        have := huniq q
        rw [List.countP_cons] at this
        omega
      have hroom1 : countOcc acc1 +
          rest.countP (fun y => decide (y.state = EntryState.OCCUPIED))
          ≤ acc1.table_size := by
        rw [hcount_acc1, hsz1]
        rw [hcnt_cons] at hroom
        omega
      obtain ⟨hI, hS, hD, hC, hM⟩ := ih acc1 hInv1 hnd1 hfresh1 huniq1 hroom1
      have hfold : (e :: rest).foldl (fun acc e =>
          if e.state = EntryState.OCCUPIED then (insert_entry acc e.key e.value).1
          else acc) acc = rest.foldl (fun acc e =>
          if e.state = EntryState.OCCUPIED then (insert_entry acc e.key e.value).1
          else acc) acc1 := by
        rw [List.foldl_cons]
        congr 1
        show (if e.state = EntryState.OCCUPIED then
          (insert_entry acc e.key e.value).1 else acc) = acc1
        rw [if_pos hocc]
      rw [hfold]
      refine ⟨hI, by rw [hS, hsz1], hD, ?_, ?_⟩
      · rw [hC, hcs1, hcnt_cons]
        omega
      · intro q
        rw [hM q]
        by_cases hkq : e.key = q
        · rw [List.find?_cons_of_pos rest (decide_eq_true ⟨hocc, hkq⟩)]
          cases hf : rest.find? (fun y =>
              decide (y.state = EntryState.OCCUPIED ∧ y.key = q)) with
          | some x =>
            exfalso
            have hpx := List.find?_some hf
            have hmemx := List.mem_of_find?_eq_some hf
            have h1 : (e :: rest).countP
                (fun y => decide (y.state = EntryState.OCCUPIED ∧ y.key = q))
                ≥ 2 := by
              rw [List.countP_cons, if_pos (decide_eq_true ⟨hocc, hkq⟩)]
              have : 0 < rest.countP
                  (fun y => decide (y.state = EntryState.OCCUPIED ∧ y.key = q)) := by
                rw [List.countP_pos_iff]
                exact ⟨x, hmemx, hpx⟩
              omega
            have := huniq q
            omega
          | none =>
            show model acc1 q = some e.value
            rw [hmodel1 q, if_pos hkq.symm]
        · rw [List.find?_cons_of_neg rest (fun hc =>
            hkq (of_decide_eq_true hc).2)]
          cases hf : rest.find? (fun y =>
              decide (y.state = EntryState.OCCUPIED ∧ y.key = q)) with
          | some x => rfl
          | none =>
            show model acc1 q = model acc q
            rw [hmodel1 q, if_neg (fun hc => hkq hc.symm)]
    · -- the head entry is skipped
      have hfold : (e :: rest).foldl (fun acc e =>
          if e.state = EntryState.OCCUPIED then (insert_entry acc e.key e.value).1
          else acc) acc = rest.foldl (fun acc e =>
          if e.state = EntryState.OCCUPIED then (insert_entry acc e.key e.value).1
          else acc) acc := by
        rw [List.foldl_cons]
        congr 1
        show (if e.state = EntryState.OCCUPIED then
          (insert_entry acc e.key e.value).1 else acc) = acc
        rw [if_neg hocc]
      have hcnt_cons : (e :: rest).countP
          (fun x => decide (x.state = EntryState.OCCUPIED)) =
          rest.countP (fun x => decide (x.state = EntryState.OCCUPIED)) := by
        rw [List.countP_cons, if_neg (by simpa using hocc)]
        omega
      obtain ⟨hI, hS, hD, hC, hM⟩ := ih acc hInv hnd
        (fun x hx hxocc => hfresh x (by simp [hx]) hxocc)
        (fun q => by have := huniq q; rw [List.countP_cons] at this; omega)
        (by rw [hcnt_cons] at hroom; exact hroom)
      rw [hfold]
      refine ⟨hI, hS, hD, by rw [hC, hcnt_cons], ?_⟩
      intro q
      rw [hM q, List.find?_cons_of_neg rest (fun hc =>
        hocc (of_decide_eq_true hc).1)]

end OA

namespace OA

/-- Capacity is preserved and the size grows by at most one in
`insert_entry`, with no well-formedness assumption. -/
theorem insert_entry_dims (t : OATable) (k v : Int) :
    (insert_entry t k v).1.table_size = t.table_size ∧
    (insert_entry t k v).1.current_size ≤ t.current_size + 1 := by
  unfold insert_entry
  simp only []
  split_ifs with h1 h2
  · exact ⟨rfl, by show t.current_size ≤ t.current_size + 1; omega⟩
  · exact ⟨rfl, by show t.current_size + 1 ≤ t.current_size + 1; omega⟩
  · exact ⟨rfl, by show t.current_size ≤ t.current_size + 1; omega⟩

/-- During a re-insertion fold whose total load cannot exceed half the
capacity, the full `insert` (with its load-factor check) behaves exactly
like the check-free body: the check never fires.  This justifies defining
`resize` with `insert_entry` although the C++ `resize` calls `insert`. -/
theorem full_insert_fold_eq (es : List Entry) : ∀ acc : OATable,
    2 * (acc.current_size +
      es.countP (fun e => decide (e.state = EntryState.OCCUPIED)))
      ≤ acc.table_size →
    es.foldl (fun acc e =>
      if e.state = EntryState.OCCUPIED then (insert acc e.key e.value).1
      else acc) acc
    = es.foldl (fun acc e =>
      if e.state = EntryState.OCCUPIED then (insert_entry acc e.key e.value).1
      else acc) acc := by
  induction es with
  | nil => intro acc _; rfl
  | cons e rest ih =>
    intro acc hroom
    rw [List.foldl_cons, List.foldl_cons]
    by_cases hocc : e.state = EntryState.OCCUPIED
    · have hcnt : (e :: rest).countP
          (fun x => decide (x.state = EntryState.OCCUPIED)) =
          rest.countP (fun x => decide (x.state = EntryState.OCCUPIED)) + 1 := by
        rw [List.countP_cons, if_pos (decide_eq_true hocc)]
      rw [hcnt] at hroom
      have hins : insert acc e.key e.value = insert_entry acc e.key e.value := by
        unfold insert
        rw [if_neg (by omega)]
      have hstep : (if e.state = EntryState.OCCUPIED
            then (insert acc e.key e.value).1 else acc)
          = (insert_entry acc e.key e.value).1 := by
        rw [if_pos hocc, hins]
      have hstep2 : (if e.state = EntryState.OCCUPIED
            then (insert_entry acc e.key e.value).1 else acc)
          = (insert_entry acc e.key e.value).1 := by
        rw [if_pos hocc]
      rw [hstep, hstep2]
      obtain ⟨hts, hcs⟩ := insert_entry_dims acc e.key e.value
      exact ih (insert_entry acc e.key e.value).1 (by omega)
    · have hcnt : (e :: rest).countP
          (fun x => decide (x.state = EntryState.OCCUPIED)) =
          rest.countP (fun x => decide (x.state = EntryState.OCCUPIED)) := by
        rw [List.countP_cons, if_neg (by simpa using hocc)]
        omega
      rw [hcnt] at hroom
      have hstep : (if e.state = EntryState.OCCUPIED
            then (insert acc e.key e.value).1 else acc) = acc := by
        rw [if_neg hocc]
      have hstep2 : (if e.state = EntryState.OCCUPIED
            then (insert_entry acc e.key e.value).1 else acc) = acc := by
        rw [if_neg hocc]
      rw [hstep, hstep2]
      exact ih acc hroom

/-- The C++ `resize` (whose re-insertion loop calls the full `insert`)
computes exactly the embedded `resize`. -/
theorem resize_eq_full_insert (t : OATable)
    (hlen : t.table.length = t.table_size) :
    t.table.foldl (fun acc e =>
      if e.state = EntryState.OCCUPIED then (insert acc e.key e.value).1
      else acc) (mkTable (t.table_size * 2)) = resize t := by
  have hle : t.table.countP (fun e => decide (e.state = EntryState.OCCUPIED))
      ≤ t.table_size := by
    have := List.countP_le_length
      (fun e => decide (e.state = EntryState.OCCUPIED)) (l := t.table)
    omega
  rw [full_insert_fold_eq t.table (mkTable (t.table_size * 2)) (by
    show 2 * (0 + _) ≤ t.table_size * 2
    omega)]
  rfl

/-- Full specification of `resize` under the invariant: capacity doubles,
the size and the abstract map are unchanged, no tombstone survives, and
the invariant is preserved. -/
theorem resize_spec (t : OATable) (hInv : Inv t) :
    Inv (resize t) ∧
    (resize t).table_size = 2 * t.table_size ∧
    (resize t).current_size = t.current_size ∧
    (∀ q, model (resize t) q = model t q) ∧
    (∀ x, slotState (resize t) x ≠ EntryState.DELETED) := by
  have hInv' := hInv
  obtain ⟨hlen, hpos, hcount, huniq, hreach⟩ := hInv'
  obtain ⟨hmkInv, hmksz, hmkcs, hmkmodel, hmknd⟩ :=
    mk_spec (t.table_size * 2) (by omega)
  have hcountle : t.table.countP
      (fun e => decide (e.state = EntryState.OCCUPIED)) ≤ t.table_size := by
    have := List.countP_le_length
      (fun e => decide (e.state = EntryState.OCCUPIED)) (l := t.table)
    omega
  have hmkcount : countOcc (mkTable (t.table_size * 2)) = 0 := by
    have h1 := hmkInv.2.2.1
    omega
  obtain ⟨hI, hS, hD, hC, hM⟩ := resize_fold t.table (mkTable (t.table_size * 2))
    hmkInv hmknd
    (fun e _ _ => hmkmodel e.key)
    (fun q => by
      refine countP_le_one_of_at_most_one _ Entry.init t.table ?_
      intro i j hi hj hpi hpj
      have h1 := of_decide_eq_true hpi
      have h2 := of_decide_eq_true hpj
      exact huniq i j (by omega) (by omega) h1.1 h2.1 (by
        show (t.table.getD i Entry.init).key = (t.table.getD j Entry.init).key
        rw [h1.2, h2.2]))
    (by rw [hmkcount]; show 0 + _ ≤ t.table_size * 2; omega)
  have hres : resize t = t.table.foldl (fun acc e =>
      if e.state = EntryState.OCCUPIED then (insert_entry acc e.key e.value).1
      else acc) (mkTable (t.table_size * 2)) := rfl
  rw [hres]
  refine ⟨hI, by rw [hS]; show t.table_size * 2 = 2 * t.table_size; omega, ?_, ?_, hD⟩
  · rw [hC, hmkcs]
    show 0 + countOcc t = t.current_size
    omega
  · intro q
    rw [hM q]
    cases hf : t.table.find? (fun e =>
        decide (e.state = EntryState.OCCUPIED ∧ e.key = q)) with
    | some x =>
      show some x.value = model t q
      unfold model
      rw [hf]
      rfl
    | none =>
      rw [hmkmodel q]
      show (none : Option Int) = model t q
      unfold model
      rw [hf]
      rfl

end OA

namespace OA

/-- Full specification of `insert`: the invariant is preserved; a true
flag updates the abstract map at exactly the inserted key (bumping the
size only when the key was absent); a false flag leaves the map and size
untouched; inserting a live key always succeeds without changing the
size. -/
theorem insert_spec (t : OATable) (k v : Int) (hInv : Inv t) :
    Inv (insert t k v).1 ∧
    ((insert t k v).2 = true →
      ∀ q, model (insert t k v).1 q = if q = k then some v else model t q) ∧
    ((insert t k v).2 = false →
      ∀ q, model (insert t k v).1 q = model t q) ∧
    ((insert t k v).2 = false →
      (insert t k v).1.current_size = t.current_size) ∧
    (model t k = none → (insert t k v).2 = true →
      (insert t k v).1.current_size = t.current_size + 1) ∧
    (∀ w, model t k = some w → (insert t k v).2 = true ∧
      (insert t k v).1.current_size = t.current_size) := by
  set t1 := if 2 * t.current_size > t.table_size then resize t else t with ht1
  have hins : insert t k v = insert_entry t1 k v := rfl
  have hfacts : Inv t1 ∧ (∀ q, model t1 q = model t q) ∧
      t1.current_size = t.current_size := by
    by_cases hcond : 2 * t.current_size > t.table_size
    · rw [ht1, if_pos hcond]
      obtain ⟨hI, _, hc, hm, _⟩ := resize_spec t hInv
      exact ⟨hI, hm, hc⟩
    · rw [ht1, if_neg hcond]
      exact ⟨hInv, fun q => rfl, rfl⟩
  obtain ⟨hInv1, hm1, hc1⟩ := hfacts
  rw [hins]
  cases hmk : model t k with
  | some w =>
    have hmk1 : model t1 k = some w := by rw [hm1]; exact hmk
    obtain ⟨hflag, hI, hsz, hcs, hmodel⟩ :=
      insert_entry_present t1 k v w hInv1 hmk1
    refine ⟨hI, ?_, ?_, ?_, ?_, ?_⟩
    · intro _ q
      rw [hmodel q]
      by_cases hq : q = k
      · rw [if_pos hq, if_pos hq]
      · rw [if_neg hq, if_neg hq, hm1]
    · intro hf; rw [hflag] at hf; simp at hf
    · intro hf; rw [hflag] at hf; simp at hf
    · intro hmn; simp at hmn
    · intro u hu
      refine ⟨hflag, ?_⟩
      rw [hcs, hc1]
  | none =>
    have hmk1 : model t1 k = none := by rw [hm1]; exact hmk
    cases hflag : (insert_entry t1 k v).2 with
    | true =>
      obtain ⟨hI, hsz, hcs, hmodel, hemp⟩ :=
        insert_entry_absent t1 k v hInv1 hmk1 hflag
      refine ⟨hI, ?_, ?_, ?_, ?_, ?_⟩
      · intro _ q
        rw [hmodel q]
        by_cases hq : q = k
        · rw [if_pos hq, if_pos hq]
        · rw [if_neg hq, if_neg hq, hm1]
      · intro hf; simp at hf
      · intro hf; simp at hf
      · intro _ _
        rw [hcs, hc1]
      · intro u hu
        simp at hu
    | false =>
      obtain ⟨hiff, hunch⟩ := insert_entry_fail_iff t1 k v hInv1
      have hres := hunch hflag
      refine ⟨by rw [hres]; exact hInv1, ?_, ?_, ?_, ?_, ?_⟩
      · intro hf; simp at hf
      · intro _ q
        rw [hres, hm1]
      · intro _
        rw [hres, hc1]
      · intro _ hf; simp at hf
      · intro u hu
        simp at hu

/-- The invariant is preserved by every caller-visible operation. -/
theorem step_inv (t : OATable) (op : Op) (hInv : Inv t) : Inv (step t op) := by
  cases op with
  | ins k v => exact (insert_spec t k v hInv).1
  | del k => exact (remove_spec t k hInv).1
  | clr => exact (clear_spec t hInv).1
  | qry k => exact hInv

/-- The invariant is preserved by every sequence of operations. -/
theorem exec_inv (ops : List Op) : ∀ t : OATable, Inv t → Inv (exec t ops) := by
  induction ops with
  | nil => intro t hInv; exact hInv
  | cons op rest ih =>
    intro t hInv
    exact ih (step t op) (step_inv t op hInv)

/-- Appending operation sequences composes `exec`. -/
theorem exec_append (t : OATable) (ops1 ops2 : List Op) :
    exec t (ops1 ++ ops2) = exec (exec t ops1) ops2 :=
  List.foldl_append step t ops1 ops2

end OA

namespace OA

/-- Simulation of a live key across any further operation sequence that
never removes it and never clears the table: the stored binding always
equals the `trackKey` fold (the most recently inserted value). -/
theorem track_sim (ops : List Op) : ∀ (t : OATable) (v k : Int), Inv t →
    model t k = some v →
    Op.del k ∉ ops → Op.clr ∉ ops →
    model (exec t ops) k = List.foldl (trackKey k) (some v) ops ∧
    ∃ w, List.foldl (trackKey k) (some v) ops = some w := by
  induction ops with
  | nil =>
    intro t v k hInv hm _ _
    exact ⟨hm, v, rfl⟩
  | cons op rest ih =>
    intro t v k hInv hm hdel hclr
    have hdel_op : op ≠ Op.del k := fun hcontra => hdel (by rw [hcontra]; simp)
    have hdel_rest : Op.del k ∉ rest := fun hcontra => hdel (by simp [hcontra])
    have hclr_op : op ≠ Op.clr := fun hcontra => hclr (by rw [hcontra]; simp)
    have hclr_rest : Op.clr ∉ rest := fun hcontra => hclr (by simp [hcontra])
    have hexec : exec t (op :: rest) = exec (step t op) rest := rfl
    have hfold : List.foldl (trackKey k) (some v) (op :: rest)
        = List.foldl (trackKey k) (trackKey k (some v) op) rest := rfl
    rw [hexec, hfold]
    cases op with
    | ins k2 v2 =>
      by_cases hk2 : k2 = k
      · subst hk2
        have htr : trackKey k2 (some v) (Op.ins k2 v2) = some v2 := by
          simp [trackKey]
        rw [htr]
        obtain ⟨hI, hmt, _, _, _, hlive⟩ := insert_spec t k2 v2 hInv
        obtain ⟨hflag, _⟩ := hlive v hm
        have hm2 : model (step t (Op.ins k2 v2)) k2 = some v2 := by
          show model (insert t k2 v2).1 k2 = some v2
          rw [hmt hflag k2, if_pos rfl]
        exact ih (step t (Op.ins k2 v2)) v2 k2
          (step_inv t (Op.ins k2 v2) hInv) hm2 hdel_rest hclr_rest
      · have htr : trackKey k (some v) (Op.ins k2 v2) = some v := by
          simp only [trackKey]
          rw [if_neg hk2]
        rw [htr]
        obtain ⟨hI, hmt, hmf, _, _, _⟩ := insert_spec t k2 v2 hInv
        have hm2 : model (step t (Op.ins k2 v2)) k = some v := by
          show model (insert t k2 v2).1 k = some v
          cases hflag : (insert t k2 v2).2 with
          | true =>
            rw [hmt hflag k, if_neg (fun hqe => hk2 hqe.symm)]
            exact hm
          | false =>
            rw [hmf hflag k]
            exact hm
        exact ih (step t (Op.ins k2 v2)) v k
          (step_inv t (Op.ins k2 v2) hInv) hm2 hdel_rest hclr_rest
    | del k2 =>
      have hk2 : k2 ≠ k := fun hcontra => hdel_op (by rw [hcontra])
      have htr : trackKey k (some v) (Op.del k2) = some v := by
        simp only [trackKey]
        rw [if_neg hk2]
      rw [htr]
      obtain ⟨hI, _, _, hunch, _, hmdl, _, _⟩ := remove_spec t k2 hInv
      have hm2 : model (step t (Op.del k2)) k = some v := by
        show model (remove t k2).1 k = some v
        cases hflag : (remove t k2).2 with
        | true =>
          rw [hmdl hflag k, if_neg (fun hqe => hk2 hqe.symm)]
          exact hm
        | false =>
          rw [hunch hflag]
          exact hm
      exact ih (step t (Op.del k2)) v k
        (step_inv t (Op.del k2) hInv) hm2 hdel_rest hclr_rest
    | clr => exact absurd rfl hclr_op
    | qry k2 =>
      have htr : trackKey k (some v) (Op.qry k2) = some v := rfl
      rw [htr]
      exact ih t v k hInv hm hdel_rest hclr_rest

end OA

/-! ## AVL bucket trees: search-tree-level lemmas -/

namespace AVL

/-- `update_height` does not change the key list. -/
theorem keys_update_height (t : AVLNode) : keys (update_height t) = keys t := by
  cases t <;> rfl

/-- `update_height` does not change lookups. -/
theorem find_avl_update_height (t : AVLNode) (q : Int) :
    find_avl (update_height t) q = find_avl t q := by
  cases t <;> rfl

/-- `update_height` does not change the structural property `BSTp`. -/
theorem BSTp_update_height (t : AVLNode) (h : BSTp t) : BSTp (update_height t) := by
  cases t with
  | nil => exact h
  | node k v hh l r => exact h

/-- Right rotation permutes no keys (it re-associates the in-order
list). -/
theorem keys_rotate_right (t : AVLNode) : keys (rotate_right t) = keys t := by
  cases t with
  | nil => rfl
  | node yk yv yh l T3 =>
    cases l with
    | nil => rfl
    | node xk xv xh T1 T2 =>
      show keys (update_height (.node xk xv xh T1
        (update_height (.node yk yv yh T2 T3)))) = _
      rw [keys_update_height]
      show keys T1 ++ xk :: keys (update_height (.node yk yv yh T2 T3)) = _
      rw [keys_update_height]
      show keys T1 ++ xk :: (keys T2 ++ yk :: keys T3)
        = (keys T1 ++ xk :: keys T2) ++ yk :: keys T3
      simp

/-- Left rotation permutes no keys. -/
theorem keys_rotate_left (t : AVLNode) : keys (rotate_left t) = keys t := by
  cases t with
  | nil => rfl
  | node xk xv xh T1 r =>
    cases r with
    | nil => rfl
    | node yk yv yh T2 T3 =>
      show keys (update_height (.node yk yv yh
        (update_height (.node xk xv xh T1 T2)) T3)) = _
      rw [keys_update_height]
      show keys (update_height (.node xk xv xh T1 T2)) ++ yk :: keys T3 = _
      rw [keys_update_height]
      show (keys T1 ++ xk :: keys T2) ++ yk :: keys T3
        = keys T1 ++ xk :: (keys T2 ++ yk :: keys T3)
      simp

/-- A node's own key is in its key list. -/
theorem root_mem_keys (k v h : Int) (l r : AVLNode) :
    k ∈ keys (AVLNode.node k v h l r) := by
  show k ∈ keys l ++ k :: keys r
  simp

/-- Right rotation preserves the search-tree property. -/
theorem BSTp_rotate_right (t : AVLNode) (hb : BSTp t) :
    BSTp (rotate_right t) := by
  cases t with
  | nil => exact hb
  | node yk yv yh l T3 =>
    cases l with
    | nil => exact hb
    | node xk xv xh T1 T2 =>
      obtain ⟨hl, hr, hbl, hbr⟩ := hb
      obtain ⟨hl1, hr1, hb1, hb2⟩ := hbl
      have hxy : xk < yk := hl xk (root_mem_keys _ _ _ _ _)
      show BSTp (update_height (.node xk xv xh T1
        (update_height (.node yk yv yh T2 T3))))
      refine BSTp_update_height _ ?_
      refine ⟨hl1, ?_, hb1, ?_⟩
      · intro a ha
        rw [keys_update_height] at ha
        show xk < a
        rcases List.mem_append.mp ha with ha2 | ha3
        · exact hr1 a ha2
        · rcases List.mem_cons.mp ha3 with rfl | ha4
          · exact hxy
          · exact lt_trans hxy (hr a ha4)
      · refine BSTp_update_height _ ?_
        refine ⟨?_, hr, ?_, hbr⟩
        · intro a ha
          refine hl a ?_
          show a ∈ keys T1 ++ xk :: keys T2
          simp [ha]
        · exact hb2

/-- Left rotation preserves the search-tree property. -/
theorem BSTp_rotate_left (t : AVLNode) (hb : BSTp t) :
    BSTp (rotate_left t) := by
  cases t with
  | nil => exact hb
  | node xk xv xh T1 r =>
    cases r with
    | nil => exact hb
    | node yk yv yh T2 T3 =>
      obtain ⟨hl, hr, hbl, hbr⟩ := hb
      obtain ⟨hl1, hr1, hb1, hb2⟩ := hbr
      have hxy : xk < yk := hr yk (root_mem_keys _ _ _ _ _)
      show BSTp (update_height (.node yk yv yh
        (update_height (.node xk xv xh T1 T2)) T3))
      refine BSTp_update_height _ ?_
      refine ⟨?_, hr1, ?_, hb2⟩
      · intro a ha
        rw [keys_update_height] at ha
        show a < yk
        rcases List.mem_append.mp ha with ha1 | ha2
        · exact lt_trans (hl a ha1) hxy
        · rcases List.mem_cons.mp ha2 with rfl | ha3
          · exact hxy
          · exact hl1 a ha3
      · refine BSTp_update_height _ ?_
        refine ⟨hl, ?_, hbl, hb1⟩
        intro a ha
        refine hr a ?_
        show a ∈ keys T2 ++ yk :: keys T3
        simp [ha]

/-- Right rotation preserves lookups on a search tree. -/
theorem find_rotate_right (t : AVLNode) (q : Int) (hb : BSTp t) :
    find_avl (rotate_right t) q = find_avl t q := by
  cases t with
  | nil => rfl
  | node yk yv yh l T3 =>
    cases l with
    | nil => rfl
    | node xk xv xh T1 T2 =>
      obtain ⟨hl, hr, hbl, hbr⟩ := hb
      have hxy : xk < yk := hl xk (root_mem_keys _ _ _ _ _)
      show find_avl (update_height (.node xk xv xh T1
        (update_height (.node yk yv yh T2 T3)))) q = _
      rw [find_avl_update_height]
      show (if q = xk then some xv else if q < xk then find_avl T1 q
        else find_avl (update_height (.node yk yv yh T2 T3)) q) = _
      rw [find_avl_update_height]
      show _ = (if q = yk then some yv else if q < yk then
        find_avl (.node xk xv xh T1 T2) q else find_avl T3 q)
      show (if q = xk then some xv else if q < xk then find_avl T1 q
        else if q = yk then some yv else if q < yk then find_avl T2 q
        else find_avl T3 q) = _
      show _ = (if q = yk then some yv else if q < yk then
        (if q = xk then some xv else if q < xk then find_avl T1 q
          else find_avl T2 q) else find_avl T3 q)
      split_ifs <;> first | rfl | (exfalso; omega)

/-- Left rotation preserves lookups on a search tree. -/
theorem find_rotate_left (t : AVLNode) (q : Int) (hb : BSTp t) :
    find_avl (rotate_left t) q = find_avl t q := by
  cases t with
  | nil => rfl
  | node xk xv xh T1 r =>
    cases r with
    | nil => rfl
    | node yk yv yh T2 T3 =>
      obtain ⟨hl, hr, hbl, hbr⟩ := hb
      have hxy : xk < yk := hr yk (root_mem_keys _ _ _ _ _)
      show find_avl (update_height (.node yk yv yh
        (update_height (.node xk xv xh T1 T2)) T3)) q = _
      rw [find_avl_update_height]
      show (if q = yk then some yv else if q < yk then
        find_avl (update_height (.node xk xv xh T1 T2)) q
        else find_avl T3 q) = _
      rw [find_avl_update_height]
      show (if q = yk then some yv else if q < yk then
        (if q = xk then some xv else if q < xk then find_avl T1 q
          else find_avl T2 q) else find_avl T3 q) = _
      show _ = (if q = xk then some xv else if q < xk then find_avl T1 q
        else if q = yk then some yv else if q < yk then find_avl T2 q
        else find_avl T3 q)
      split_ifs <;> first | rfl | (exfalso; omega)

end AVL

namespace AVL

/-- Lookups only inspect keys and values, so a left child with the same
lookup behaviour can be swapped in. -/
theorem find_avl_node_left (k v h h2 q : Int) (l l2 r : AVLNode)
    (hf : ∀ q2, find_avl l2 q2 = find_avl l q2) :
    find_avl (.node k v h2 l2 r) q = find_avl (.node k v h l r) q := by
  show (if q = k then some v else if q < k then find_avl l2 q else find_avl r q)
    = (if q = k then some v else if q < k then find_avl l q else find_avl r q)
  split_ifs <;> first | rfl | exact hf q

/-- Mirror of `find_avl_node_left` for the right child. -/
theorem find_avl_node_right (k v h h2 q : Int) (l r r2 : AVLNode)
    (hf : ∀ q2, find_avl r2 q2 = find_avl r q2) :
    find_avl (.node k v h2 l r2) q = find_avl (.node k v h l r) q := by
  show (if q = k then some v else if q < k then find_avl l q else find_avl r2 q)
    = (if q = k then some v else if q < k then find_avl l q else find_avl r q)
  split_ifs <;> first | rfl | exact hf q

/-- The insertion-time rebalancing step permutes no keys. -/
theorem keys_rebalance_insert (n : AVLNode) (key : Int) :
    keys (rebalance_insert n key) = keys n := by
  unfold rebalance_insert
  simp only []
  split_ifs with h1 h2 h3 h4
  · exact keys_rotate_right n
  · exact keys_rotate_left n
  · cases n with
    | nil => rfl
    | node k v h l r =>
      rw [keys_rotate_right]
      show keys (rotate_left l) ++ k :: keys r = keys l ++ k :: keys r
      rw [keys_rotate_left]
  · cases n with
    | nil => rfl
    | node k v h l r =>
      rw [keys_rotate_left]
      show keys l ++ k :: keys (rotate_right r) = keys l ++ k :: keys r
      rw [keys_rotate_right]
  · rfl

/-- The deletion-time rebalancing step permutes no keys. -/
theorem keys_rebalance_delete (n : AVLNode) :
    keys (rebalance_delete n) = keys n := by
  unfold rebalance_delete
  simp only []
  split_ifs with h1 h2 h3 h4
  · exact keys_rotate_right n
  · cases n with
    | nil => rfl
    | node k v h l r =>
      rw [keys_rotate_right]
      show keys (rotate_left l) ++ k :: keys r = keys l ++ k :: keys r
      rw [keys_rotate_left]
  · exact keys_rotate_left n
  · cases n with
    | nil => rfl
    | node k v h l r =>
      rw [keys_rotate_left]
      show keys l ++ k :: keys (rotate_right r) = keys l ++ k :: keys r
      rw [keys_rotate_right]
  · rfl

/-- The double-rotation intermediates preserve `BSTp`. -/
theorem BSTp_set_left_rotate (k v h : Int) (l r : AVLNode)
    (hb : BSTp (.node k v h l r)) :
    BSTp (.node k v h (rotate_left l) r) := by
  obtain ⟨hl, hr, hbl, hbr⟩ := hb
  refine ⟨?_, hr, BSTp_rotate_left l hbl, hbr⟩
  intro a ha
  rw [keys_rotate_left] at ha
  exact hl a ha

/-- Mirror of `BSTp_set_left_rotate`. -/
theorem BSTp_set_right_rotate (k v h : Int) (l r : AVLNode)
    (hb : BSTp (.node k v h l r)) :
    BSTp (.node k v h l (rotate_right r)) := by
  obtain ⟨hl, hr, hbl, hbr⟩ := hb
  refine ⟨hl, ?_, hbl, BSTp_rotate_right r hbr⟩
  intro a ha
  rw [keys_rotate_right] at ha
  exact hr a ha

/-- The insertion-time rebalancing step preserves the search-tree
property. -/
theorem BSTp_rebalance_insert (n : AVLNode) (key : Int) (hb : BSTp n) :
    BSTp (rebalance_insert n key) := by
  unfold rebalance_insert
  simp only []
  split_ifs with h1 h2 h3 h4
  · exact BSTp_rotate_right n hb
  · exact BSTp_rotate_left n hb
  · cases n with
    | nil => exact hb
    | node k v h l r =>
      exact BSTp_rotate_right _ (BSTp_set_left_rotate k v h l r hb)
  · cases n with
    | nil => exact hb
    | node k v h l r =>
      exact BSTp_rotate_left _ (BSTp_set_right_rotate k v h l r hb)
  · exact hb

/-- The deletion-time rebalancing step preserves the search-tree
property. -/
theorem BSTp_rebalance_delete (n : AVLNode) (hb : BSTp n) :
    BSTp (rebalance_delete n) := by
  unfold rebalance_delete
  simp only []
  split_ifs with h1 h2 h3 h4
  · exact BSTp_rotate_right n hb
  · cases n with
    | nil => exact hb
    | node k v h l r =>
      exact BSTp_rotate_right _ (BSTp_set_left_rotate k v h l r hb)
  · exact BSTp_rotate_left n hb
  · cases n with
    | nil => exact hb
    | node k v h l r =>
      exact BSTp_rotate_left _ (BSTp_set_right_rotate k v h l r hb)
  · exact hb

/-- The insertion-time rebalancing step preserves lookups on a search
tree. -/
theorem find_rebalance_insert (n : AVLNode) (key q : Int) (hb : BSTp n) :
    find_avl (rebalance_insert n key) q = find_avl n q := by
  unfold rebalance_insert
  simp only []
  split_ifs with h1 h2 h3 h4
  · exact find_rotate_right n q hb
  · exact find_rotate_left n q hb
  · cases n with
    | nil => rfl
    | node k v h l r =>
      show find_avl (rotate_right (.node k v h (rotate_left l) r)) q
        = find_avl (.node k v h l r) q
      rw [find_rotate_right _ _ (BSTp_set_left_rotate k v h l r hb)]
      exact find_avl_node_left k v h h q l (rotate_left l) r
        (fun q2 => find_rotate_left l q2 hb.2.2.1)
  · cases n with
    | nil => rfl
    | node k v h l r =>
      show find_avl (rotate_left (.node k v h l (rotate_right r))) q
        = find_avl (.node k v h l r) q
      rw [find_rotate_left _ _ (BSTp_set_right_rotate k v h l r hb)]
      exact find_avl_node_right k v h h q l r (rotate_right r)
        (fun q2 => find_rotate_right r q2 hb.2.2.2)
  · rfl

/-- The deletion-time rebalancing step preserves lookups on a search
tree. -/
theorem find_rebalance_delete (n : AVLNode) (q : Int) (hb : BSTp n) :
    find_avl (rebalance_delete n) q = find_avl n q := by
  unfold rebalance_delete
  simp only []
  split_ifs with h1 h2 h3 h4
  · exact find_rotate_right n q hb
  · cases n with
    | nil => rfl
    | node k v h l r =>
      show find_avl (rotate_right (.node k v h (rotate_left l) r)) q
        = find_avl (.node k v h l r) q
      rw [find_rotate_right _ _ (BSTp_set_left_rotate k v h l r hb)]
      exact find_avl_node_left k v h h q l (rotate_left l) r
        (fun q2 => find_rotate_left l q2 hb.2.2.1)
  · exact find_rotate_left n q hb
  · cases n with
    | nil => rfl
    | node k v h l r =>
      show find_avl (rotate_left (.node k v h l (rotate_right r))) q
        = find_avl (.node k v h l r) q
      rw [find_rotate_left _ _ (BSTp_set_right_rotate k v h l r hb)]
      exact find_avl_node_right k v h h q l r (rotate_right r)
        (fun q2 => find_rotate_right r q2 hb.2.2.2)
  · rfl

/-- On a search tree, a lookup succeeds exactly for stored keys. -/
theorem find_isSome_iff_mem (t : AVLNode) (hb : BSTp t) (q : Int) :
    (∃ w, find_avl t q = some w) ↔ q ∈ keys t := by
  induction t with
  | nil =>
    constructor
    · intro ⟨w, hw⟩; exact absurd hw (by simp [find_avl])
    · intro hmem; exact absurd hmem (by simp [keys])
  | node k v h l r ihl ihr =>
    obtain ⟨hl, hr, hbl, hbr⟩ := hb
    show (∃ w, (if q = k then some v else if q < k then find_avl l q
      else find_avl r q) = some w) ↔ q ∈ keys l ++ k :: keys r
    by_cases hq : q = k
    · rw [if_pos hq]
      simp [hq]
    · rw [if_neg hq]
      by_cases hlt : q < k
      · rw [if_pos hlt]
        rw [ihl hbl]
        constructor
        · intro hm; simp [hm]
        · intro hm
          rcases List.mem_append.mp hm with hm1 | hm2
          · exact hm1
          · rcases List.mem_cons.mp hm2 with rfl | hm3
            · omega
            · have := hr q hm3
              omega
      · rw [if_neg hlt]
        rw [ihr hbr]
        constructor
        · intro hm; simp [hm]
        · intro hm
          rcases List.mem_append.mp hm with hm1 | hm2
          · have := hl q hm1
            omega
          · rcases List.mem_cons.mp hm2 with rfl | hm3
            · omega
            · exact hm3

end AVL

namespace AVL

/-- Search-tree-level specification of `insert_avl`: order is preserved,
keys grow by at most the inserted key, lookups afterwards see exactly the
new binding, and the `inserted` flag reports whether the key was new. -/
theorem insert_avl_bst (t : AVLNode) (k v : Int) (hb : BSTp t) :
    BSTp (insert_avl t k v).1 ∧
    (∀ x, x ∈ keys (insert_avl t k v).1 → x ∈ keys t ∨ x = k) ∧
    (∀ q, find_avl (insert_avl t k v).1 q =
      if q = k then some v else find_avl t q) ∧
    ((insert_avl t k v).2 = true ↔ k ∉ keys t) := by
  induction t with
  | nil =>
    have hres : insert_avl .nil k v = (.node k v 1 .nil .nil, true) := rfl
    rw [hres]
    refine ⟨⟨by simp [keys], by simp [keys], trivial, trivial⟩, ?_, ?_, ?_⟩
    · intro x hx
      right
      simp only [keys, List.nil_append] at hx
      rcases List.mem_cons.mp hx with rfl | hx2
      · rfl
      · simp [keys] at hx2
    · intro q
      show (if q = k then some v else if q < k then find_avl .nil q
        else find_avl .nil q) = if q = k then some v else find_avl .nil q
      split_ifs <;> rfl
    · simp [keys]
  | node nk nv nh l r ihl ihr =>
    obtain ⟨hl, hr, hbl, hbr⟩ := hb
    by_cases hlt : k < nk
    · have hres : insert_avl (.node nk nv nh l r) k v
          = (rebalance_insert (update_height
              (.node nk nv nh (insert_avl l k v).1 r)) k,
             (insert_avl l k v).2) := by
        simp only [insert_avl]
        rw [if_pos hlt]
      rw [hres]
      obtain ⟨hbst1, hkeys1, hfind1, hflag1⟩ := ihl hbl
      have hbM : BSTp (.node nk nv nh (insert_avl l k v).1 r) := by
        refine ⟨?_, hr, hbst1, hbr⟩
        intro x hx
        rcases hkeys1 x hx with hx2 | rfl
        · exact hl x hx2
        · exact hlt
      have hbU : BSTp (update_height (.node nk nv nh (insert_avl l k v).1 r)) :=
        BSTp_update_height _ hbM
      refine ⟨BSTp_rebalance_insert _ _ hbU, ?_, ?_, ?_⟩
      · intro x hx
        rw [keys_rebalance_insert, keys_update_height] at hx
        show x ∈ keys l ++ nk :: keys r ∨ x = k
        rcases List.mem_append.mp hx with hx1 | hx2
        · rcases hkeys1 x hx1 with hx3 | rfl
          · left; simp [hx3]
          · right; rfl
        · left; simp at hx2; simp [hx2]
      · intro q
        rw [find_rebalance_insert _ _ _ hbU, find_avl_update_height]
        show (if q = nk then some nv else if q < nk then
            find_avl (insert_avl l k v).1 q else find_avl r q)
          = if q = k then some v else
            (if q = nk then some nv else if q < nk then find_avl l q
              else find_avl r q)
        rw [hfind1 q]
        split_ifs <;> first | rfl | (exfalso; omega)
      · rw [hflag1]
        show k ∉ keys l ↔ k ∉ keys l ++ nk :: keys r
        constructor
        · intro hk hmem
          rcases List.mem_append.mp hmem with h1 | h2
          · exact hk h1
          · rcases List.mem_cons.mp h2 with rfl | h3
            · omega
            · have := hr k h3
              omega
        · intro hk hmem
          exact hk (by simp [hmem])
    · by_cases hgt : nk < k
      · have hres : insert_avl (.node nk nv nh l r) k v
            = (rebalance_insert (update_height
                (.node nk nv nh l (insert_avl r k v).1)) k,
               (insert_avl r k v).2) := by
          simp only [insert_avl]
          rw [if_neg hlt, if_pos hgt]
        rw [hres]
        obtain ⟨hbst1, hkeys1, hfind1, hflag1⟩ := ihr hbr
        have hbM : BSTp (.node nk nv nh l (insert_avl r k v).1) := by
          refine ⟨hl, ?_, hbl, hbst1⟩
          intro x hx
          rcases hkeys1 x hx with hx2 | rfl
          · exact hr x hx2
          · exact hgt
        have hbU : BSTp (update_height (.node nk nv nh l (insert_avl r k v).1)) :=
          BSTp_update_height _ hbM
        refine ⟨BSTp_rebalance_insert _ _ hbU, ?_, ?_, ?_⟩
        · intro x hx
          rw [keys_rebalance_insert, keys_update_height] at hx
          show x ∈ keys l ++ nk :: keys r ∨ x = k
          rcases List.mem_append.mp hx with hx1 | hx2
          · left; simp [hx1]
          · rcases List.mem_cons.mp hx2 with rfl | hx3
            · left; simp
            · rcases hkeys1 x hx3 with hx4 | rfl
              · left; simp [hx4]
              · right; rfl
        · intro q
          rw [find_rebalance_insert _ _ _ hbU, find_avl_update_height]
          show (if q = nk then some nv else if q < nk then
              find_avl l q else find_avl (insert_avl r k v).1 q)
            = if q = k then some v else
              (if q = nk then some nv else if q < nk then find_avl l q
                else find_avl r q)
          rw [hfind1 q]
          split_ifs <;> first | rfl | (exfalso; omega)
        · rw [hflag1]
          show k ∉ keys r ↔ k ∉ keys l ++ nk :: keys r
          constructor
          · intro hk hmem
            rcases List.mem_append.mp hmem with h1 | h2
            · have := hl k h1
              omega
            · rcases List.mem_cons.mp h2 with rfl | h3
              · omega
              · exact hk h3
          · intro hk hmem
            exact hk (by simp [hmem])
      · have hkeq : k = nk := by omega
        have hres : insert_avl (.node nk nv nh l r) k v
            = (.node nk v nh l r, false) := by
          simp only [insert_avl]
          rw [if_neg hlt, if_neg hgt]
        rw [hres]
        refine ⟨⟨hl, hr, hbl, hbr⟩, ?_, ?_, ?_⟩
        · intro x hx
          exact Or.inl hx
        · intro q
          show (if q = nk then some v else if q < nk then find_avl l q
              else find_avl r q)
            = if q = k then some v else
              (if q = nk then some nv else if q < nk then find_avl l q
                else find_avl r q)
          split_ifs <;> first | rfl | (exfalso; omega)
        · subst hkeq
          constructor
          · intro hcontra; simp at hcontra
          · intro hnot
            exfalso
            exact hnot (by show k ∈ keys l ++ k :: keys r; simp)

end AVL

namespace AVL

/-- A key absent from a search tree looks up to `none`. -/
theorem find_avl_eq_none_of_not_mem (t : AVLNode) (q : Int) (hb : BSTp t)
    (hnm : q ∉ keys t) : find_avl t q = none := by
  cases hf : find_avl t q with
  | none => rfl
  | some w =>
    exact absurd ((find_isSome_iff_mem t hb q).mp ⟨w, hf⟩) hnm

/-- `find_min` returns the node with the least key of a non-empty search
tree, and that key looks up to that node's value. -/
theorem find_min_spec (t : AVLNode) : t ≠ .nil → BSTp t →
    node_key (find_min t) ∈ keys t ∧
    (∀ x ∈ keys t, node_key (find_min t) ≤ x) ∧
    find_avl t (node_key (find_min t)) = some (node_value (find_min t)) := by
  induction t with
  | nil => intro hne _; exact absurd rfl hne
  | node k v h l r ihl ihr =>
    intro _ hb
    obtain ⟨hl, hr, hbl, hbr⟩ := hb
    cases l with
    | nil =>
      have hres : find_min (.node k v h .nil r) = .node k v h .nil r := rfl
      rw [hres]
      refine ⟨root_mem_keys _ _ _ _ _, ?_, ?_⟩
      · intro x hx
        show k ≤ x
        rcases List.mem_append.mp hx with h1 | h2
        · simp [keys] at h1
        · rcases List.mem_cons.mp h2 with rfl | h3
          · omega
          · have := hr x h3
            omega
      · show (if (k : Int) = k then some v else _) = some v
        rw [if_pos rfl]
    | node lk lv lh ll lr =>
      have hres : find_min (.node k v h (.node lk lv lh ll lr) r)
          = find_min (.node lk lv lh ll lr) := rfl
      rw [hres]
      obtain ⟨hmem, hmin, hfind⟩ := ihl (by simp) hbl
      have hmk_lt : node_key (find_min (.node lk lv lh ll lr)) < k :=
        hl _ hmem
      refine ⟨?_, ?_, ?_⟩
      · show _ ∈ keys (.node lk lv lh ll lr) ++ k :: keys r
        simp [hmem]
      · intro x hx
        rcases List.mem_append.mp hx with h1 | h2
        · exact hmin x h1
        · rcases List.mem_cons.mp h2 with rfl | h3
          · omega
          · have := hr x h3
            omega
      · show (if node_key (find_min (.node lk lv lh ll lr)) = k then some v
          else if node_key (find_min (.node lk lv lh ll lr)) < k
            then find_avl (.node lk lv lh ll lr) _ else find_avl r _) = _
        rw [if_neg (by omega), if_pos hmk_lt]
        exact hfind

end AVL

namespace AVL

/-- Search-tree-level specification of `remove_avl`: order is preserved,
no key appears from nowhere, lookups afterwards see exactly the deletion
of the key, and the `removed` flag reports whether the key was present. -/
theorem remove_avl_bst (t : AVLNode) : ∀ k : Int, BSTp t →
    BSTp (remove_avl t k).1 ∧
    (∀ x, x ∈ keys (remove_avl t k).1 → x ∈ keys t) ∧
    (∀ q, find_avl (remove_avl t k).1 q =
      if q = k then none else find_avl t q) ∧
    ((remove_avl t k).2 = true ↔ k ∈ keys t) := by
  induction t with
  | nil =>
    intro k _
    refine ⟨trivial, fun x hx => hx, ?_, ?_⟩
    · intro q
      show (none : Option Int) = if q = k then none else none
      split_ifs <;> rfl
    · show (false = true) ↔ k ∈ keys AVLNode.nil
      simp [keys]
  | node nk nv nh l r ihl ihr =>
    intro k hb
    obtain ⟨hl, hr, hbl, hbr⟩ := hb
    by_cases hlt : k < nk
    · have hres : remove_avl (.node nk nv nh l r) k
          = (rebalance_delete (update_height
              (.node nk nv nh (remove_avl l k).1 r)),
             (remove_avl l k).2) := by
        cases l <;> cases r <;> (simp only [remove_avl]; rw [if_pos hlt])
      rw [hres]
      obtain ⟨hbst1, hkeys1, hfind1, hflag1⟩ := ihl k hbl
      have hbM : BSTp (.node nk nv nh (remove_avl l k).1 r) :=
        ⟨fun x hx => hl x (hkeys1 x hx), hr, hbst1, hbr⟩
      have hbU := BSTp_update_height _ hbM
      refine ⟨BSTp_rebalance_delete _ hbU, ?_, ?_, ?_⟩
      · intro x hx
        rw [keys_rebalance_delete, keys_update_height] at hx
        show x ∈ keys l ++ nk :: keys r
        rcases List.mem_append.mp hx with h1 | h2
        · exact List.mem_append.mpr (Or.inl (hkeys1 x h1))
        · exact List.mem_append.mpr (Or.inr h2)
      · intro q
        rw [find_rebalance_delete _ _ hbU, find_avl_update_height]
        show (if q = nk then some nv else if q < nk then
            find_avl (remove_avl l k).1 q else find_avl r q)
          = if q = k then none else
            (if q = nk then some nv else if q < nk then find_avl l q
              else find_avl r q)
        rw [hfind1 q]
        split_ifs <;> first | rfl | (exfalso; omega)
      · rw [hflag1]
        constructor
        · intro hm
          exact List.mem_append.mpr (Or.inl hm)
        · intro hm
          rcases List.mem_append.mp hm with h1 | h2
          · exact h1
          · rcases List.mem_cons.mp h2 with rfl | h3
            · omega
            · have := hr k h3
              omega
    · by_cases hgt : nk < k
      · have hres : remove_avl (.node nk nv nh l r) k
            = (rebalance_delete (update_height
                (.node nk nv nh l (remove_avl r k).1)),
               (remove_avl r k).2) := by
          cases l <;> cases r <;> (simp only [remove_avl]; rw [if_neg hlt, if_pos hgt])
        rw [hres]
        obtain ⟨hbst1, hkeys1, hfind1, hflag1⟩ := ihr k hbr
        have hbM : BSTp (.node nk nv nh l (remove_avl r k).1) :=
          ⟨hl, fun x hx => hr x (hkeys1 x hx), hbl, hbst1⟩
        have hbU := BSTp_update_height _ hbM
        refine ⟨BSTp_rebalance_delete _ hbU, ?_, ?_, ?_⟩
        · intro x hx
          rw [keys_rebalance_delete, keys_update_height] at hx
          show x ∈ keys l ++ nk :: keys r
          rcases List.mem_append.mp hx with h1 | h2
          · exact List.mem_append.mpr (Or.inl h1)
          · rcases List.mem_cons.mp h2 with rfl | h3
            · exact List.mem_append.mpr (Or.inr (List.mem_cons.mpr (Or.inl rfl)))
            · exact List.mem_append.mpr (Or.inr (List.mem_cons.mpr
                (Or.inr (hkeys1 x h3))))
        · intro q
          rw [find_rebalance_delete _ _ hbU, find_avl_update_height]
          show (if q = nk then some nv else if q < nk then
              find_avl l q else find_avl (remove_avl r k).1 q)
            = if q = k then none else
              (if q = nk then some nv else if q < nk then find_avl l q
                else find_avl r q)
          rw [hfind1 q]
          split_ifs <;> first | rfl | (exfalso; omega)
        · rw [hflag1]
          constructor
          · intro hm
            exact List.mem_append.mpr (Or.inr (List.mem_cons.mpr (Or.inr hm)))
          · intro hm
            rcases List.mem_append.mp hm with h1 | h2
            · have := hl k h1
              omega
            · rcases List.mem_cons.mp h2 with rfl | h3
              · omega
              · exact h3
      · have hkeq : k = nk := by omega
        subst hkeq
        cases l with
        | nil =>
          cases r with
          | nil =>
            have hres : remove_avl (.node k nv nh .nil .nil) k
                = (.nil, true) := by
              simp only [remove_avl]
              rw [if_neg hlt, if_neg hgt]
            rw [hres]
            refine ⟨trivial, by intro x hx; simp [keys] at hx, ?_, ?_⟩
            · intro q
              show (none : Option Int) = if q = k then none else
                (if q = k then some nv else if q < k then find_avl .nil q
                  else find_avl .nil q)
              split_ifs <;> first | rfl | (exfalso; omega)
            · constructor
              · intro _
                exact root_mem_keys _ _ _ _ _
              · intro _; rfl
          | node rk rv rh rl rr =>
            have hres : remove_avl (.node k nv nh .nil (.node rk rv rh rl rr)) k
                = (rebalance_delete (update_height (.node rk rv rh rl rr)),
                   true) := by
              simp only [remove_avl]
              rw [if_neg hlt, if_neg hgt]
            rw [hres]
            have hbU := BSTp_update_height _ hbr
            refine ⟨BSTp_rebalance_delete _ hbU, ?_, ?_, ?_⟩
            · intro x hx
              rw [keys_rebalance_delete, keys_update_height] at hx
              exact List.mem_append.mpr (Or.inr (List.mem_cons.mpr (Or.inr hx)))
            · intro q
              rw [find_rebalance_delete _ _ hbU, find_avl_update_height]
              by_cases hq : q = k
              · rw [if_pos hq, hq]
                exact find_avl_eq_none_of_not_mem _ k hbr (fun hm => by
                  have := hr k hm
                  omega)
              · rw [if_neg hq]
                show find_avl (.node rk rv rh rl rr) q
                  = if q = k then some nv else if q < k then find_avl .nil q
                    else find_avl (.node rk rv rh rl rr) q
                rw [if_neg hq]
                by_cases hq2 : q < k
                · rw [if_pos hq2]
                  exact find_avl_eq_none_of_not_mem _ q hbr (fun hm => by
                    have := hr q hm
                    omega)
                · rw [if_neg hq2]
            · constructor
              · intro _
                exact root_mem_keys _ _ _ _ _
              · intro _; rfl
        | node lk lv lh ll lr =>
          cases r with
          | nil =>
            have hres : remove_avl (.node k nv nh (.node lk lv lh ll lr) .nil) k
                = (rebalance_delete (update_height (.node lk lv lh ll lr)),
                   true) := by
              simp only [remove_avl]
              rw [if_neg hlt, if_neg hgt]
            rw [hres]
            have hbU := BSTp_update_height _ hbl
            refine ⟨BSTp_rebalance_delete _ hbU, ?_, ?_, ?_⟩
            · intro x hx
              rw [keys_rebalance_delete, keys_update_height] at hx
              exact List.mem_append.mpr (Or.inl hx)
            · intro q
              rw [find_rebalance_delete _ _ hbU, find_avl_update_height]
              by_cases hq : q = k
              · rw [if_pos hq, hq]
                exact find_avl_eq_none_of_not_mem _ k hbl (fun hm => by
                  have := hl k hm
                  omega)
              · rw [if_neg hq]
                show find_avl (.node lk lv lh ll lr) q
                  = if q = k then some nv else if q < k then
                      find_avl (.node lk lv lh ll lr) q else find_avl .nil q
                rw [if_neg hq]
                by_cases hq2 : q < k
                · rw [if_pos hq2]
                · rw [if_neg hq2]
                  exact find_avl_eq_none_of_not_mem _ q hbl (fun hm => by
                    have := hl q hm
                    omega)
            · constructor
              · intro _
                exact root_mem_keys _ _ _ _ _
              · intro _; rfl
          | node rk rv rh rl rr =>
            set rr0 : AVLNode := .node rk rv rh rl rr with hrr0
            set sk := node_key (find_min rr0) with hsk
            set sv := node_value (find_min rr0) with hsv
            have hres : remove_avl (.node k nv nh (.node lk lv lh ll lr) rr0) k
                = (rebalance_delete (update_height
                    (.node sk sv nh (.node lk lv lh ll lr)
                      (remove_avl rr0 sk).1)), true) := by
              simp only [remove_avl]
              rw [if_neg hlt, if_neg hgt]
            rw [hres]
            obtain ⟨hsmem, hsmin, hsfind⟩ := find_min_spec rr0 (by simp [hrr0]) hbr
            have hks : k < sk := hr sk hsmem
            obtain ⟨hbst1, hkeys1, hfind1, hflag1⟩ := ihr sk hbr
            have hsk_not : sk ∉ keys (remove_avl rr0 sk).1 := by
              intro hm
              obtain ⟨w, hw⟩ := (find_isSome_iff_mem _ hbst1 sk).mpr hm
              rw [hfind1 sk, if_pos rfl] at hw
              exact Option.noConfusion hw
            have hbM : BSTp (.node sk sv nh (.node lk lv lh ll lr)
                (remove_avl rr0 sk).1) := by
              refine ⟨?_, ?_, hbl, hbst1⟩
              · intro x hx
                have := hl x hx
                omega
              · intro x hx
                have hxr := hkeys1 x hx
                have hge := hsmin x hxr
                have hne : x ≠ sk := fun hcontra => hsk_not (hcontra ▸ hx)
                omega
            have hbU := BSTp_update_height _ hbM
            refine ⟨BSTp_rebalance_delete _ hbU, ?_, ?_, ?_⟩
            · intro x hx
              rw [keys_rebalance_delete, keys_update_height] at hx
              rcases List.mem_append.mp hx with h1 | h2
              · exact List.mem_append.mpr (Or.inl h1)
              · rcases List.mem_cons.mp h2 with rfl | h3
                · exact List.mem_append.mpr (Or.inr (List.mem_cons.mpr
                    (Or.inr hsmem)))
                · exact List.mem_append.mpr (Or.inr (List.mem_cons.mpr
                    (Or.inr (hkeys1 x h3))))
            · intro q
              rw [find_rebalance_delete _ _ hbU, find_avl_update_height]
              show (if q = sk then some sv else if q < sk then
                  find_avl (.node lk lv lh ll lr) q
                  else find_avl (remove_avl rr0 sk).1 q)
                = if q = k then none else
                  (if q = k then some nv else if q < k then
                    find_avl (.node lk lv lh ll lr) q else find_avl rr0 q)
              by_cases hq1 : q = k
              · rw [if_pos hq1, if_neg (by omega), if_pos (by omega), hq1]
                exact find_avl_eq_none_of_not_mem _ k hbl (fun hm => by
                  have := hl k hm
                  omega)
              · rw [if_neg hq1, if_neg hq1]
                by_cases hq2 : q = sk
                · rw [if_pos hq2, if_neg (by omega), hq2]
                  exact hsfind.symm
                · rw [if_neg hq2]
                  by_cases hq3 : q < sk
                  · rw [if_pos hq3]
                    by_cases hq4 : q < k
                    · rw [if_pos hq4]
                    · rw [if_neg hq4]
                      rw [find_avl_eq_none_of_not_mem _ q hbl (fun hm => by
                        have := hl q hm
                        omega)]
                      rw [find_avl_eq_none_of_not_mem rr0 q hbr (fun hm => by
                        have := hsmin q hm
                        omega)]
                  · rw [if_neg hq3, if_neg (by omega)]
                    rw [hfind1 q, if_neg hq2]
            · constructor
              · intro _
                exact root_mem_keys _ _ _ _ _
              · intro _; rfl

end AVL

/-! ## AVL bucket trees: height and balance lemmas -/

namespace AVL

/-- Under correct stored heights, `get_height` computes the realized
height. -/
theorem get_height_eq (t : AVLNode) (hok : HeightsOK t) :
    get_height t = (realHeight t : Int) := by
  induction t with
  | nil => rfl
  | node k v h l r ihl ihr =>
    obtain ⟨hl, hr, hh⟩ := hok
    show h = ((1 + max (realHeight l) (realHeight r) : Nat) : Int)
    rw [hh, ihl hl, ihr hr]
    push_cast
    rfl

/-- A tree with correct stored heights is unchanged by `update_height`. -/
theorem update_height_id (t : AVLNode) (hok : HeightsOK t) :
    update_height t = t := by
  cases t with
  | nil => rfl
  | node k v h l r =>
    obtain ⟨_, _, hh⟩ := hok
    show AVLNode.node k v (1 + max (get_height l) (get_height r)) l r = _
    rw [← hh]

/-- `update_height` on a rebuilt node yields correct stored heights. -/
theorem HeightsOK_update_node (k v h : Int) (l r : AVLNode)
    (hl : HeightsOK l) (hr : HeightsOK r) :
    HeightsOK (update_height (.node k v h l r)) :=
  ⟨hl, hr, rfl⟩

/-- Realized height of an updated node. -/
theorem realHeight_update_node (k v h : Int) (l r : AVLNode) :
    realHeight (update_height (.node k v h l r))
      = 1 + max (realHeight l) (realHeight r) := rfl

/-- Balance of an updated node reads the children's stored heights. -/
theorem get_balance_update_node (k v h : Int) (l r : AVLNode) :
    get_balance (update_height (.node k v h l r))
      = get_height l - get_height r := rfl

/-- `BalancedP` ignores stored heights, so it commutes with
`update_height` on a node. -/
theorem BalancedP_update_node (k v h : Int) (l r : AVLNode) :
    BalancedP (update_height (.node k v h l r)) ↔
      (BalancedP l ∧ BalancedP r ∧
        ((realHeight l : Int) - (realHeight r : Int)).natAbs ≤ 1) := by
  show (BalancedP l ∧ BalancedP r ∧ _) ↔ _
  rfl

/-- When the stored balance is within the AVL band, the insertion-time
rebalancing step does nothing. -/
theorem rebalance_insert_eq_self (n : AVLNode) (key : Int)
    (h1 : get_balance n ≤ 1) (h2 : -1 ≤ get_balance n) :
    rebalance_insert n key = n := by
  unfold rebalance_insert
  simp only []
  rw [if_neg (fun hc => absurd hc.1 (by omega)),
    if_neg (fun hc => absurd hc.1 (by omega)),
    if_neg (fun hc => absurd hc.1 (by omega)),
    if_neg (fun hc => absurd hc.1 (by omega))]

/-- When the stored balance is within the AVL band, the deletion-time
rebalancing step does nothing. -/
theorem rebalance_delete_eq_self (n : AVLNode)
    (h1 : get_balance n ≤ 1) (h2 : -1 ≤ get_balance n) :
    rebalance_delete n = n := by
  unfold rebalance_delete
  simp only []
  rw [if_neg (fun hc => absurd hc.1 (by omega)),
    if_neg (fun hc => absurd hc.1 (by omega)),
    if_neg (fun hc => absurd hc.1 (by omega)),
    if_neg (fun hc => absurd hc.1 (by omega))]

/-- A tree of positive realized height is a node. -/
theorem exists_node_of_height_pos (t : AVLNode) (h : 0 < realHeight t) :
    ∃ k v hh l r, t = AVLNode.node k v hh l r := by
  cases t with
  | nil => simp [realHeight] at h
  | node k v hh l r => exact ⟨k, v, hh, l, r, rfl⟩

end AVL

namespace AVL

/-- Insertion rebalancing: left child two levels taller after a left
insert; the single or double right rotation restores balance and the
rebuilt subtree realizes the left child's height. -/
theorem rebalance_insert_grow_left (nk nv nh k : Int) (l2 r : AVLNode)
    (hok2 : HeightsOK l2) (hokr : HeightsOK r)
    (hbal2 : BalancedP l2) (hbalr : BalancedP r)
    (hdiff : (realHeight l2 : Int) - (realHeight r : Int) = 2)
    (hdir : (get_balance l2 = 1 ∧ k < node_key l2) ∨
            (get_balance l2 = -1 ∧ node_key l2 < k)) :
    HeightsOK (rebalance_insert (update_height (.node nk nv nh l2 r)) k) ∧
    BalancedP (rebalance_insert (update_height (.node nk nv nh l2 r)) k) ∧
    realHeight (rebalance_insert (update_height (.node nk nv nh l2 r)) k)
      = realHeight l2 := by
  obtain ⟨a, av, ah, la, ra, rfl⟩ :=
    exists_node_of_height_pos l2 (by omega)
  obtain ⟨hokla, hokra, hah⟩ := hok2
  obtain ⟨balla, balra, habs⟩ := hbal2
  have hba : get_balance (AVLNode.node a av ah la ra)
      = (realHeight la : Int) - (realHeight ra : Int) := by
    show get_height la - get_height ra = _
    rw [get_height_eq la hokla, get_height_eq ra hokra]
  have hbU : get_balance (update_height
        (.node nk nv nh (.node a av ah la ra) r))
      = (realHeight (AVLNode.node a av ah la ra) : Int)
        - (realHeight r : Int) := by
    rw [get_balance_update_node,
      get_height_eq (AVLNode.node a av ah la ra) ⟨hokla, hokra, hah⟩,
      get_height_eq r hokr]
  rcases hdir with ⟨hb1, hk1⟩ | ⟨hb1, hk1⟩
  · -- left-left: single right rotation
    rw [hba] at hb1
    have hcond : get_balance (update_height
          (.node nk nv nh (.node a av ah la ra) r)) > 1
        ∧ k < node_key (child_left (update_height
            (.node nk nv nh (.node a av ah la ra) r))) := by
      refine ⟨by rw [hbU]; simp only [realHeight] at hdiff ⊢; omega, ?_⟩
      exact hk1
    have hT : rebalance_insert (update_height
          (.node nk nv nh (.node a av ah la ra) r)) k
        = update_height (.node a av ah la
            (update_height (.node nk nv nh ra r))) := by
      unfold rebalance_insert
      simp only []
      rw [if_pos hcond]
      rfl
    rw [hT]
    simp only [realHeight] at hdiff
    refine ⟨HeightsOK_update_node _ _ _ _ _ hokla
        (HeightsOK_update_node _ _ _ _ _ hokra hokr), ?_, ?_⟩
    · rw [BalancedP_update_node]
      refine ⟨balla, ?_, ?_⟩
      · rw [BalancedP_update_node]
        exact ⟨balra, hbalr, by omega⟩
      · rw [realHeight_update_node]
        omega
    · rw [realHeight_update_node, realHeight_update_node]
      simp only [realHeight]
      omega
  · -- left-right: double rotation
    rw [hba] at hb1
    obtain ⟨b, bv, bh, rb1, rb2, rfl⟩ :=
      exists_node_of_height_pos ra (by omega)
    obtain ⟨hokrb1, hokrb2, hbh⟩ := hokra
    obtain ⟨balrb1, balrb2, habsb⟩ := balra
    have hc1 : ¬(get_balance (update_height
          (.node nk nv nh (.node a av ah la (.node b bv bh rb1 rb2)) r)) > 1
        ∧ k < node_key (child_left (update_height
            (.node nk nv nh (.node a av ah la (.node b bv bh rb1 rb2)) r)))) := by
      intro hc
      have hka : k < a := hc.2
      have hk1x : a < k := hk1
      omega
    have hc2 : ¬(get_balance (update_height
          (.node nk nv nh (.node a av ah la (.node b bv bh rb1 rb2)) r)) < -1
        ∧ k > node_key (child_right (update_height
            (.node nk nv nh (.node a av ah la (.node b bv bh rb1 rb2)) r)))) := by
      intro hc
      have := hc.1
      rw [hbU] at this
      omega
    have hc3 : get_balance (update_height
          (.node nk nv nh (.node a av ah la (.node b bv bh rb1 rb2)) r)) > 1
        ∧ k > node_key (child_left (update_height
            (.node nk nv nh (.node a av ah la (.node b bv bh rb1 rb2)) r))) := by
      refine ⟨by rw [hbU]; omega, ?_⟩
      exact hk1
    have hT : rebalance_insert (update_height
          (.node nk nv nh (.node a av ah la (.node b bv bh rb1 rb2)) r)) k
        = update_height (.node b bv bh
            (update_height (.node a av ah la rb1))
            (update_height (.node nk nv nh rb2 r))) := by
      unfold rebalance_insert
      simp only []
      rw [if_neg hc1, if_neg hc2, if_pos hc3]
      rfl
    rw [hT]
    simp only [realHeight] at hdiff hb1
    refine ⟨HeightsOK_update_node _ _ _ _ _
        (HeightsOK_update_node _ _ _ _ _ hokla hokrb1)
        (HeightsOK_update_node _ _ _ _ _ hokrb2 hokr), ?_, ?_⟩
    · rw [BalancedP_update_node]
      refine ⟨?_, ?_, ?_⟩
      · rw [BalancedP_update_node]
        exact ⟨balla, balrb1, by omega⟩
      · rw [BalancedP_update_node]
        exact ⟨balrb2, hbalr, by omega⟩
      · rw [realHeight_update_node, realHeight_update_node]
        omega
    · rw [realHeight_update_node, realHeight_update_node,
        realHeight_update_node]
      simp only [realHeight]
      omega

end AVL

namespace AVL

/-- Insertion rebalancing: right child two levels taller after a right
insert; the single or double left rotation restores balance and the
rebuilt subtree realizes the right child's height. -/
theorem rebalance_insert_grow_right (nk nv nh k : Int) (l r2 : AVLNode)
    (hokl : HeightsOK l) (hok2 : HeightsOK r2)
    (hball : BalancedP l) (hbal2 : BalancedP r2)
    (hdiff : (realHeight l : Int) - (realHeight r2 : Int) = -2)
    (hdir : (get_balance r2 = 1 ∧ k < node_key r2) ∨
            (get_balance r2 = -1 ∧ node_key r2 < k)) :
    HeightsOK (rebalance_insert (update_height (.node nk nv nh l r2)) k) ∧
    BalancedP (rebalance_insert (update_height (.node nk nv nh l r2)) k) ∧
    realHeight (rebalance_insert (update_height (.node nk nv nh l r2)) k)
      = realHeight r2 := by
  obtain ⟨a, av, ah, la, ra, rfl⟩ :=
    exists_node_of_height_pos r2 (by omega)
  obtain ⟨hokla, hokra, hah⟩ := hok2
  obtain ⟨balla, balra, habs⟩ := hbal2
  have hba : get_balance (AVLNode.node a av ah la ra)
      = (realHeight la : Int) - (realHeight ra : Int) := by
    show get_height la - get_height ra = _
    rw [get_height_eq la hokla, get_height_eq ra hokra]
  have hbU : get_balance (update_height
        (.node nk nv nh l (.node a av ah la ra)))
      = (realHeight l : Int)
        - (realHeight (AVLNode.node a av ah la ra) : Int) := by
    rw [get_balance_update_node, get_height_eq l hokl,
      get_height_eq (AVLNode.node a av ah la ra) ⟨hokla, hokra, hah⟩]
  rcases hdir with ⟨hb1, hk1⟩ | ⟨hb1, hk1⟩
  · -- right-left: double rotation
    rw [hba] at hb1
    obtain ⟨b, bv, bh, lb1, lb2, rfl⟩ :=
      exists_node_of_height_pos la (by omega)
    obtain ⟨hoklb1, hoklb2, hbh⟩ := hokla
    obtain ⟨ballb1, ballb2, habsb⟩ := balla
    have hc1 : ¬(get_balance (update_height
          (.node nk nv nh l (.node a av ah (.node b bv bh lb1 lb2) ra))) > 1
        ∧ k < node_key (child_left (update_height
            (.node nk nv nh l (.node a av ah (.node b bv bh lb1 lb2) ra))))) := by
      intro hc
      have := hc.1
      rw [hbU] at this
      omega
    have hc2 : ¬(get_balance (update_height
          (.node nk nv nh l (.node a av ah (.node b bv bh lb1 lb2) ra))) < -1
        ∧ k > node_key (child_right (update_height
            (.node nk nv nh l (.node a av ah (.node b bv bh lb1 lb2) ra))))) := by
      intro hc
      have hka : a < k := hc.2
      have hk1x : k < a := hk1
      omega
    have hc3 : ¬(get_balance (update_height
          (.node nk nv nh l (.node a av ah (.node b bv bh lb1 lb2) ra))) > 1
        ∧ k > node_key (child_left (update_height
            (.node nk nv nh l (.node a av ah (.node b bv bh lb1 lb2) ra))))) := by
      intro hc
      have := hc.1
      rw [hbU] at this
      omega
    have hc4 : get_balance (update_height
          (.node nk nv nh l (.node a av ah (.node b bv bh lb1 lb2) ra))) < -1
        ∧ k < node_key (child_right (update_height
            (.node nk nv nh l (.node a av ah (.node b bv bh lb1 lb2) ra)))) := by
      refine ⟨by rw [hbU]; omega, ?_⟩
      exact hk1
    have hT : rebalance_insert (update_height
          (.node nk nv nh l (.node a av ah (.node b bv bh lb1 lb2) ra))) k
        = update_height (.node b bv bh
            (update_height (.node nk nv nh l lb1))
            (update_height (.node a av ah lb2 ra))) := by
      unfold rebalance_insert
      simp only []
      rw [if_neg hc1, if_neg hc2, if_neg hc3, if_pos hc4]
      rfl
    rw [hT]
    simp only [realHeight] at hdiff hb1
    refine ⟨HeightsOK_update_node _ _ _ _ _
        (HeightsOK_update_node _ _ _ _ _ hokl hoklb1)
        (HeightsOK_update_node _ _ _ _ _ hoklb2 hokra), ?_, ?_⟩
    · rw [BalancedP_update_node]
      refine ⟨?_, ?_, ?_⟩
      · rw [BalancedP_update_node]
        exact ⟨hball, ballb1, by omega⟩
      · rw [BalancedP_update_node]
        exact ⟨ballb2, balra, by omega⟩
      · rw [realHeight_update_node, realHeight_update_node]
        omega
    · rw [realHeight_update_node, realHeight_update_node,
        realHeight_update_node]
      simp only [realHeight]
      omega
  · -- right-right: single left rotation
    rw [hba] at hb1
    have hc1 : ¬(get_balance (update_height
          (.node nk nv nh l (.node a av ah la ra))) > 1
        ∧ k < node_key (child_left (update_height
            (.node nk nv nh l (.node a av ah la ra))))) := by
      intro hc
      have := hc.1
      rw [hbU] at this
      omega
    have hc2 : get_balance (update_height
          (.node nk nv nh l (.node a av ah la ra))) < -1
        ∧ k > node_key (child_right (update_height
            (.node nk nv nh l (.node a av ah la ra)))) := by
      refine ⟨by rw [hbU]; simp only [realHeight] at hdiff ⊢; omega, ?_⟩
      exact hk1
    have hT : rebalance_insert (update_height
          (.node nk nv nh l (.node a av ah la ra))) k
        = update_height (.node a av ah
            (update_height (.node nk nv nh l la)) ra) := by
      unfold rebalance_insert
      simp only []
      rw [if_neg hc1, if_pos hc2]
      rfl
    rw [hT]
    simp only [realHeight] at hdiff
    refine ⟨HeightsOK_update_node _ _ _ _ _
        (HeightsOK_update_node _ _ _ _ _ hokl hokla) hokra, ?_, ?_⟩
    · rw [BalancedP_update_node]
      refine ⟨?_, balra, ?_⟩
      · rw [BalancedP_update_node]
        exact ⟨hball, balla, by omega⟩
      · rw [realHeight_update_node]
        omega
    · rw [realHeight_update_node, realHeight_update_node]
      simp only [realHeight]
      omega

end AVL

namespace AVL

/-- Deletion rebalancing: left child two levels taller after a removal
below; the rotation selected by the left child's own balance restores
balance and the new height is the left child's height or one more. -/
theorem rebalance_delete_left_heavy (m mv mh : Int) (l r2 : AVLNode)
    (hokl : HeightsOK l) (hokr : HeightsOK r2)
    (hball : BalancedP l) (hbalr : BalancedP r2)
    (hdiff : (realHeight l : Int) - (realHeight r2 : Int) = 2) :
    HeightsOK (rebalance_delete (update_height (.node m mv mh l r2))) ∧
    BalancedP (rebalance_delete (update_height (.node m mv mh l r2))) ∧
    (realHeight (rebalance_delete (update_height (.node m mv mh l r2)))
        = realHeight l ∨
      realHeight (rebalance_delete (update_height (.node m mv mh l r2)))
        = realHeight l + 1) := by
  obtain ⟨a, av, ah, la, ra, rfl⟩ :=
    exists_node_of_height_pos l (by omega)
  obtain ⟨hokla, hokra, hah⟩ := hokl
  obtain ⟨balla, balra, habs⟩ := hball
  have hba : get_balance (AVLNode.node a av ah la ra)
      = (realHeight la : Int) - (realHeight ra : Int) := by
    show get_height la - get_height ra = _
    rw [get_height_eq la hokla, get_height_eq ra hokra]
  have hbU : get_balance (update_height
        (.node m mv mh (.node a av ah la ra) r2))
      = (realHeight (AVLNode.node a av ah la ra) : Int)
        - (realHeight r2 : Int) := by
    rw [get_balance_update_node,
      get_height_eq (AVLNode.node a av ah la ra) ⟨hokla, hokra, hah⟩,
      get_height_eq r2 hokr]
  rcases lt_or_le ((realHeight la : Int) - (realHeight ra : Int)) 0
    with hneg | hge
  · -- left child leans right: double rotation
    obtain ⟨b, bv, bh, rb1, rb2, rfl⟩ :=
      exists_node_of_height_pos ra (by omega)
    obtain ⟨hokrb1, hokrb2, hbh⟩ := hokra
    obtain ⟨balrb1, balrb2, habsb⟩ := balra
    have hc1 : ¬(get_balance (update_height
          (.node m mv mh (.node a av ah la (.node b bv bh rb1 rb2)) r2)) > 1
        ∧ get_balance (child_left (update_height
            (.node m mv mh (.node a av ah la (.node b bv bh rb1 rb2)) r2)))
          ≥ 0) := by
      intro hc
      have h2 : get_balance (AVLNode.node a av ah la
          (AVLNode.node b bv bh rb1 rb2)) ≥ 0 := hc.2
      rw [hba] at h2
      omega
    have hc2 : get_balance (update_height
          (.node m mv mh (.node a av ah la (.node b bv bh rb1 rb2)) r2)) > 1
        ∧ get_balance (child_left (update_height
            (.node m mv mh (.node a av ah la (.node b bv bh rb1 rb2)) r2)))
          < 0 := by
      refine ⟨by rw [hbU]; omega, ?_⟩
      show get_balance (AVLNode.node a av ah la
        (AVLNode.node b bv bh rb1 rb2)) < 0
      rw [hba]
      exact hneg
    have hT : rebalance_delete (update_height
          (.node m mv mh (.node a av ah la (.node b bv bh rb1 rb2)) r2))
        = update_height (.node b bv bh
            (update_height (.node a av ah la rb1))
            (update_height (.node m mv mh rb2 r2))) := by
      unfold rebalance_delete
      simp only []
      rw [if_neg hc1, if_pos hc2]
      rfl
    rw [hT]
    simp only [realHeight] at hdiff hneg habs
    refine ⟨HeightsOK_update_node _ _ _ _ _
        (HeightsOK_update_node _ _ _ _ _ hokla hokrb1)
        (HeightsOK_update_node _ _ _ _ _ hokrb2 hokr), ?_, ?_⟩
    · rw [BalancedP_update_node]
      refine ⟨?_, ?_, ?_⟩
      · rw [BalancedP_update_node]
        exact ⟨balla, balrb1, by omega⟩
      · rw [BalancedP_update_node]
        exact ⟨balrb2, hbalr, by omega⟩
      · rw [realHeight_update_node, realHeight_update_node]
        omega
    · rw [realHeight_update_node, realHeight_update_node,
        realHeight_update_node]
      simp only [realHeight]
      omega
  · -- left child balanced or leaning left: single right rotation
    have hc1 : get_balance (update_height
          (.node m mv mh (.node a av ah la ra) r2)) > 1
        ∧ get_balance (child_left (update_height
            (.node m mv mh (.node a av ah la ra) r2))) ≥ 0 := by
      refine ⟨by rw [hbU]; omega, ?_⟩
      show get_balance (AVLNode.node a av ah la ra) ≥ 0
      rw [hba]
      exact hge
    have hT : rebalance_delete (update_height
          (.node m mv mh (.node a av ah la ra) r2))
        = update_height (.node a av ah la
            (update_height (.node m mv mh ra r2))) := by
      unfold rebalance_delete
      simp only []
      rw [if_pos hc1]
      rfl
    rw [hT]
    simp only [realHeight] at hdiff
    refine ⟨HeightsOK_update_node _ _ _ _ _ hokla
        (HeightsOK_update_node _ _ _ _ _ hokra hokr), ?_, ?_⟩
    · rw [BalancedP_update_node]
      refine ⟨balla, ?_, ?_⟩
      · rw [BalancedP_update_node]
        exact ⟨balra, hbalr, by omega⟩
      · rw [realHeight_update_node]
        omega
    · rw [realHeight_update_node, realHeight_update_node]
      simp only [realHeight]
      omega

end AVL

namespace AVL

/-- Deletion rebalancing, mirror case: right child two levels taller after
a removal below; the rotation selected by the right child's own balance
restores balance and the new height is the right child's height or one
more. -/
theorem rebalance_delete_right_heavy (m mv mh : Int) (l r2 : AVLNode)
    (hokl : HeightsOK l) (hokr : HeightsOK r2)
    (hball : BalancedP l) (hbalr : BalancedP r2)
    (hdiff : (realHeight l : Int) - (realHeight r2 : Int) = -2) :
    HeightsOK (rebalance_delete (update_height (.node m mv mh l r2))) ∧
    BalancedP (rebalance_delete (update_height (.node m mv mh l r2))) ∧
    (realHeight (rebalance_delete (update_height (.node m mv mh l r2)))
        = realHeight r2 ∨
      realHeight (rebalance_delete (update_height (.node m mv mh l r2)))
        = realHeight r2 + 1) := by
  obtain ⟨a, av, ah, la, ra, rfl⟩ :=
    exists_node_of_height_pos r2 (by omega)
  obtain ⟨hokla, hokra, hah⟩ := hokr
  obtain ⟨balla, balra, habs⟩ := hbalr
  have hba : get_balance (AVLNode.node a av ah la ra)
      = (realHeight la : Int) - (realHeight ra : Int) := by
    show get_height la - get_height ra = _
    rw [get_height_eq la hokla, get_height_eq ra hokra]
  have hbU : get_balance (update_height
        (.node m mv mh l (.node a av ah la ra)))
      = (realHeight l : Int)
        - (realHeight (AVLNode.node a av ah la ra) : Int) := by
    rw [get_balance_update_node, get_height_eq l hokl,
      get_height_eq (AVLNode.node a av ah la ra) ⟨hokla, hokra, hah⟩]
  rcases lt_or_le (0 : Int) ((realHeight la : Int) - (realHeight ra : Int))
    with hpos | hle
  · -- right child leans left: double rotation
    obtain ⟨b, bv, bh, lb1, lb2, rfl⟩ :=
      exists_node_of_height_pos la (by omega)
    obtain ⟨hoklb1, hoklb2, hbh⟩ := hokla
    obtain ⟨ballb1, ballb2, habsb⟩ := balla
    have hc1 : ¬(get_balance (update_height
          (.node m mv mh l (.node a av ah (.node b bv bh lb1 lb2) ra))) > 1
        ∧ get_balance (child_left (update_height
            (.node m mv mh l (.node a av ah (.node b bv bh lb1 lb2) ra))))
          ≥ 0) := by
      intro hc
      have := hc.1
      rw [hbU] at this
      omega
    have hc2 : ¬(get_balance (update_height
          (.node m mv mh l (.node a av ah (.node b bv bh lb1 lb2) ra))) > 1
        ∧ get_balance (child_left (update_height
            (.node m mv mh l (.node a av ah (.node b bv bh lb1 lb2) ra))))
          < 0) := by
      intro hc
      have := hc.1
      rw [hbU] at this
      omega
    have hc3 : ¬(get_balance (update_height
          (.node m mv mh l (.node a av ah (.node b bv bh lb1 lb2) ra))) < -1
        ∧ get_balance (child_right (update_height
            (.node m mv mh l (.node a av ah (.node b bv bh lb1 lb2) ra))))
          ≤ 0) := by
      intro hc
      have h2 : get_balance (AVLNode.node a av ah
          (AVLNode.node b bv bh lb1 lb2) ra) ≤ 0 := hc.2
      rw [hba] at h2
      omega
    have hc4 : get_balance (update_height
          (.node m mv mh l (.node a av ah (.node b bv bh lb1 lb2) ra))) < -1
        ∧ get_balance (child_right (update_height
            (.node m mv mh l (.node a av ah (.node b bv bh lb1 lb2) ra))))
          > 0 := by
      refine ⟨by rw [hbU]; omega, ?_⟩
      show get_balance (AVLNode.node a av ah
        (AVLNode.node b bv bh lb1 lb2) ra) > 0
      rw [hba]
      exact hpos
    have hT : rebalance_delete (update_height
          (.node m mv mh l (.node a av ah (.node b bv bh lb1 lb2) ra)))
        = update_height (.node b bv bh
            (update_height (.node m mv mh l lb1))
            (update_height (.node a av ah lb2 ra))) := by
      unfold rebalance_delete
      simp only []
      rw [if_neg hc1, if_neg hc2, if_neg hc3, if_pos hc4]
      rfl
    rw [hT]
    simp only [realHeight] at hdiff hpos habs
    refine ⟨HeightsOK_update_node _ _ _ _ _
        (HeightsOK_update_node _ _ _ _ _ hokl hoklb1)
        (HeightsOK_update_node _ _ _ _ _ hoklb2 hokra), ?_, ?_⟩
    · rw [BalancedP_update_node]
      refine ⟨?_, ?_, ?_⟩
      · rw [BalancedP_update_node]
        exact ⟨hball, ballb1, by omega⟩
      · rw [BalancedP_update_node]
        exact ⟨ballb2, balra, by omega⟩
      · rw [realHeight_update_node, realHeight_update_node]
        omega
    · rw [realHeight_update_node, realHeight_update_node,
        realHeight_update_node]
      simp only [realHeight]
      omega
  · -- right child balanced or leaning right: single left rotation
    have hc1 : ¬(get_balance (update_height
          (.node m mv mh l (.node a av ah la ra))) > 1
        ∧ get_balance (child_left (update_height
            (.node m mv mh l (.node a av ah la ra)))) ≥ 0) := by
      intro hc
      have := hc.1
      rw [hbU] at this
      omega
    have hc2 : ¬(get_balance (update_height
          (.node m mv mh l (.node a av ah la ra))) > 1
        ∧ get_balance (child_left (update_height
            (.node m mv mh l (.node a av ah la ra)))) < 0) := by
      intro hc
      have := hc.1
      rw [hbU] at this
      omega
    have hc3 : get_balance (update_height
          (.node m mv mh l (.node a av ah la ra))) < -1
        ∧ get_balance (child_right (update_height
            (.node m mv mh l (.node a av ah la ra)))) ≤ 0 := by
      refine ⟨by rw [hbU]; omega, ?_⟩
      show get_balance (AVLNode.node a av ah la ra) ≤ 0
      rw [hba]
      exact hle
    have hT : rebalance_delete (update_height
          (.node m mv mh l (.node a av ah la ra)))
        = update_height (.node a av ah
            (update_height (.node m mv mh l la)) ra) := by
      unfold rebalance_delete
      simp only []
      rw [if_neg hc1, if_neg hc2, if_pos hc3]
      rfl
    rw [hT]
    simp only [realHeight] at hdiff
    refine ⟨HeightsOK_update_node _ _ _ _ _
        (HeightsOK_update_node _ _ _ _ _ hokl hokla) hokra, ?_, ?_⟩
    · rw [BalancedP_update_node]
      refine ⟨?_, balra, ?_⟩
      · rw [BalancedP_update_node]
        exact ⟨hball, balla, by omega⟩
      · rw [realHeight_update_node]
        omega
    · rw [realHeight_update_node, realHeight_update_node]
      simp only [realHeight]
      omega

end AVL

namespace AVL

/-- `insert_avl` preserves correct stored heights and AVL balance; the
realized height grows by at most one, does not grow on a pure value
update, and when it does grow the new root leans exactly one level toward
the side of the inserted key. -/
theorem insert_avl_good (t : AVLNode) (k v : Int) :
    HeightsOK t → BalancedP t →
    HeightsOK (insert_avl t k v).1 ∧ BalancedP (insert_avl t k v).1 ∧
    realHeight t ≤ realHeight (insert_avl t k v).1 ∧
    realHeight (insert_avl t k v).1 ≤ realHeight t + 1 ∧
    ((insert_avl t k v).2 = false →
      realHeight (insert_avl t k v).1 = realHeight t) ∧
    (realHeight (insert_avl t k v).1 = realHeight t + 1 →
      realHeight (insert_avl t k v).1 = 1 ∨
      (get_balance (insert_avl t k v).1 = 1
        ∧ k < node_key (insert_avl t k v).1) ∨
      (get_balance (insert_avl t k v).1 = -1
        ∧ node_key (insert_avl t k v).1 < k)) := by
  induction t with
  | nil =>
    intro _ _
    have hres : insert_avl .nil k v = (.node k v 1 .nil .nil, true) := rfl
    rw [hres]
    refine ⟨⟨trivial, trivial, by decide⟩, ⟨trivial, trivial, by decide⟩,
      ?_, ?_, ?_, ?_⟩
    · show (0 : Nat) ≤ 1
      omega
    · show (1 : Nat) ≤ 0 + 1
      omega
    · intro h
      simp at h
    · intro _
      left
      rfl
  | node nk nv nh l r ihl ihr =>
    intro hok hbal
    obtain ⟨hokl, hokr, hnh⟩ := hok
    obtain ⟨ball, balr, habs⟩ := hbal
    have hHt : realHeight (AVLNode.node nk nv nh l r)
        = 1 + max (realHeight l) (realHeight r) := rfl
    by_cases hlt : k < nk
    · have hres1 : (insert_avl (.node nk nv nh l r) k v).1
          = rebalance_insert (update_height
              (.node nk nv nh (insert_avl l k v).1 r)) k := by
        simp only [insert_avl]
        rw [if_pos hlt]
      have hres2 : (insert_avl (.node nk nv nh l r) k v).2
          = (insert_avl l k v).2 := by
        simp only [insert_avl]
        rw [if_pos hlt]
      rw [hres1, hres2]
      obtain ⟨hok2, hbal2, hge, hle2, hfl, hgrow⟩ := ihl hokl ball
      have hbU : get_balance (update_height
            (.node nk nv nh (insert_avl l k v).1 r))
          = ((realHeight (insert_avl l k v).1 : Int))
            - (realHeight r : Int) := by
        rw [get_balance_update_node, get_height_eq _ hok2,
          get_height_eq r hokr]
      by_cases hd2 : ((realHeight (insert_avl l k v).1 : Int))
          - (realHeight r : Int) = 2
      · have hA2 : realHeight (insert_avl l k v).1 = realHeight l + 1 := by
          omega
        have hdir := hgrow hA2
        have hdir2 : (get_balance (insert_avl l k v).1 = 1
              ∧ k < node_key (insert_avl l k v).1)
            ∨ (get_balance (insert_avl l k v).1 = -1
              ∧ node_key (insert_avl l k v).1 < k) := by
          rcases hdir with h1 | h2 | h3
          · omega
          · exact Or.inl h2
          · exact Or.inr h3
        have hspec := rebalance_insert_grow_left nk nv nh k
          (insert_avl l k v).1 r hok2 hokr hbal2 balr hd2 hdir2
        have h3 := hspec.2.2
        refine ⟨hspec.1, hspec.2.1, by omega, by omega,
          fun hf => absurd (hfl hf) (by omega),
          fun hgr => absurd hgr (by omega)⟩
      · have hid : rebalance_insert (update_height
              (.node nk nv nh (insert_avl l k v).1 r)) k
            = update_height (.node nk nv nh (insert_avl l k v).1 r) :=
          rebalance_insert_eq_self _ k (by rw [hbU]; omega)
            (by rw [hbU]; omega)
        rw [hid]
        have hHT : realHeight (update_height
              (.node nk nv nh (insert_avl l k v).1 r))
            = 1 + max (realHeight (insert_avl l k v).1) (realHeight r) :=
          realHeight_update_node _ _ _ _ _
        refine ⟨HeightsOK_update_node _ _ _ _ _ hok2 hokr, ?_,
          by omega, by omega, ?_, ?_⟩
        · rw [BalancedP_update_node]
          exact ⟨hbal2, balr, by omega⟩
        · intro hf
          have := hfl hf
          omega
        · intro hgr
          right
          left
          refine ⟨by rw [hbU]; omega, ?_⟩
          exact hlt
    · by_cases hgt : nk < k
      · have hres1 : (insert_avl (.node nk nv nh l r) k v).1
            = rebalance_insert (update_height
                (.node nk nv nh l (insert_avl r k v).1)) k := by
          simp only [insert_avl]
          rw [if_neg hlt, if_pos hgt]
        have hres2 : (insert_avl (.node nk nv nh l r) k v).2
            = (insert_avl r k v).2 := by
          simp only [insert_avl]
          rw [if_neg hlt, if_pos hgt]
        rw [hres1, hres2]
        obtain ⟨hok2, hbal2, hge, hle2, hfl, hgrow⟩ := ihr hokr balr
        have hbU : get_balance (update_height
              (.node nk nv nh l (insert_avl r k v).1))
            = ((realHeight l : Int))
              - (realHeight (insert_avl r k v).1 : Int) := by
          rw [get_balance_update_node, get_height_eq l hokl,
            get_height_eq _ hok2]
        by_cases hd2 : ((realHeight l : Int))
            - (realHeight (insert_avl r k v).1 : Int) = -2
        · have hB2 : realHeight (insert_avl r k v).1 = realHeight r + 1 := by
            omega
          have hdir := hgrow hB2
          have hdir2 : (get_balance (insert_avl r k v).1 = 1
                ∧ k < node_key (insert_avl r k v).1)
              ∨ (get_balance (insert_avl r k v).1 = -1
                ∧ node_key (insert_avl r k v).1 < k) := by
            rcases hdir with h1 | h2 | h3
            · omega
            · exact Or.inl h2
            · exact Or.inr h3
          have hspec := rebalance_insert_grow_right nk nv nh k
            l (insert_avl r k v).1 hokl hok2 ball hbal2 hd2 hdir2
          have h3 := hspec.2.2
          refine ⟨hspec.1, hspec.2.1, by omega, by omega,
            fun hf => absurd (hfl hf) (by omega),
            fun hgr => absurd hgr (by omega)⟩
        · have hid : rebalance_insert (update_height
                (.node nk nv nh l (insert_avl r k v).1)) k
              = update_height (.node nk nv nh l (insert_avl r k v).1) :=
            rebalance_insert_eq_self _ k (by rw [hbU]; omega)
              (by rw [hbU]; omega)
          rw [hid]
          have hHT : realHeight (update_height
                (.node nk nv nh l (insert_avl r k v).1))
              = 1 + max (realHeight l) (realHeight (insert_avl r k v).1) :=
            realHeight_update_node _ _ _ _ _
          refine ⟨HeightsOK_update_node _ _ _ _ _ hokl hok2, ?_,
            by omega, by omega, ?_, ?_⟩
          · rw [BalancedP_update_node]
            exact ⟨ball, hbal2, by omega⟩
          · intro hf
            have := hfl hf
            omega
          · intro hgr
            right
            right
            refine ⟨by rw [hbU]; omega, ?_⟩
            exact hgt
      · have hres1 : (insert_avl (.node nk nv nh l r) k v).1
            = .node nk v nh l r := by
          simp only [insert_avl]
          rw [if_neg hlt, if_neg hgt]
        have hres2 : (insert_avl (.node nk nv nh l r) k v).2 = false := by
          simp only [insert_avl]
          rw [if_neg hlt, if_neg hgt]
        rw [hres1, hres2]
        have hEq : realHeight (AVLNode.node nk v nh l r)
            = realHeight (AVLNode.node nk nv nh l r) := rfl
        refine ⟨⟨hokl, hokr, hnh⟩, ⟨ball, balr, habs⟩,
          by omega, by omega, fun _ => hEq, fun hgr => absurd hgr (by omega)⟩

end AVL

namespace AVL

/-- `remove_avl` preserves correct stored heights and AVL balance; the
realized height shrinks by at most one. -/
theorem remove_avl_good (t : AVLNode) : ∀ k : Int,
    HeightsOK t → BalancedP t →
    HeightsOK (remove_avl t k).1 ∧ BalancedP (remove_avl t k).1 ∧
    realHeight (remove_avl t k).1 ≤ realHeight t ∧
    realHeight t ≤ realHeight (remove_avl t k).1 + 1 := by
  induction t with
  | nil =>
    intro k _ _
    exact ⟨trivial, trivial, Nat.le_refl _, Nat.le_succ _⟩
  | node nk nv nh l r ihl ihr =>
    intro k hok hbal
    obtain ⟨hokl, hokr, hnh⟩ := hok
    obtain ⟨ball, balr, habs⟩ := hbal
    have hHt : realHeight (AVLNode.node nk nv nh l r)
        = 1 + max (realHeight l) (realHeight r) := rfl
    by_cases hlt : k < nk
    · have hres : (remove_avl (.node nk nv nh l r) k).1
          = rebalance_delete (update_height
              (.node nk nv nh (remove_avl l k).1 r)) := by
        cases l <;> cases r <;> (simp only [remove_avl]; rw [if_pos hlt])
      rw [hres]
      obtain ⟨hokp, hbalp, hple, hpge⟩ := ihl k hokl ball
      have hbU : get_balance (update_height
            (.node nk nv nh (remove_avl l k).1 r))
          = ((realHeight (remove_avl l k).1 : Int))
            - (realHeight r : Int) := by
        rw [get_balance_update_node, get_height_eq _ hokp,
          get_height_eq r hokr]
      by_cases hd2 : ((realHeight (remove_avl l k).1 : Int))
          - (realHeight r : Int) = -2
      · have hspec := rebalance_delete_right_heavy nk nv nh
          (remove_avl l k).1 r hokp hokr hbalp balr hd2
        have h3 := hspec.2.2
        exact ⟨hspec.1, hspec.2.1, by omega, by omega⟩
      · have hid : rebalance_delete (update_height
              (.node nk nv nh (remove_avl l k).1 r))
            = update_height (.node nk nv nh (remove_avl l k).1 r) :=
          rebalance_delete_eq_self _ (by rw [hbU]; omega)
            (by rw [hbU]; omega)
        rw [hid]
        have hHT : realHeight (update_height
              (.node nk nv nh (remove_avl l k).1 r))
            = 1 + max (realHeight (remove_avl l k).1) (realHeight r) :=
          realHeight_update_node _ _ _ _ _
        refine ⟨HeightsOK_update_node _ _ _ _ _ hokp hokr, ?_,
          by omega, by omega⟩
        rw [BalancedP_update_node]
        exact ⟨hbalp, balr, by omega⟩
    · by_cases hgt : nk < k
      · have hres : (remove_avl (.node nk nv nh l r) k).1
            = rebalance_delete (update_height
                (.node nk nv nh l (remove_avl r k).1)) := by
          cases l <;> cases r <;>
            (simp only [remove_avl]; rw [if_neg hlt, if_pos hgt])
        rw [hres]
        obtain ⟨hokp, hbalp, hple, hpge⟩ := ihr k hokr balr
        have hbU : get_balance (update_height
              (.node nk nv nh l (remove_avl r k).1))
            = ((realHeight l : Int))
              - (realHeight (remove_avl r k).1 : Int) := by
          rw [get_balance_update_node, get_height_eq l hokl,
            get_height_eq _ hokp]
        by_cases hd2 : ((realHeight l : Int))
            - (realHeight (remove_avl r k).1 : Int) = 2
        · have hspec := rebalance_delete_left_heavy nk nv nh
            l (remove_avl r k).1 hokl hokp ball hbalp hd2
          have h3 := hspec.2.2
          exact ⟨hspec.1, hspec.2.1, by omega, by omega⟩
        · have hid : rebalance_delete (update_height
                (.node nk nv nh l (remove_avl r k).1))
              = update_height (.node nk nv nh l (remove_avl r k).1) :=
            rebalance_delete_eq_self _ (by rw [hbU]; omega)
              (by rw [hbU]; omega)
          rw [hid]
          have hHT : realHeight (update_height
                (.node nk nv nh l (remove_avl r k).1))
              = 1 + max (realHeight l) (realHeight (remove_avl r k).1) :=
            realHeight_update_node _ _ _ _ _
          refine ⟨HeightsOK_update_node _ _ _ _ _ hokl hokp, ?_,
            by omega, by omega⟩
          rw [BalancedP_update_node]
          exact ⟨ball, hbalp, by omega⟩
      · cases l with
        | nil =>
          cases r with
          | nil =>
            have hres : (remove_avl (.node nk nv nh .nil .nil) k).1
                = .nil := by
              simp only [remove_avl]
              rw [if_neg hlt, if_neg hgt]
            rw [hres]
            refine ⟨trivial, trivial, ?_, ?_⟩
            · show (0 : Nat) ≤ 1 + max 0 0
              omega
            · show 1 + max 0 0 ≤ (0 : Nat) + 1
              omega
          | node rk rv rh rl rr =>
            have hres : (remove_avl (.node nk nv nh .nil
                  (.node rk rv rh rl rr)) k).1
                = rebalance_delete (update_height
                    (.node rk rv rh rl rr)) := by
              simp only [remove_avl]
              rw [if_neg hlt, if_neg hgt]
            rw [hres]
            have hu : update_height (.node rk rv rh rl rr)
                = .node rk rv rh rl rr := update_height_id _ hokr
            rw [hu]
            obtain ⟨hokrl, hokrr, hrh⟩ := hokr
            obtain ⟨balrl, balrr, habsr⟩ := balr
            have hbr : get_balance (AVLNode.node rk rv rh rl rr)
                = (realHeight rl : Int) - (realHeight rr : Int) := by
              show get_height rl - get_height rr = _
              rw [get_height_eq rl hokrl, get_height_eq rr hokrr]
            have hid : rebalance_delete (.node rk rv rh rl rr)
                = .node rk rv rh rl rr :=
              rebalance_delete_eq_self _ (by rw [hbr]; omega)
                (by rw [hbr]; omega)
            rw [hid]
            refine ⟨⟨hokrl, hokrr, hrh⟩, ⟨balrl, balrr, habsr⟩, ?_, ?_⟩
            · show realHeight (AVLNode.node rk rv rh rl rr)
                ≤ 1 + max 0 (realHeight (AVLNode.node rk rv rh rl rr))
              omega
            · show 1 + max 0 (realHeight (AVLNode.node rk rv rh rl rr))
                ≤ realHeight (AVLNode.node rk rv rh rl rr) + 1
              omega
        | node lk lv lh ll lr =>
          cases r with
          | nil =>
            have hres : (remove_avl (.node nk nv nh
                  (.node lk lv lh ll lr) .nil) k).1
                = rebalance_delete (update_height
                    (.node lk lv lh ll lr)) := by
              simp only [remove_avl]
              rw [if_neg hlt, if_neg hgt]
            rw [hres]
            have hu : update_height (.node lk lv lh ll lr)
                = .node lk lv lh ll lr := update_height_id _ hokl
            rw [hu]
            obtain ⟨hokll, hoklr, hlh⟩ := hokl
            obtain ⟨balll, ballr, habsl⟩ := ball
            have hbl : get_balance (AVLNode.node lk lv lh ll lr)
                = (realHeight ll : Int) - (realHeight lr : Int) := by
              show get_height ll - get_height lr = _
              rw [get_height_eq ll hokll, get_height_eq lr hoklr]
            have hid : rebalance_delete (.node lk lv lh ll lr)
                = .node lk lv lh ll lr :=
              rebalance_delete_eq_self _ (by rw [hbl]; omega)
                (by rw [hbl]; omega)
            rw [hid]
            refine ⟨⟨hokll, hoklr, hlh⟩, ⟨balll, ballr, habsl⟩, ?_, ?_⟩
            · show realHeight (AVLNode.node lk lv lh ll lr)
                ≤ 1 + max (realHeight (AVLNode.node lk lv lh ll lr)) 0
              omega
            · show 1 + max (realHeight (AVLNode.node lk lv lh ll lr)) 0
                ≤ realHeight (AVLNode.node lk lv lh ll lr) + 1
              omega
          | node rk rv rh rl rr =>
            have hres : (remove_avl (.node nk nv nh
                  (.node lk lv lh ll lr) (.node rk rv rh rl rr)) k).1
                = rebalance_delete (update_height
                    (.node (node_key (find_min (.node rk rv rh rl rr)))
                      (node_value (find_min (.node rk rv rh rl rr))) nh
                      (.node lk lv lh ll lr)
                      (remove_avl (.node rk rv rh rl rr)
                        (node_key (find_min (.node rk rv rh rl rr)))).1)) := by
              simp only [remove_avl]
              rw [if_neg hlt, if_neg hgt]
            rw [hres]
            obtain ⟨hokp, hbalp, hple, hpge⟩ :=
              ihr (node_key (find_min (.node rk rv rh rl rr))) hokr balr
            have hbU : get_balance (update_height
                  (.node (node_key (find_min (.node rk rv rh rl rr)))
                    (node_value (find_min (.node rk rv rh rl rr))) nh
                    (.node lk lv lh ll lr)
                    (remove_avl (.node rk rv rh rl rr)
                      (node_key (find_min (.node rk rv rh rl rr)))).1))
                = ((realHeight (AVLNode.node lk lv lh ll lr) : Int))
                  - (realHeight (remove_avl (.node rk rv rh rl rr)
                      (node_key (find_min (.node rk rv rh rl rr)))).1
                      : Int) := by
              rw [get_balance_update_node, get_height_eq _ hokl,
                get_height_eq _ hokp]
            by_cases hd2 : ((realHeight (AVLNode.node lk lv lh ll lr)
                  : Int))
                - (realHeight (remove_avl (.node rk rv rh rl rr)
                    (node_key (find_min (.node rk rv rh rl rr)))).1
                    : Int) = 2
            · have hspec := rebalance_delete_left_heavy
                (node_key (find_min (.node rk rv rh rl rr)))
                (node_value (find_min (.node rk rv rh rl rr))) nh
                (.node lk lv lh ll lr)
                (remove_avl (.node rk rv rh rl rr)
                  (node_key (find_min (.node rk rv rh rl rr)))).1
                hokl hokp ball hbalp hd2
              have h3 := hspec.2.2
              exact ⟨hspec.1, hspec.2.1, by omega, by omega⟩
            · have hid : rebalance_delete (update_height
                    (.node (node_key (find_min (.node rk rv rh rl rr)))
                      (node_value (find_min (.node rk rv rh rl rr))) nh
                      (.node lk lv lh ll lr)
                      (remove_avl (.node rk rv rh rl rr)
                        (node_key (find_min (.node rk rv rh rl rr)))).1))
                  = update_height
                    (.node (node_key (find_min (.node rk rv rh rl rr)))
                      (node_value (find_min (.node rk rv rh rl rr))) nh
                      (.node lk lv lh ll lr)
                      (remove_avl (.node rk rv rh rl rr)
                        (node_key (find_min (.node rk rv rh rl rr)))).1) :=
                rebalance_delete_eq_self _ (by rw [hbU]; omega)
                  (by rw [hbU]; omega)
              rw [hid]
              have hHT : realHeight (update_height
                    (.node (node_key (find_min (.node rk rv rh rl rr)))
                      (node_value (find_min (.node rk rv rh rl rr))) nh
                      (.node lk lv lh ll lr)
                      (remove_avl (.node rk rv rh rl rr)
                        (node_key (find_min (.node rk rv rh rl rr)))).1))
                  = 1 + max (realHeight (AVLNode.node lk lv lh ll lr))
                      (realHeight (remove_avl (.node rk rv rh rl rr)
                        (node_key (find_min (.node rk rv rh rl rr)))).1) :=
                realHeight_update_node _ _ _ _ _
              refine ⟨HeightsOK_update_node _ _ _ _ _ hokl hokp, ?_,
                by omega, by omega⟩
              rw [BalancedP_update_node]
              exact ⟨ball, hbalp, by omega⟩

end AVL

/-! ## AVL table level: counting and reinsertion order -/

/-- Replacing one list element changes a mapped sum by exactly the change
at that position (stated additively to avoid truncated subtraction). -/
theorem map_sum_set {α : Type} (f : α → Nat) (d : α) :
    ∀ (l : List α) (i : Nat) (a : α), i < l.length →
    ((l.set i a).map f).sum + f (l.getD i d) = (l.map f).sum + f a := by
  intro l
  induction l with
  | nil => intro i a hi; simp at hi
  | cons x xs ih =>
    intro i a hi
    cases i with
    | zero =>
      simp only [List.set, List.map, List.sum_cons, List.getD_cons_zero]
      omega
    | succ j =>
      have hj : j < xs.length := by simpa using hi
      have := ih j a hj
      simp only [List.set, List.map, List.sum_cons, List.getD_cons_succ]
      omega

/-- Each list element's image is at most the mapped sum. -/
theorem getD_le_map_sum {α : Type} (f : α → Nat) (d : α) :
    ∀ (l : List α) (i : Nat), i < l.length →
    f (l.getD i d) ≤ (l.map f).sum := by
  intro l
  induction l with
  | nil => intro i hi; simp at hi
  | cons x xs ih =>
    intro i hi
    cases i with
    | zero => simp [List.getD]
    | succ j =>
      have hj : j < xs.length := by simpa using hi
      have := ih j hj
      show f (xs.getD j d) ≤ f x + (xs.map f).sum
      omega

namespace AVL

/-- The number of stored keys grows by one exactly when the insertion flag
reports a fresh key. -/
theorem keys_length_insert_avl (t : AVLNode) (k v : Int) :
    (keys (insert_avl t k v).1).length
      = (keys t).length + (if (insert_avl t k v).2 then 1 else 0) := by
  induction t with
  | nil =>
    show (keys (.node k v 1 .nil .nil)).length = _
    simp [keys, insert_avl]
  | node nk nv nh l r ihl ihr =>
    by_cases hlt : k < nk
    · have hres1 : (insert_avl (.node nk nv nh l r) k v).1
          = rebalance_insert (update_height
              (.node nk nv nh (insert_avl l k v).1 r)) k := by
        simp only [insert_avl]
        rw [if_pos hlt]
      have hres2 : (insert_avl (.node nk nv nh l r) k v).2
          = (insert_avl l k v).2 := by
        simp only [insert_avl]
        rw [if_pos hlt]
      rw [hres1, hres2, keys_rebalance_insert, keys_update_height]
      show ((keys (insert_avl l k v).1) ++ nk :: keys r).length
        = ((keys l) ++ nk :: keys r).length + _
      simp only [List.length_append, List.length_cons]
      omega
    · by_cases hgt : nk < k
      · have hres1 : (insert_avl (.node nk nv nh l r) k v).1
            = rebalance_insert (update_height
                (.node nk nv nh l (insert_avl r k v).1)) k := by
          simp only [insert_avl]
          rw [if_neg hlt, if_pos hgt]
        have hres2 : (insert_avl (.node nk nv nh l r) k v).2
            = (insert_avl r k v).2 := by
          simp only [insert_avl]
          rw [if_neg hlt, if_pos hgt]
        rw [hres1, hres2, keys_rebalance_insert, keys_update_height]
        show ((keys l) ++ nk :: keys (insert_avl r k v).1).length
          = ((keys l) ++ nk :: keys r).length + _
        simp only [List.length_append, List.length_cons]
        omega
      · have hres1 : (insert_avl (.node nk nv nh l r) k v).1
            = .node nk v nh l r := by
          simp only [insert_avl]
          rw [if_neg hlt, if_neg hgt]
        have hres2 : (insert_avl (.node nk nv nh l r) k v).2 = false := by
          simp only [insert_avl]
          rw [if_neg hlt, if_neg hgt]
        rw [hres1, hres2]
        show ((keys l) ++ nk :: keys r).length
          = ((keys l) ++ nk :: keys r).length + _
        simp

/-- The number of stored keys shrinks by one exactly when the removal flag
reports a hit. -/
theorem keys_length_remove_avl (t : AVLNode) : ∀ k : Int, BSTp t →
    (keys (remove_avl t k).1).length
        + (if (remove_avl t k).2 then 1 else 0)
      = (keys t).length := by
  induction t with
  | nil =>
    intro k _
    simp [remove_avl, keys]
  | node nk nv nh l r ihl ihr =>
    intro k hb
    obtain ⟨hl, hr, hbl, hbr⟩ := hb
    by_cases hlt : k < nk
    · have hres1 : (remove_avl (.node nk nv nh l r) k).1
          = rebalance_delete (update_height
              (.node nk nv nh (remove_avl l k).1 r)) := by
        cases l <;> cases r <;> (simp only [remove_avl]; rw [if_pos hlt])
      have hres2 : (remove_avl (.node nk nv nh l r) k).2
          = (remove_avl l k).2 := by
        cases l <;> cases r <;> (simp only [remove_avl]; rw [if_pos hlt])
      rw [hres1, hres2, keys_rebalance_delete, keys_update_height]
      have := ihl k hbl
      show ((keys (remove_avl l k).1) ++ nk :: keys r).length + _
        = ((keys l) ++ nk :: keys r).length
      simp only [List.length_append, List.length_cons]
      omega
    · by_cases hgt : nk < k
      · have hres1 : (remove_avl (.node nk nv nh l r) k).1
            = rebalance_delete (update_height
                (.node nk nv nh l (remove_avl r k).1)) := by
          cases l <;> cases r <;>
            (simp only [remove_avl]; rw [if_neg hlt, if_pos hgt])
        have hres2 : (remove_avl (.node nk nv nh l r) k).2
            = (remove_avl r k).2 := by
          cases l <;> cases r <;>
            (simp only [remove_avl]; rw [if_neg hlt, if_pos hgt])
        rw [hres1, hres2, keys_rebalance_delete, keys_update_height]
        have := ihr k hbr
        show ((keys l) ++ nk :: keys (remove_avl r k).1).length + _
          = ((keys l) ++ nk :: keys r).length
        simp only [List.length_append, List.length_cons]
        omega
      · cases l with
        | nil =>
          cases r with
          | nil =>
            have hres1 : (remove_avl (.node nk nv nh .nil .nil) k).1
                = .nil := by
              simp only [remove_avl]
              rw [if_neg hlt, if_neg hgt]
            have hres2 : (remove_avl (.node nk nv nh .nil .nil) k).2
                = true := by
              simp only [remove_avl]
              rw [if_neg hlt, if_neg hgt]
            rw [hres1, hres2]
            simp [keys]
          | node rk rv rh rl rr =>
            have hres1 : (remove_avl (.node nk nv nh .nil
                  (.node rk rv rh rl rr)) k).1
                = rebalance_delete (update_height
                    (.node rk rv rh rl rr)) := by
              simp only [remove_avl]
              rw [if_neg hlt, if_neg hgt]
            have hres2 : (remove_avl (.node nk nv nh .nil
                  (.node rk rv rh rl rr)) k).2 = true := by
              simp only [remove_avl]
              rw [if_neg hlt, if_neg hgt]
            rw [hres1, hres2, keys_rebalance_delete, keys_update_height]
            show (keys (.node rk rv rh rl rr)).length + 1
              = ((keys AVLNode.nil) ++ nk :: keys (.node rk rv rh rl rr)).length
            simp [keys]
        | node lk lv lh ll lr =>
          cases r with
          | nil =>
            have hres1 : (remove_avl (.node nk nv nh
                  (.node lk lv lh ll lr) .nil) k).1
                = rebalance_delete (update_height
                    (.node lk lv lh ll lr)) := by
              simp only [remove_avl]
              rw [if_neg hlt, if_neg hgt]
            have hres2 : (remove_avl (.node nk nv nh
                  (.node lk lv lh ll lr) .nil) k).2 = true := by
              simp only [remove_avl]
              rw [if_neg hlt, if_neg hgt]
            rw [hres1, hres2, keys_rebalance_delete, keys_update_height]
            show (keys (.node lk lv lh ll lr)).length + 1
              = ((keys (.node lk lv lh ll lr)) ++ nk :: keys AVLNode.nil).length
            simp [keys]
            omega
          | node rk rv rh rl rr =>
            have hres1 : (remove_avl (.node nk nv nh
                  (.node lk lv lh ll lr) (.node rk rv rh rl rr)) k).1
                = rebalance_delete (update_height
                    (.node (node_key (find_min (.node rk rv rh rl rr)))
                      (node_value (find_min (.node rk rv rh rl rr))) nh
                      (.node lk lv lh ll lr)
                      (remove_avl (.node rk rv rh rl rr)
                        (node_key (find_min (.node rk rv rh rl rr)))).1)) := by
              simp only [remove_avl]
              rw [if_neg hlt, if_neg hgt]
            have hres2 : (remove_avl (.node nk nv nh
                  (.node lk lv lh ll lr) (.node rk rv rh rl rr)) k).2
                = true := by
              simp only [remove_avl]
              rw [if_neg hlt, if_neg hgt]
            rw [hres1, hres2, keys_rebalance_delete, keys_update_height]
            obtain ⟨hsmem, hsmin, hsval⟩ := find_min_spec
              (.node rk rv rh rl rr) (by intro hc; cases hc) hbr
            have hflag : (remove_avl (.node rk rv rh rl rr)
                (node_key (find_min (.node rk rv rh rl rr)))).2 = true :=
              (remove_avl_bst (.node rk rv rh rl rr)
                (node_key (find_min (.node rk rv rh rl rr))) hbr).2.2.2.mpr
                hsmem
            have hcount := ihr (node_key (find_min (.node rk rv rh rl rr))) hbr
            rw [hflag] at hcount
            show ((keys (.node lk lv lh ll lr))
                ++ (node_key (find_min (.node rk rv rh rl rr)))
                  :: keys (remove_avl (.node rk rv rh rl rr)
                    (node_key (find_min (.node rk rv rh rl rr)))).1).length + 1
              = ((keys (.node lk lv lh ll lr))
                  ++ nk :: keys (.node rk rv rh rl rr)).length
            simp only [List.length_append, List.length_cons]
            simp only [if_pos] at hcount
            omega

end AVL

namespace AVL

/-- Pre-order listing has one pair per stored key. -/
theorem preorderPairs_length (b : AVLNode) :
    (preorderPairs b).length = (keys b).length := by
  induction b with
  | nil => rfl
  | node k v h l r ihl ihr =>
    simp [preorderPairs, keys, ihl, ihr]
    omega

/-- Every listed pair's key is a stored key. -/
theorem mem_preorderPairs_fst (b : AVLNode) :
    ∀ kv ∈ preorderPairs b, kv.1 ∈ keys b := by
  induction b with
  | nil => intro kv hkv; cases hkv
  | node k v h l r ihl ihr =>
    intro kv hkv
    show kv.1 ∈ keys l ++ k :: keys r
    rcases List.mem_cons.mp hkv with rfl | h2
    · exact List.mem_append.mpr (Or.inr (List.mem_cons.mpr (Or.inl rfl)))
    · rcases List.mem_append.mp h2 with h3 | h3
      · exact List.mem_append.mpr (Or.inl (ihl kv h3))
      · exact List.mem_append.mpr (Or.inr (List.mem_cons.mpr
          (Or.inr (ihr kv h3))))

/-- A successful lookup's binding occurs in the pre-order listing. -/
theorem find_avl_mem_preorderPairs (b : AVLNode) : ∀ q v : Int,
    find_avl b q = some v → (q, v) ∈ preorderPairs b := by
  induction b with
  | nil => intro q v h; cases h
  | node k kv h l r ihl ihr =>
    intro q v hf
    show (q, v) ∈ (k, kv) :: (preorderPairs l ++ preorderPairs r)
    by_cases hq : q = k
    · have hv : v = kv := by
        simp only [find_avl] at hf
        rw [if_pos hq] at hf
        exact (Option.some.inj hf).symm
      rw [hq, hv]
      exact List.mem_cons.mpr (Or.inl rfl)
    · by_cases hlt : q < k
      · have hf2 : find_avl l q = some v := by
          simp only [find_avl] at hf
          rw [if_neg hq, if_pos hlt] at hf
          exact hf
        exact List.mem_cons.mpr (Or.inr (List.mem_append.mpr
          (Or.inl (ihl q v hf2))))
      · have hf2 : find_avl r q = some v := by
          simp only [find_avl] at hf
          rw [if_neg hq, if_neg hlt] at hf
          exact hf
        exact List.mem_cons.mpr (Or.inr (List.mem_append.mpr
          (Or.inr (ihr q v hf2))))

/-- In a search tree the listed pairs carry pairwise distinct keys. -/
theorem preorderPairs_pairwise (b : AVLNode) (hb : BSTp b) :
    (preorderPairs b).Pairwise (fun a c => a.1 ≠ c.1) := by
  induction b with
  | nil => exact List.Pairwise.nil
  | node k v h l r ihl ihr =>
    obtain ⟨hl, hr, hbl, hbr⟩ := hb
    show ((k, v) :: (preorderPairs l ++ preorderPairs r)).Pairwise _
    rw [List.pairwise_cons]
    constructor
    · intro kv hkv
      rcases List.mem_append.mp hkv with h3 | h3
      · have := hl kv.1 (mem_preorderPairs_fst l kv h3)
        omega
      · have := hr kv.1 (mem_preorderPairs_fst r kv h3)
        omega
    · rw [List.pairwise_append]
      refine ⟨ihl hbl, ihr hbr, ?_⟩
      intro a ha c hc
      have h1 := hl a.1 (mem_preorderPairs_fst l a ha)
      have h2 := hr c.1 (mem_preorderPairs_fst r c hc)
      omega

/-- `collect_and_reinsert` replays exactly the pre-order pairs through
`insert_bucket`. -/
theorem collect_eq_foldPairs (b : AVLNode) : ∀ acc : AVLTable,
    collect_and_reinsert acc b
      = (preorderPairs b).foldl
          (fun a kv => (insert_bucket a kv.1 kv.2).1) acc := by
  induction b with
  | nil => intro acc; rfl
  | node k v h l r ihl ihr =>
    intro acc
    show collect_and_reinsert
        (collect_and_reinsert (insert_bucket acc k v).1 l) r
      = ((k, v) :: (preorderPairs l ++ preorderPairs r)).foldl
          (fun a kv => (insert_bucket a kv.1 kv.2).1) acc
    rw [List.foldl_cons, List.foldl_append, ihr, ihl]

end AVL

namespace AVL

/-- Full specification of the check-free insertion body `insert_bucket`
under the invariant (the load check of `insert` guarantees
`current_size ≤ table_size` at every call site): the invariant is
preserved, the flag is always true, the lookup function is updated at
exactly the inserted key, and the size grows only on a fresh key. -/
theorem insert_bucket_spec (t : AVLTable) (k v : Int) (hInv : Inv t)
    (hload : t.current_size ≤ t.table_size) :
    Inv (insert_bucket t k v).1 ∧
    (insert_bucket t k v).2 = true ∧
    (∀ q, find (insert_bucket t k v).1 q
      = if q = k then some v else find t q) ∧
    ((insert_bucket t k v).1.current_size
      = if (find t k).isSome then t.current_size else t.current_size + 1) ∧
    (insert_bucket t k v).1.table_size = t.table_size ∧
    (insert_bucket t k v).1.current_size ≤ t.current_size + 1 := by
  obtain ⟨hlen, hpos, hcount, hcap, hbuck⟩ := hInv
  have hi : hash_function k t.table_size < t.table_size :=
    OA.hash_lt k t.table_size hpos
  have hT : (insert_bucket t k v).1.table
      = t.table.set (hash_function k t.table_size)
          (insert_avl (t.table.getD (hash_function k t.table_size)
            AVLNode.nil) k v).1 := rfl
  have hC : (insert_bucket t k v).1.current_size
      = (if (insert_avl (t.table.getD (hash_function k t.table_size)
            AVLNode.nil) k v).2
          then t.current_size + 1 else t.current_size) := rfl
  have hS : (insert_bucket t k v).1.table_size = t.table_size := rfl
  have hF : (insert_bucket t k v).2 = true := rfl
  obtain ⟨hgood, hhash⟩ := hbuck (hash_function k t.table_size) hi
  obtain ⟨hbst, hhok, hbal⟩ := hgood
  obtain ⟨hbst2, hkeys2, hfind2, hflag2⟩ := insert_avl_bst
    (t.table.getD (hash_function k t.table_size) AVLNode.nil) k v hbst
  have hgood2 := insert_avl_good
    (t.table.getD (hash_function k t.table_size) AVLNode.nil) k v hhok hbal
  have hCif : (insert_bucket t k v).1.current_size
      = t.current_size
        + (if (insert_avl (t.table.getD (hash_function k t.table_size)
            AVLNode.nil) k v).2 then 1 else 0) := by
    rw [hC]
    cases (insert_avl (t.table.getD (hash_function k t.table_size)
      AVLNode.nil) k v).2 <;> simp
  have hilen : hash_function k t.table_size < t.table.length := by omega
  have hms := map_sum_set (fun b => (keys b).length) AVLNode.nil t.table
    (hash_function k t.table_size)
    (insert_avl (t.table.getD (hash_function k t.table_size)
      AVLNode.nil) k v).1 hilen
  have hkl := keys_length_insert_avl
    (t.table.getD (hash_function k t.table_size) AVLNode.nil) k v
  have hfind_new : ∀ q, find (insert_bucket t k v).1 q
      = find_avl ((t.table.set (hash_function k t.table_size)
          (insert_avl (t.table.getD (hash_function k t.table_size)
            AVLNode.nil) k v).1).getD
          (hash_function q t.table_size) AVLNode.nil) q :=
    fun q => rfl
  have hgd_self : (t.table.set (hash_function k t.table_size)
        (insert_avl (t.table.getD (hash_function k t.table_size)
          AVLNode.nil) k v).1).getD
        (hash_function k t.table_size) AVLNode.nil
      = (insert_avl (t.table.getD (hash_function k t.table_size)
          AVLNode.nil) k v).1 :=
    getD_set_self t.table _ _ _ hilen
  have hmem_iff := find_isSome_iff_mem
    (t.table.getD (hash_function k t.table_size) AVLNode.nil) hbst k
  refine ⟨⟨?_, ?_, ?_, ?_, ?_⟩, hF, ?_, ?_, hS, ?_⟩
  · rw [hT, hS, List.length_set]
    exact hlen
  · rw [hS]
    exact hpos
  · show (insert_bucket t k v).1.current_size
      = totalCount (insert_bucket t k v).1
    have hms2 : ((t.table.set (hash_function k t.table_size)
          (insert_avl (t.table.getD (hash_function k t.table_size)
            AVLNode.nil) k v).1).map (fun b => (keys b).length)).sum
          + (keys (t.table.getD (hash_function k t.table_size)
              AVLNode.nil)).length
        = ((t.table.map (fun b => (keys b).length)).sum
          + (keys (insert_avl (t.table.getD (hash_function k t.table_size)
              AVLNode.nil) k v).1).length) := hms
    have hcombine : (insert_bucket t k v).1.current_size
          + (keys (t.table.getD (hash_function k t.table_size)
              AVLNode.nil)).length
        = t.current_size
          + (keys (insert_avl (t.table.getD (hash_function k t.table_size)
              AVLNode.nil) k v).1).length := by
      rw [hCif, hkl]
      split_ifs <;> omega
    have hcount2 : t.current_size
        = (t.table.map (fun b => (keys b).length)).sum := hcount
    unfold totalCount
    rw [hT]
    omega
  · rw [hS, hCif]
    have : (if (insert_avl (t.table.getD (hash_function k t.table_size)
        AVLNode.nil) k v).2 then 1 else 0) ≤ 1 := by
      split_ifs <;> omega
    omega
  · intro j hj
    rw [hS] at hj
    rw [hT, hS]
    by_cases hji : j = hash_function k t.table_size
    · subst hji
      rw [getD_set_self t.table _ _ _ (by omega)]
      refine ⟨⟨hbst2, hgood2.1, hgood2.2.1⟩, ?_⟩
      intro q hq
      rcases hkeys2 q hq with hq2 | rfl
      · exact hhash q hq2
      · rfl
    · rw [getD_set_ne t.table _ _ _ _ (fun he => hji he.symm) ]
      exact hbuck j hj
  · intro q
    rw [hfind_new q]
    by_cases hq : q = k
    · subst hq
      rw [hgd_self, if_pos rfl, hfind2 q, if_pos rfl]
    · rw [if_neg hq]
      by_cases hji : hash_function q t.table_size
          = hash_function k t.table_size
      · rw [hji, hgd_self, hfind2 q, if_neg hq]
        show find_avl (t.table.getD (hash_function k t.table_size)
          AVLNode.nil) q = find t q
        rw [← hji]
        rfl
      · rw [getD_set_ne t.table _ _ _ _ (fun he => hji he.symm)]
        rfl
  · rw [hCif]
    have hfk : find t k = find_avl (t.table.getD
        (hash_function k t.table_size) AVLNode.nil) k := rfl
    by_cases hmem : k ∈ keys (t.table.getD
        (hash_function k t.table_size) AVLNode.nil)
    · have hsome : (find t k).isSome = true := by
        rw [hfk]
        obtain ⟨w, hw⟩ := hmem_iff.mpr hmem
        rw [hw]
        rfl
      rw [if_pos hsome]
      have hfl : (insert_avl (t.table.getD (hash_function k t.table_size)
          AVLNode.nil) k v).2 = false := by
        cases hfl2 : (insert_avl (t.table.getD
            (hash_function k t.table_size) AVLNode.nil) k v).2 with
        | true => exact absurd hmem (hflag2.mp hfl2)
        | false => rfl
      rw [hfl]
      simp
    · have hnone : (find t k).isSome = false := by
        rw [hfk]
        cases hs : (find_avl (t.table.getD (hash_function k t.table_size)
            AVLNode.nil) k).isSome with
        | true =>
          exact absurd (hmem_iff.mp (Option.isSome_iff_exists.mp hs)) hmem
        | false => rfl
      rw [hnone]
      have hfl : (insert_avl (t.table.getD (hash_function k t.table_size)
          AVLNode.nil) k v).2 = true := hflag2.mpr hmem
      rw [hfl]
      simp
  · rw [hCif]
    split_ifs <;> omega

end AVL

namespace AVL

/-- A freshly constructed AVL table with positive capacity satisfies the
invariant and stores nothing. -/
theorem avl_mk_spec (cap : Nat) (hpos : 0 < cap) :
    Inv (mkTable cap) ∧
    (mkTable cap).table_size = cap ∧
    (mkTable cap).current_size = 0 ∧
    (∀ q, find (mkTable cap) q = none) := by
  have hbucket : ∀ x : Nat,
      (mkTable cap).table.getD x AVLNode.nil = AVLNode.nil := by
    intro x
    show (List.replicate cap AVLNode.nil).getD x AVLNode.nil = AVLNode.nil
    by_cases hx : x < cap
    · rw [List.getD_eq_getElem _ _ (by simpa using hx)]
      simp
    · rw [getD_eq_default _ _ _ (by simpa using hx)]
  have hcz : totalCount (mkTable cap) = 0 := by
    unfold totalCount mkTable
    simp [keys]
  refine ⟨⟨by simp [mkTable], hpos, hcz.symm, by simp [mkTable], ?_⟩,
    rfl, rfl, ?_⟩
  · intro i hi
    rw [hbucket i]
    exact ⟨⟨trivial, trivial, trivial⟩, fun q hq => absurd hq (by simp [keys])⟩
  · intro q
    show find_avl ((mkTable cap).table.getD
      (hash_function q (mkTable cap).table_size) AVLNode.nil) q = none
    rw [hbucket]
    rfl

/-- `clear` empties every bucket, resets the size, and preserves the
invariant. -/
theorem avl_clear_spec (t : AVLTable) (hInv : Inv t) :
    Inv (clear t) ∧
    (clear t).table_size = t.table_size ∧
    (clear t).current_size = 0 ∧
    (∀ q, find (clear t) q = none) := by
  obtain ⟨hlen, hpos, hcount, hcap, hbuck⟩ := hInv
  have hbucket : ∀ x : Nat,
      (clear t).table.getD x AVLNode.nil = AVLNode.nil := by
    intro x
    show (t.table.map (fun _ => AVLNode.nil)).getD x AVLNode.nil = AVLNode.nil
    by_cases hx : x < t.table.length
    · rw [List.getD_eq_getElem _ _ (by simpa using hx)]
      simp
    · rw [getD_eq_default _ _ _ (by simpa [List.length_map] using hx)]
  have hcz : totalCount (clear t) = 0 := by
    unfold totalCount clear
    rw [List.map_map]
    apply List.sum_eq_zero
    intro x hx
    obtain ⟨y, hy, rfl⟩ := List.mem_map.mp hx
    rfl
  refine ⟨⟨by simp [clear, hlen], hpos, hcz.symm, by simp [clear], ?_⟩,
    rfl, rfl, ?_⟩
  · intro i hi
    rw [hbucket i]
    exact ⟨⟨trivial, trivial, trivial⟩, fun q hq => absurd hq (by simp [keys])⟩
  · intro q
    show find_avl ((clear t).table.getD
      (hash_function q (clear t).table_size) AVLNode.nil) q = none
    rw [hbucket]
    rfl

/-- Full specification of `AVLHashTable::remove`: the invariant is
preserved, the flag reports exactly whether the key was stored, the
lookup function loses exactly that key, and the size decrements exactly
on a hit. -/
theorem avl_remove_spec (t : AVLTable) (k : Int) (hInv : Inv t) :
    Inv (remove t k).1 ∧
    ((remove t k).2 = true ↔ (find t k).isSome = true) ∧
    (∀ q, find (remove t k).1 q = if q = k then none else find t q) ∧
    ((remove t k).1.current_size
      = if (find t k).isSome then t.current_size - 1 else t.current_size) ∧
    ((remove t k).2 = true →
      t.current_size = (remove t k).1.current_size + 1) ∧
    (remove t k).1.table_size = t.table_size := by
  obtain ⟨hlen, hpos, hcount, hcap, hbuck⟩ := hInv
  have hi : hash_function k t.table_size < t.table_size :=
    OA.hash_lt k t.table_size hpos
  have hilen : hash_function k t.table_size < t.table.length := by omega
  have hT : (remove t k).1.table
      = t.table.set (hash_function k t.table_size)
          (remove_avl (t.table.getD (hash_function k t.table_size)
            AVLNode.nil) k).1 := rfl
  have hC : (remove t k).1.current_size
      = (if (remove_avl (t.table.getD (hash_function k t.table_size)
            AVLNode.nil) k).2
          then t.current_size - 1 else t.current_size) := rfl
  have hS : (remove t k).1.table_size = t.table_size := rfl
  have hF : (remove t k).2
      = (remove_avl (t.table.getD (hash_function k t.table_size)
          AVLNode.nil) k).2 := rfl
  obtain ⟨hgood, hhash⟩ := hbuck (hash_function k t.table_size) hi
  obtain ⟨hbst, hhok, hbal⟩ := hgood
  obtain ⟨hbst2, hkeys2, hfind2, hflag2⟩ := remove_avl_bst
    (t.table.getD (hash_function k t.table_size) AVLNode.nil) k hbst
  have hgood2 := remove_avl_good
    (t.table.getD (hash_function k t.table_size) AVLNode.nil) k hhok hbal
  have hkl := keys_length_remove_avl
    (t.table.getD (hash_function k t.table_size) AVLNode.nil) k hbst
  have hms2 : ((t.table.set (hash_function k t.table_size)
        (remove_avl (t.table.getD (hash_function k t.table_size)
          AVLNode.nil) k).1).map (fun b => (keys b).length)).sum
        + (keys (t.table.getD (hash_function k t.table_size)
            AVLNode.nil)).length
      = ((t.table.map (fun b => (keys b).length)).sum
        + (keys (remove_avl (t.table.getD (hash_function k t.table_size)
            AVLNode.nil) k).1).length) :=
    map_sum_set (fun b => (keys b).length) AVLNode.nil t.table
      (hash_function k t.table_size)
      (remove_avl (t.table.getD (hash_function k t.table_size)
        AVLNode.nil) k).1 hilen
  have hcount2 : t.current_size
      = (t.table.map (fun b => (keys b).length)).sum := hcount
  have hble : (keys (t.table.getD (hash_function k t.table_size)
        AVLNode.nil)).length
      ≤ (t.table.map (fun b => (keys b).length)).sum :=
    getD_le_map_sum (fun b => (keys b).length) AVLNode.nil t.table
      (hash_function k t.table_size) hilen
  have hmem_iff := find_isSome_iff_mem
    (t.table.getD (hash_function k t.table_size) AVLNode.nil) hbst k
  have hfk : find t k = find_avl (t.table.getD
      (hash_function k t.table_size) AVLNode.nil) k := rfl
  have hsome_iff : (find t k).isSome = true
      ↔ k ∈ keys (t.table.getD (hash_function k t.table_size)
          AVLNode.nil) := by
    constructor
    · intro hs
      rw [hfk] at hs
      exact hmem_iff.mp (Option.isSome_iff_exists.mp hs)
    · intro hm
      obtain ⟨w, hw⟩ := hmem_iff.mpr hm
      rw [hfk, hw]
      rfl
  have hflag_some : (remove_avl (t.table.getD
        (hash_function k t.table_size) AVLNode.nil) k).2 = true
      ↔ (find t k).isSome = true := by
    rw [hflag2, hsome_iff]
  have hmem_len : (find t k).isSome = true →
      1 ≤ (keys (t.table.getD (hash_function k t.table_size)
        AVLNode.nil)).length := by
    intro hs
    have hm := hsome_iff.mp hs
    have := List.length_pos_of_mem hm
    omega
  refine ⟨⟨?_, ?_, ?_, ?_, ?_⟩, hF ▸ hflag_some, ?_, ?_, ?_, hS⟩
  · rw [hT, hS, List.length_set]
    exact hlen
  · rw [hS]
    exact hpos
  · show (remove t k).1.current_size = totalCount (remove t k).1
    unfold totalCount
    rw [hT, hC]
    cases hfl : (remove_avl (t.table.getD (hash_function k t.table_size)
        AVLNode.nil) k).2 with
    | true =>
      rw [if_pos rfl]
      rw [hfl] at hkl
      simp only [if_pos] at hkl
      have h1 := hmem_len (hflag_some.mp hfl)
      omega
    | false =>
      rw [if_neg (by simp)]
      rw [hfl] at hkl
      simp only [Bool.false_eq_true, if_false] at hkl
      omega
  · rw [hS, hC]
    split_ifs <;> omega
  · intro j hj
    rw [hS] at hj
    rw [hT, hS]
    by_cases hji : j = hash_function k t.table_size
    · subst hji
      rw [getD_set_self t.table _ _ _ (by omega)]
      refine ⟨⟨hbst2, hgood2.1, hgood2.2.1⟩, ?_⟩
      intro q hq
      exact hhash q (hkeys2 q hq)
    · rw [getD_set_ne t.table _ _ _ _ (fun he => hji he.symm)]
      exact hbuck j hj
  · intro q
    show find_avl ((t.table.set (hash_function k t.table_size)
        (remove_avl (t.table.getD (hash_function k t.table_size)
          AVLNode.nil) k).1).getD
        (hash_function q t.table_size) AVLNode.nil) q
      = if q = k then none else find t q
    by_cases hq : q = k
    · subst hq
      rw [getD_set_self t.table _ _ _ hilen, hfind2 q, if_pos rfl,
        if_pos rfl]
    · rw [if_neg hq]
      by_cases hji : hash_function q t.table_size
          = hash_function k t.table_size
      · rw [hji, getD_set_self t.table _ _ _ hilen, hfind2 q, if_neg hq]
        show find_avl (t.table.getD (hash_function k t.table_size)
          AVLNode.nil) q = find t q
        rw [← hji]
        rfl
      · rw [getD_set_ne t.table _ _ _ _ (fun he => hji he.symm)]
        rfl
  · rw [hC]
    by_cases hs : (find t k).isSome = true
    · rw [if_pos hs, if_pos (hflag_some.mpr hs)]
    · rw [if_neg hs]
      have hfl : (remove_avl (t.table.getD (hash_function k t.table_size)
          AVLNode.nil) k).2 = false := by
        cases hfl2 : (remove_avl (t.table.getD
            (hash_function k t.table_size) AVLNode.nil) k).2 with
        | true => exact absurd (hflag_some.mp hfl2) hs
        | false => rfl
      rw [hfl]
      simp
  · intro hr
    rw [hF] at hr
    have hs := hflag_some.mp hr
    have h1 := hmem_len hs
    rw [hC, if_pos hr]
    omega

end AVL

namespace AVL

/-- Replaying a list of distinct fresh keys through `insert_bucket`
preserves the invariant, adds exactly one entry per pair, and makes every
replayed pair findable. -/
theorem insert_bucket_fold_pairs (P : List (Int × Int)) : ∀ acc : AVLTable,
    Inv acc →
    (∀ kv ∈ P, find acc kv.1 = none) →
    P.Pairwise (fun a c => a.1 ≠ c.1) →
    acc.current_size + P.length ≤ acc.table_size + 1 →
    Inv (P.foldl (fun a kv => (insert_bucket a kv.1 kv.2).1) acc) ∧
    (P.foldl (fun a kv => (insert_bucket a kv.1 kv.2).1) acc).table_size
      = acc.table_size ∧
    (P.foldl (fun a kv => (insert_bucket a kv.1 kv.2).1) acc).current_size
      = acc.current_size + P.length ∧
    (∀ q, (∀ kv ∈ P, kv.1 ≠ q) →
      find (P.foldl (fun a kv => (insert_bucket a kv.1 kv.2).1) acc) q
        = find acc q) ∧
    (∀ kv ∈ P,
      find (P.foldl (fun a kv => (insert_bucket a kv.1 kv.2).1) acc) kv.1
        = some kv.2) := by
  induction P with
  | nil =>
    intro acc hInv _ _ _
    exact ⟨hInv, rfl, by simp, fun q _ => rfl,
      fun kv h => absurd h (List.not_mem_nil kv)⟩
  | cons kv0 rest ih =>
    intro acc hInv hfresh hpw hcnt
    have hload : acc.current_size ≤ acc.table_size := by
      have := List.length_cons kv0 rest ▸ hcnt
      omega
    obtain ⟨hI1, _, hfind1, hcs1, hsz1, _⟩ :=
      insert_bucket_spec acc kv0.1 kv0.2 hInv hload
    have hf0 : find acc kv0.1 = none :=
      hfresh kv0 (List.mem_cons.mpr (Or.inl rfl))
    have hcs1' : (insert_bucket acc kv0.1 kv0.2).1.current_size
        = acc.current_size + 1 := by
      rw [hcs1, hf0]
      rfl
    obtain ⟨hpw0, hpw1⟩ := List.pairwise_cons.mp hpw
    have hfresh1 : ∀ kv ∈ rest,
        find (insert_bucket acc kv0.1 kv0.2).1 kv.1 = none := by
      intro kv hkv
      rw [hfind1 kv.1, if_neg (fun he => hpw0 kv hkv he.symm)]
      exact hfresh kv (List.mem_cons.mpr (Or.inr hkv))
    have hcnt1 : (insert_bucket acc kv0.1 kv0.2).1.current_size
        + rest.length ≤ (insert_bucket acc kv0.1 kv0.2).1.table_size + 1 := by
      rw [hcs1', hsz1]
      have := List.length_cons kv0 rest ▸ hcnt
      omega
    obtain ⟨hI, hsz, hcs, hunch, hhit⟩ :=
      ih (insert_bucket acc kv0.1 kv0.2).1 hI1 hfresh1 hpw1 hcnt1
    have hfold : (kv0 :: rest).foldl
          (fun a kv => (insert_bucket a kv.1 kv.2).1) acc
        = rest.foldl (fun a kv => (insert_bucket a kv.1 kv.2).1)
            (insert_bucket acc kv0.1 kv0.2).1 := rfl
    rw [hfold]
    refine ⟨hI, by rw [hsz, hsz1], by rw [hcs, hcs1']; simp; omega, ?_, ?_⟩
    · intro q hq
      rw [hunch q (fun kv hkv => hq kv (List.mem_cons.mpr (Or.inr hkv))),
        hfind1 q,
        if_neg (fun he => hq kv0 (List.mem_cons.mpr (Or.inl rfl)) he.symm)]
    · intro kv hkv
      rcases List.mem_cons.mp hkv with rfl | hkv2
      · rw [hunch kv.1 (fun kv2 hkv2 => hpw0 kv2 hkv2 ∘ Eq.symm),
          hfind1 kv.1, if_pos rfl]
      · exact hhit kv hkv2

/-- Re-inserting one search tree whose keys are all fresh: the invariant
is preserved, the size grows by the tree's key count, foreign keys keep
their bindings, and the tree's keys become findable with their tree
values. -/
theorem tree_reinsert_spec (b : AVLNode) (acc : AVLTable)
    (hInv : Inv acc) (hb : BSTp b)
    (hfresh : ∀ q ∈ keys b, find acc q = none)
    (hcnt : acc.current_size + (keys b).length ≤ acc.table_size + 1) :
    Inv (collect_and_reinsert acc b) ∧
    (collect_and_reinsert acc b).table_size = acc.table_size ∧
    (collect_and_reinsert acc b).current_size
      = acc.current_size + (keys b).length ∧
    (∀ q, q ∉ keys b → find (collect_and_reinsert acc b) q = find acc q) ∧
    (∀ q, q ∈ keys b →
      find (collect_and_reinsert acc b) q = find_avl b q) := by
  rw [collect_eq_foldPairs]
  obtain ⟨hI, hsz, hcs, hunch, hhit⟩ := insert_bucket_fold_pairs
    (preorderPairs b) acc hInv
    (fun kv hkv => hfresh kv.1 (mem_preorderPairs_fst b kv hkv))
    (preorderPairs_pairwise b hb)
    (by rw [preorderPairs_length]; exact hcnt)
  refine ⟨hI, hsz, by rw [hcs, preorderPairs_length], ?_, ?_⟩
  · intro q hq
    exact hunch q (fun kv hkv he =>
      hq (he ▸ mem_preorderPairs_fst b kv hkv))
  · intro q hq
    obtain ⟨w, hw⟩ := (find_isSome_iff_mem b hb q).mpr hq
    have hm := find_avl_mem_preorderPairs b q w hw
    rw [hw]
    exact hhit (q, w) hm

end AVL

namespace AVL

/-- Folding `collect_and_reinsert` over a list of search trees with
pairwise-disjoint, fresh key sets: sizes add up and every stored binding
is reproduced. -/
theorem avl_reinsert_fold (bs : List AVLNode) : ∀ acc : AVLTable,
    Inv acc →
    (∀ b ∈ bs, BSTp b) →
    (∀ b ∈ bs, ∀ q ∈ keys b, find acc q = none) →
    bs.Pairwise (fun b1 b2 => ∀ q, q ∈ keys b1 → q ∉ keys b2) →
    acc.current_size + (bs.map (fun b => (keys b).length)).sum
      ≤ acc.table_size + 1 →
    Inv (bs.foldl collect_and_reinsert acc) ∧
    (bs.foldl collect_and_reinsert acc).table_size = acc.table_size ∧
    (bs.foldl collect_and_reinsert acc).current_size
      = acc.current_size + (bs.map (fun b => (keys b).length)).sum ∧
    (∀ q, (∀ b ∈ bs, q ∉ keys b) →
      find (bs.foldl collect_and_reinsert acc) q = find acc q) ∧
    (∀ b ∈ bs, ∀ q ∈ keys b,
      find (bs.foldl collect_and_reinsert acc) q = find_avl b q) := by
  induction bs with
  | nil =>
    intro acc hInv _ _ _ _
    exact ⟨hInv, rfl, by simp, fun q _ => rfl,
      fun b h => absurd h (List.not_mem_nil b)⟩
  | cons b0 rest ih =>
    intro acc hInv hbst hfresh hpw hcnt
    have hsum : ((b0 :: rest).map (fun b => (keys b).length)).sum
        = (keys b0).length
          + (rest.map (fun b => (keys b).length)).sum := by
      simp
    obtain ⟨hpw0, hpw1⟩ := List.pairwise_cons.mp hpw
    obtain ⟨hI1, hsz1, hcs1, hunch1, hhit1⟩ := tree_reinsert_spec b0 acc
      hInv (hbst b0 (List.mem_cons.mpr (Or.inl rfl)))
      (hfresh b0 (List.mem_cons.mpr (Or.inl rfl)))
      (by rw [hsum] at hcnt; omega)
    have hfresh1 : ∀ b ∈ rest, ∀ q ∈ keys b,
        find (collect_and_reinsert acc b0) q = none := by
      intro b hb q hq
      have hq0 : q ∉ keys b0 := by
        intro hq0
        exact hpw0 b hb q hq0 hq
      rw [hunch1 q hq0]
      exact hfresh b (List.mem_cons.mpr (Or.inr hb)) q hq
    have hcnt1 : (collect_and_reinsert acc b0).current_size
        + (rest.map (fun b => (keys b).length)).sum
        ≤ (collect_and_reinsert acc b0).table_size + 1 := by
      rw [hcs1, hsz1]
      rw [hsum] at hcnt
      omega
    obtain ⟨hI, hsz, hcs, hunch, hhit⟩ := ih (collect_and_reinsert acc b0)
      hI1 (fun b hb => hbst b (List.mem_cons.mpr (Or.inr hb)))
      hfresh1 hpw1 hcnt1
    have hfold : (b0 :: rest).foldl collect_and_reinsert acc
        = rest.foldl collect_and_reinsert (collect_and_reinsert acc b0) :=
      rfl
    rw [hfold]
    refine ⟨hI, by rw [hsz, hsz1], ?_, ?_, ?_⟩
    · rw [hcs, hcs1, hsum]
      omega
    · intro q hq
      rw [hunch q (fun b hb => hq b (List.mem_cons.mpr (Or.inr hb))),
        hunch1 q (hq b0 (List.mem_cons.mpr (Or.inl rfl)))]
    · intro b hb q hq
      rcases List.mem_cons.mp hb with rfl | hb2
      · have hrest : ∀ b2 ∈ rest, q ∉ keys b2 :=
          fun b2 hb2 => hpw0 b2 hb2 q hq
        rw [hunch q hrest]
        exact hhit1 q hq
      · exact hhit b hb2 q hq

/-- Full specification of `AVLHashTable::resize`: capacity doubles, the
size and every stored binding are unchanged, and the invariant is
preserved. -/
theorem avl_resize_spec (t : AVLTable) (hInv : Inv t) :
    Inv (resize t) ∧
    (resize t).table_size = 2 * t.table_size ∧
    (resize t).current_size = t.current_size ∧
    (∀ q, find (resize t) q = find t q) := by
  have hInv' := hInv
  obtain ⟨hlen, hpos, hcount, hcap, hbuck⟩ := hInv'
  obtain ⟨hmkInv, hmksz, hmkcs, hmkfind⟩ :=
    avl_mk_spec (t.table_size * 2) (by omega)
  have hres : resize t
      = t.table.foldl collect_and_reinsert (mkTable (t.table_size * 2)) :=
    rfl
  have hmem_good : ∀ b ∈ t.table, ∃ i, i < t.table_size
      ∧ t.table.getD i AVLNode.nil = b := by
    intro b hb
    obtain ⟨i, hilt, hieq⟩ := List.getElem_of_mem hb
    refine ⟨i, by omega, ?_⟩
    rw [List.getD_eq_getElem _ _ hilt]
    exact hieq
  have hbsts : ∀ b ∈ t.table, BSTp b := by
    intro b hb
    obtain ⟨i, hi, heq⟩ := hmem_good b hb
    have := (hbuck i hi).1.1
    rwa [heq] at this
  have hpurity : ∀ i, i < t.table_size →
      ∀ q ∈ keys (t.table.getD i AVLNode.nil),
        hash_function q t.table_size = i :=
    fun i hi => (hbuck i hi).2
  have hdisj : t.table.Pairwise
      (fun b1 b2 => ∀ q, q ∈ keys b1 → q ∉ keys b2) := by
    rw [List.pairwise_iff_getElem]
    intro i j hi hj hij q hqi hqj
    have hgi : t.table.getD i AVLNode.nil = t.table[i] :=
      List.getD_eq_getElem _ _ hi
    have hgj : t.table.getD j AVLNode.nil = t.table[j] :=
      List.getD_eq_getElem _ _ hj
    have h1 := hpurity i (by omega) q (by rw [hgi]; exact hqi)
    have h2 := hpurity j (by omega) q (by rw [hgj]; exact hqj)
    omega
  have hsum : (t.table.map (fun b => (keys b).length)).sum
      = t.current_size := hcount.symm
  obtain ⟨hI, hsz, hcs, hunch, hhit⟩ := avl_reinsert_fold t.table
    (mkTable (t.table_size * 2)) hmkInv hbsts
    (fun b _ q _ => hmkfind q) hdisj
    (by
      show (mkTable (t.table_size * 2)).current_size + _
        ≤ (mkTable (t.table_size * 2)).table_size + 1
      rw [hmkcs, hmksz, hsum]
      omega)
  rw [hres]
  refine ⟨hI, by rw [hsz, hmksz]; omega,
    by rw [hcs, hmkcs, hsum]; omega, ?_⟩
  intro q
  have hhq : hash_function q t.table_size < t.table_size :=
    OA.hash_lt q t.table_size hpos
  have hhqlen : hash_function q t.table_size < t.table.length := by omega
  have hbq_mem : t.table.getD (hash_function q t.table_size) AVLNode.nil
      ∈ t.table := by
    rw [List.getD_eq_getElem _ _ hhqlen]
    exact List.getElem_mem hhqlen
  have hfq : find t q = find_avl
      (t.table.getD (hash_function q t.table_size) AVLNode.nil) q := rfl
  have hbstq := hbsts _ hbq_mem
  cases hfind : find t q with
  | some w =>
    have hw : find_avl (t.table.getD (hash_function q t.table_size)
        AVLNode.nil) q = some w := by rw [← hfq]; exact hfind
    have hqmem : q ∈ keys (t.table.getD (hash_function q t.table_size)
        AVLNode.nil) :=
      (find_isSome_iff_mem _ hbstq q).mp ⟨w, hw⟩
    rw [hhit _ hbq_mem q hqmem, hw]
  | none =>
    have hnone : ∀ b ∈ t.table, q ∉ keys b := by
      intro b hb hqb
      obtain ⟨i, hi, heq⟩ := hmem_good b hb
      have hip := hpurity i hi q (by rw [heq]; exact hqb)
      have hbq : b = t.table.getD (hash_function q t.table_size)
          AVLNode.nil := by rw [hip]; exact heq.symm
      obtain ⟨w, hw⟩ := (find_isSome_iff_mem b (hbsts b hb) q).mpr hqb
      rw [hbq] at hw
      rw [hfq, hw] at hfind
      cases hfind
    rw [hunch q hnone, hmkfind q]

end AVL

namespace AVL

/-- Full specification of `AVLHashTable::insert`: the flag is always
true, the invariant is preserved, the lookup function is updated at
exactly the inserted key, the size grows only on a fresh key, and the
capacity doubles exactly when the load factor check fires. -/
theorem avl_insert_spec (t : AVLTable) (k v : Int) (hInv : Inv t) :
    Inv (insert t k v).1 ∧
    (insert t k v).2 = true ∧
    (∀ q, find (insert t k v).1 q = if q = k then some v else find t q) ∧
    ((insert t k v).1.current_size
      = if (find t k).isSome then t.current_size else t.current_size + 1) ∧
    ((insert t k v).1.table_size
      = if t.current_size > t.table_size then 2 * t.table_size
        else t.table_size) := by
  have hcap := hInv.2.2.2.1
  have hpos := hInv.2.1
  have hins : insert t k v
      = insert_bucket
          (if t.current_size > t.table_size then resize t else t) k v := rfl
  by_cases hcond : t.current_size > t.table_size
  · rw [if_pos hcond] at hins
    obtain ⟨hI1, hsz1, hcs1, hfind1⟩ := avl_resize_spec t hInv
    have hload : (resize t).current_size ≤ (resize t).table_size := by
      rw [hsz1, hcs1]
      omega
    obtain ⟨hI, hfl, hfind, hcs, hsz, _⟩ :=
      insert_bucket_spec (resize t) k v hI1 hload
    rw [hins]
    refine ⟨hI, hfl, ?_, ?_, ?_⟩
    · intro q
      rw [hfind q, hfind1 q]
    · rw [hcs, hfind1 k, hcs1]
    · rw [hsz, hsz1, if_pos hcond]
  · rw [if_neg hcond] at hins
    obtain ⟨hI, hfl, hfind, hcs, hsz, _⟩ :=
      insert_bucket_spec t k v hInv (by omega)
    rw [hins]
    exact ⟨hI, hfl, hfind, hcs, by rw [hsz, if_neg hcond]⟩

/-- The invariant is preserved by every caller-visible AVL-table
operation. -/
theorem avl_step_inv (t : AVLTable) (op : Op) (hInv : Inv t) :
    Inv (step t op) := by
  cases op with
  | ins k v => exact (avl_insert_spec t k v hInv).1
  | del k => exact (avl_remove_spec t k hInv).1
  | clr => exact (avl_clear_spec t hInv).1
  | qry k => exact hInv

/-- The invariant is preserved by every sequence of AVL-table
operations. -/
theorem avl_exec_inv (ops : List Op) : ∀ t : AVLTable,
    Inv t → Inv (exec t ops) := by
  induction ops with
  | nil => intro t hInv; exact hInv
  | cons op rest ih =>
    intro t hInv
    exact ih (step t op) (avl_step_inv t op hInv)

/-- Appending operation sequences composes AVL-table `exec`. -/
theorem avl_exec_append (t : AVLTable) (ops1 ops2 : List Op) :
    exec t (ops1 ++ ops2) = exec (exec t ops1) ops2 :=
  List.foldl_append step t ops1 ops2

/-- Simulation of a live key across any further operation sequence that
never removes it and never clears the table: the stored binding always
equals the `trackKey` fold (the most recently inserted value). -/
theorem avl_track_sim (ops : List Op) : ∀ (t : AVLTable) (v k : Int),
    Inv t →
    find t k = some v →
    Op.del k ∉ ops → Op.clr ∉ ops →
    find (exec t ops) k = List.foldl (trackKey k) (some v) ops ∧
    ∃ w, List.foldl (trackKey k) (some v) ops = some w := by
  induction ops with
  | nil =>
    intro t v k hInv hm _ _
    exact ⟨hm, v, rfl⟩
  | cons op rest ih =>
    intro t v k hInv hm hdel hclr
    have hdel_op : op ≠ Op.del k := fun hcontra => hdel (by rw [hcontra]; simp)
    have hdel_rest : Op.del k ∉ rest := fun hcontra => hdel (by simp [hcontra])
    have hclr_op : op ≠ Op.clr := fun hcontra => hclr (by rw [hcontra]; simp)
    have hclr_rest : Op.clr ∉ rest := fun hcontra => hclr (by simp [hcontra])
    have hexec : exec t (op :: rest) = exec (step t op) rest := rfl
    have hfold : List.foldl (trackKey k) (some v) (op :: rest)
        = List.foldl (trackKey k) (trackKey k (some v) op) rest := rfl
    rw [hexec, hfold]
    cases op with
    | ins k2 v2 =>
      obtain ⟨hI, _, hfind, _, _⟩ := avl_insert_spec t k2 v2 hInv
      by_cases hk2 : k2 = k
      · subst hk2
        have htr : trackKey k2 (some v) (Op.ins k2 v2) = some v2 := by
          simp [trackKey]
        rw [htr]
        have hm2 : find (step t (Op.ins k2 v2)) k2 = some v2 := by
          show find (insert t k2 v2).1 k2 = some v2
          rw [hfind k2, if_pos rfl]
        exact ih (step t (Op.ins k2 v2)) v2 k2
          (avl_step_inv t (Op.ins k2 v2) hInv) hm2 hdel_rest hclr_rest
      · have htr : trackKey k (some v) (Op.ins k2 v2) = some v := by
          simp only [trackKey]
          rw [if_neg hk2]
        rw [htr]
        have hm2 : find (step t (Op.ins k2 v2)) k = some v := by
          show find (insert t k2 v2).1 k = some v
          rw [hfind k, if_neg (fun hqe => hk2 hqe.symm)]
          exact hm
        exact ih (step t (Op.ins k2 v2)) v k
          (avl_step_inv t (Op.ins k2 v2) hInv) hm2 hdel_rest hclr_rest
    | del k2 =>
      have hk2 : k2 ≠ k := fun hcontra => hdel_op (by rw [hcontra])
      have htr : trackKey k (some v) (Op.del k2) = some v := by
        simp only [trackKey]
        rw [if_neg hk2]
      rw [htr]
      obtain ⟨hI, _, hfind, _, _, _⟩ := avl_remove_spec t k2 hInv
      have hm2 : find (step t (Op.del k2)) k = some v := by
        show find (remove t k2).1 k = some v
        rw [hfind k, if_neg (fun hqe => hk2 hqe.symm)]
        exact hm
      exact ih (step t (Op.del k2)) v k
        (avl_step_inv t (Op.del k2) hInv) hm2 hdel_rest hclr_rest
    | clr => exact absurd rfl hclr_op
    | qry k2 =>
      have htr : trackKey k (some v) (Op.qry k2) = some v := rfl
      rw [htr]
      exact ih t v k hInv hm hdel_rest hclr_rest

end AVL

namespace AVL

/-- When the load check cannot fire, the full `insert` is exactly its
check-free body. -/
theorem insert_eq_bucket (t : AVLTable) (k v : Int)
    (h : t.current_size ≤ t.table_size) :
    insert t k v = insert_bucket t k v := by
  have h0 : insert t k v
      = insert_bucket
          (if t.current_size > t.table_size then resize t else t) k v := rfl
  rw [h0, if_neg (by omega)]

/-- `insert_bucket` keeps the capacity and grows the size by at most
one. -/
theorem insert_bucket_dims (t : AVLTable) (k v : Int) :
    (insert_bucket t k v).1.table_size = t.table_size ∧
    (insert_bucket t k v).1.current_size ≤ t.current_size + 1 := by
  refine ⟨rfl, ?_⟩
  show (if (insert_avl (t.table.getD (hash_function k t.table_size)
      AVLNode.nil) k v).2 then t.current_size + 1 else t.current_size)
    ≤ t.current_size + 1
  split_ifs <;> omega

/-- As long as the accumulated size cannot exceed the capacity, replaying
a tree through the full `insert` (as the C++ re-insertion helper does)
coincides with replaying it through the check-free body. -/
theorem collect_full_eq (b : AVLNode) : ∀ acc : AVLTable,
    acc.current_size + (keys b).length ≤ acc.table_size + 1 →
    collect_and_reinsert_full acc b = collect_and_reinsert acc b ∧
    (collect_and_reinsert acc b).current_size
      ≤ acc.current_size + (keys b).length ∧
    (collect_and_reinsert acc b).table_size = acc.table_size := by
  induction b with
  | nil =>
    intro acc _
    have h0 : (keys AVLNode.nil).length = 0 := rfl
    have h1 : collect_and_reinsert acc AVLNode.nil = acc := rfl
    exact ⟨rfl, by rw [h1]; omega, rfl⟩
  | node k v h l r ihl ihr =>
    intro acc hcnt
    have hkeys : (keys (AVLNode.node k v h l r)).length
        = (keys l).length + 1 + (keys r).length := by
      simp [keys]
      omega
    have hload : acc.current_size ≤ acc.table_size := by omega
    have hieq : insert acc k v = insert_bucket acc k v :=
      insert_eq_bucket acc k v hload
    obtain ⟨hsz1, hcs1⟩ := insert_bucket_dims acc k v
    obtain ⟨heql, hcsl, hszl⟩ := ihl (insert_bucket acc k v).1
      (by rw [hsz1]; omega)
    obtain ⟨heqr, hcsr, hszr⟩ := ihr
      (collect_and_reinsert (insert_bucket acc k v).1 l)
      (by rw [hszl, hsz1]; omega)
    have e1 : collect_and_reinsert_full acc (.node k v h l r)
        = collect_and_reinsert_full
            (collect_and_reinsert_full (insert acc k v).1 l) r := rfl
    have e2 : collect_and_reinsert acc (.node k v h l r)
        = collect_and_reinsert
            (collect_and_reinsert (insert_bucket acc k v).1 l) r := rfl
    refine ⟨?_, ?_, ?_⟩
    · rw [e1, e2, hieq, heql, heqr]
    · rw [e2]
      omega
    · rw [e2, hszr, hszl, hsz1]

/-- Folding the full-insert replay over a list of trees coincides with
the check-free replay under the same capacity bound. -/
theorem avl_full_fold_eq (bs : List AVLNode) : ∀ acc : AVLTable,
    acc.current_size + (bs.map (fun b => (keys b).length)).sum
      ≤ acc.table_size + 1 →
    bs.foldl collect_and_reinsert_full acc
      = bs.foldl collect_and_reinsert acc ∧
    (bs.foldl collect_and_reinsert acc).current_size
      ≤ acc.current_size + (bs.map (fun b => (keys b).length)).sum ∧
    (bs.foldl collect_and_reinsert acc).table_size = acc.table_size := by
  induction bs with
  | nil =>
    intro acc _
    exact ⟨rfl, by simp, rfl⟩
  | cons b0 rest ih =>
    intro acc hcnt
    have hsum : ((b0 :: rest).map (fun b => (keys b).length)).sum
        = (keys b0).length
          + (rest.map (fun b => (keys b).length)).sum := by
      simp
    rw [hsum] at hcnt
    obtain ⟨heq0, hcs0, hsz0⟩ := collect_full_eq b0 acc (by omega)
    obtain ⟨heq, hcs, hsz⟩ := ih (collect_and_reinsert acc b0)
      (by rw [hsz0]; omega)
    refine ⟨?_, ?_, ?_⟩
    · show rest.foldl collect_and_reinsert_full
          (collect_and_reinsert_full acc b0)
        = rest.foldl collect_and_reinsert (collect_and_reinsert acc b0)
      rw [heq0, heq]
    · show (rest.foldl collect_and_reinsert
          (collect_and_reinsert acc b0)).current_size ≤ _
      rw [hsum]
      omega
    · show (rest.foldl collect_and_reinsert
          (collect_and_reinsert acc b0)).table_size = _
      rw [hsz, hsz0]

/-- Faithfulness of the embedding of `AVLHashTable::resize`: replaying
every old bucket through the full `insert` (exactly as the C++
`collect_and_reinsert` does) produces the same table as the check-free
replay used in the definition of `resize`, because the load-factor
condition can never fire during re-insertion into the doubled table. -/
theorem avl_resize_eq_full_insert (t : AVLTable) (hInv : Inv t) :
    t.table.foldl collect_and_reinsert_full (mkTable (t.table_size * 2))
      = resize t := by
  obtain ⟨hlen, hpos, hcount, hcap, hbuck⟩ := hInv
  have hres : resize t
      = t.table.foldl collect_and_reinsert (mkTable (t.table_size * 2)) :=
    rfl
  have hsum : (t.table.map (fun b => (keys b).length)).sum
      = t.current_size := hcount.symm
  rw [hres]
  exact (avl_full_fold_eq t.table (mkTable (t.table_size * 2)) (by
    show (mkTable (t.table_size * 2)).current_size + _
      ≤ (mkTable (t.table_size * 2)).table_size + 1
    have h1 : (mkTable (t.table_size * 2)).current_size = 0 := rfl
    have h2 : (mkTable (t.table_size * 2)).table_size
        = t.table_size * 2 := rfl
    rw [h1, h2, hsum]
    omega)).1

/-- Inserting a list of pairwise-distinct fresh keys grows the size by
exactly the list length and preserves the invariant. -/
theorem avl_insRun_sizes (kvs : List (Int × Int)) : ∀ t : AVLTable,
    Inv t →
    kvs.Pairwise (fun a c => a.1 ≠ c.1) →
    (∀ kv ∈ kvs, find t kv.1 = none) →
    Inv (insRun t kvs) ∧
    (insRun t kvs).current_size = t.current_size + kvs.length := by
  induction kvs with
  | nil =>
    intro t hInv _ _
    exact ⟨hInv, by simp [insRun]⟩
  | cons kv0 rest ih =>
    intro t hInv hpw hfresh
    obtain ⟨hpw0, hpw1⟩ := List.pairwise_cons.mp hpw
    obtain ⟨hI1, _, hfind1, hcs1, _⟩ := avl_insert_spec t kv0.1 kv0.2 hInv
    have hf0 : find t kv0.1 = none :=
      hfresh kv0 (List.mem_cons.mpr (Or.inl rfl))
    have hcs1' : (insert t kv0.1 kv0.2).1.current_size
        = t.current_size + 1 := by
      rw [hcs1, hf0]
      rfl
    have hfresh1 : ∀ kv ∈ rest,
        find (insert t kv0.1 kv0.2).1 kv.1 = none := by
      intro kv hkv
      rw [hfind1 kv.1, if_neg (fun he => hpw0 kv hkv he.symm)]
      exact hfresh kv (List.mem_cons.mpr (Or.inr hkv))
    obtain ⟨hI, hcs⟩ := ih (insert t kv0.1 kv0.2).1 hI1 hpw1 hfresh1
    have hfold : insRun t (kv0 :: rest)
        = insRun (insert t kv0.1 kv0.2).1 rest := rfl
    rw [hfold]
    refine ⟨hI, ?_⟩
    rw [hcs, hcs1']
    simp
    omega

end AVL

namespace OA

/-- Inserting a list of pairwise-distinct fresh keys, each insert
succeeding, grows the size by exactly the list length and preserves the
invariant. -/
theorem insRun_sizes (kvs : List (Int × Int)) : ∀ t : OATable,
    Inv t →
    insertAllOk t kvs →
    kvs.Pairwise (fun a c => a.1 ≠ c.1) →
    (∀ kv ∈ kvs, model t kv.1 = none) →
    Inv (insRun t kvs) ∧
    (insRun t kvs).current_size = t.current_size + kvs.length := by
  induction kvs with
  | nil =>
    intro t hInv _ _ _
    exact ⟨hInv, by simp [insRun]⟩
  | cons kv0 rest ih =>
    intro t hInv hok hpw hfresh
    obtain ⟨k0, v0⟩ := kv0
    obtain ⟨hfl, hok1⟩ := hok
    obtain ⟨hpw0, hpw1⟩ := List.pairwise_cons.mp hpw
    obtain ⟨hI1, hmt, _, _, hcnt_new, _⟩ := insert_spec t k0 v0 hInv
    have hf0 : model t k0 = none :=
      hfresh (k0, v0) (List.mem_cons.mpr (Or.inl rfl))
    have hcs1' : (insert t k0 v0).1.current_size
        = t.current_size + 1 := hcnt_new hf0 hfl
    have hfresh1 : ∀ kv ∈ rest,
        model (insert t k0 v0).1 kv.1 = none := by
      intro kv hkv
      rw [hmt hfl kv.1,
        if_neg (fun he => hpw0 kv hkv he.symm)]
      exact hfresh kv (List.mem_cons.mpr (Or.inr hkv))
    obtain ⟨hI, hcs⟩ := ih (insert t k0 v0).1 hI1 hok1 hpw1 hfresh1
    have hfold : insRun t ((k0, v0) :: rest)
        = insRun (insert t k0 v0).1 rest := rfl
    rw [hfold]
    refine ⟨hI, ?_⟩
    rw [hcs, hcs1']
    simp
    omega

end OA

/-! ## The claims -/

/-- Claim C1: for both tables, a key successfully inserted and not
subsequently removed or cleared remains findable after any further
operation sequence, and `find` returns the most recently inserted value
for it (the `trackKey` fold of the later operations). -/
theorem claim_C1 (cap : Nat) (pre post : List Op) (k v : Int)
    (hcap : 0 < cap)
    (hOAins : (OA.insert (OA.exec (OA.mkTable cap) pre) k v).2 = true)
    (hdel : Op.del k ∉ post) (hclr : Op.clr ∉ post) :
    (OA.find (OA.exec (OA.mkTable cap) (pre ++ Op.ins k v :: post)) k
        = List.foldl (trackKey k) (some v) post
      ∧ ∃ w, OA.find (OA.exec (OA.mkTable cap)
          (pre ++ Op.ins k v :: post)) k = some w)
    ∧
    (AVL.find (AVL.exec (AVL.mkTable cap) (pre ++ Op.ins k v :: post)) k
        = List.foldl (trackKey k) (some v) post
      ∧ ∃ w, AVL.find (AVL.exec (AVL.mkTable cap)
          (pre ++ Op.ins k v :: post)) k = some w) := by
  have hInvOA := OA.exec_inv pre (OA.mkTable cap) (OA.mk_spec cap hcap).1
  have hsplit : OA.exec (OA.mkTable cap) (pre ++ Op.ins k v :: post)
      = OA.exec (OA.step (OA.exec (OA.mkTable cap) pre) (Op.ins k v)) post := by
    rw [OA.exec_append]
    rfl
  obtain ⟨hI, hmt, _, _, _, _⟩ :=
    OA.insert_spec (OA.exec (OA.mkTable cap) pre) k v hInvOA
  have hm2 : OA.model (OA.step (OA.exec (OA.mkTable cap) pre)
      (Op.ins k v)) k = some v := by
    show OA.model (OA.insert (OA.exec (OA.mkTable cap) pre) k v).1 k = some v
    rw [hmt hOAins k, if_pos rfl]
  obtain ⟨htrack, w, hw⟩ := OA.track_sim post
    (OA.step (OA.exec (OA.mkTable cap) pre) (Op.ins k v)) v k
    (OA.step_inv _ _ hInvOA) hm2 hdel hclr
  have hfm := OA.find_eq_model
    (OA.exec (OA.step (OA.exec (OA.mkTable cap) pre) (Op.ins k v)) post) k
    (OA.exec_inv post _ (OA.step_inv _ _ hInvOA))
  have hInvAV := AVL.avl_exec_inv pre (AVL.mkTable cap)
    (AVL.avl_mk_spec cap hcap).1
  have hsplit2 : AVL.exec (AVL.mkTable cap) (pre ++ Op.ins k v :: post)
      = AVL.exec (AVL.step (AVL.exec (AVL.mkTable cap) pre)
          (Op.ins k v)) post := by
    rw [AVL.avl_exec_append]
    rfl
  obtain ⟨hIa, _, hfind, _, _⟩ :=
    AVL.avl_insert_spec (AVL.exec (AVL.mkTable cap) pre) k v hInvAV
  have hm2a : AVL.find (AVL.step (AVL.exec (AVL.mkTable cap) pre)
      (Op.ins k v)) k = some v := by
    show AVL.find (AVL.insert (AVL.exec (AVL.mkTable cap) pre) k v).1 k
      = some v
    rw [hfind k, if_pos rfl]
  obtain ⟨htracka, w2, hw2⟩ := AVL.avl_track_sim post
    (AVL.step (AVL.exec (AVL.mkTable cap) pre) (Op.ins k v)) v k
    (AVL.avl_step_inv _ _ hInvAV) hm2a hdel hclr
  refine ⟨⟨?_, w, ?_⟩, ?_, w2, ?_⟩
  · rw [hsplit, hfm, htrack]
  · rw [hsplit, hfm, htrack, hw]
  · rw [hsplit2, htracka]
  · rw [hsplit2, htracka, hw2]

/-- Claim C1, witnessed at a concrete instance. -/
theorem claim_C1_witness :
    0 < 3
    ∧ (OA.insert (OA.exec (OA.mkTable 3) []) 1 2).2 = true
    ∧ ((OA.find (OA.exec (OA.mkTable 3) ([] ++ Op.ins 1 2 :: [])) 1
          = List.foldl (trackKey 1) (some 2) []
        ∧ ∃ w, OA.find (OA.exec (OA.mkTable 3)
            ([] ++ Op.ins 1 2 :: [])) 1 = some w)
      ∧ (AVL.find (AVL.exec (AVL.mkTable 3) ([] ++ Op.ins 1 2 :: [])) 1
          = List.foldl (trackKey 1) (some 2) []
        ∧ ∃ w, AVL.find (AVL.exec (AVL.mkTable 3)
            ([] ++ Op.ins 1 2 :: [])) 1 = some w)) :=
  ⟨by decide, by decide,
    claim_C1 3 [] [] 1 2 (by decide) (by decide)
      (List.not_mem_nil _) (List.not_mem_nil _)⟩

/-- Claim C2: from a fresh table, inserting pairwise-distinct keys (each
insert succeeding) makes `size()` equal to the number of inserts, for
both tables; and re-inserting a key that is already live succeeds,
leaves `size()` unchanged and updates only that key's binding. -/
theorem claim_C2 (cap : Nat) (kvs : List (Int × Int)) (ops : List Op)
    (k v v2 : Int) (hcap : 0 < cap)
    (hdist : kvs.Pairwise (fun a c => a.1 ≠ c.1))
    (hok : OA.insertAllOk (OA.mkTable cap) kvs) :
    (OA.insRun (OA.mkTable cap) kvs).current_size = kvs.length ∧
    (AVL.insRun (AVL.mkTable cap) kvs).current_size = kvs.length ∧
    (OA.model (OA.exec (OA.mkTable cap) ops) k = some v2 →
      (OA.insert (OA.exec (OA.mkTable cap) ops) k v).2 = true ∧
      (OA.insert (OA.exec (OA.mkTable cap) ops) k v).1.current_size
        = (OA.exec (OA.mkTable cap) ops).current_size ∧
      (∀ q, OA.model (OA.insert (OA.exec (OA.mkTable cap) ops) k v).1 q
        = if q = k then some v
          else OA.model (OA.exec (OA.mkTable cap) ops) q)) ∧
    (AVL.find (AVL.exec (AVL.mkTable cap) ops) k = some v2 →
      (AVL.insert (AVL.exec (AVL.mkTable cap) ops) k v).2 = true ∧
      (AVL.insert (AVL.exec (AVL.mkTable cap) ops) k v).1.current_size
        = (AVL.exec (AVL.mkTable cap) ops).current_size ∧
      (∀ q, AVL.find (AVL.insert (AVL.exec (AVL.mkTable cap) ops) k v).1 q
        = if q = k then some v
          else AVL.find (AVL.exec (AVL.mkTable cap) ops) q)) := by
  obtain ⟨hmkI, hmksz, hmkcs, hmkmodel, _⟩ := OA.mk_spec cap hcap
  obtain ⟨hmkIa, hmksza, hmkcsa, hmkfinda⟩ := AVL.avl_mk_spec cap hcap
  refine ⟨?_, ?_, ?_, ?_⟩
  · obtain ⟨_, hcs⟩ := OA.insRun_sizes kvs (OA.mkTable cap) hmkI hok hdist
      (fun kv _ => hmkmodel kv.1)
    rw [hcs, hmkcs]
    omega
  · obtain ⟨_, hcs⟩ := AVL.avl_insRun_sizes kvs (AVL.mkTable cap) hmkIa
      hdist (fun kv _ => hmkfinda kv.1)
    rw [hcs, hmkcsa]
    omega
  · intro hm
    have hInv := OA.exec_inv ops (OA.mkTable cap) hmkI
    obtain ⟨_, hmt, _, _, _, hlive⟩ :=
      OA.insert_spec (OA.exec (OA.mkTable cap) ops) k v hInv
    obtain ⟨hfl, hsz⟩ := hlive v2 hm
    exact ⟨hfl, hsz, hmt hfl⟩
  · intro hm
    have hInv := AVL.avl_exec_inv ops (AVL.mkTable cap) hmkIa
    obtain ⟨_, hfl, hfind, hcs, _⟩ :=
      AVL.avl_insert_spec (AVL.exec (AVL.mkTable cap) ops) k v hInv
    refine ⟨hfl, ?_, hfind⟩
    rw [hcs, hm]
    rfl

/-- Claim C2, witnessed at a concrete instance. -/
theorem claim_C2_witness :
    0 < 3
    ∧ ([((1 : Int), (10 : Int)), (2, 20)].Pairwise
        (fun a c => a.1 ≠ c.1))
    ∧ OA.insertAllOk (OA.mkTable 3) [(1, 10), (2, 20)]
    ∧ ((OA.insRun (OA.mkTable 3) [(1, 10), (2, 20)]).current_size = 2 ∧
      (AVL.insRun (AVL.mkTable 3) [(1, 10), (2, 20)]).current_size = 2 ∧
      (OA.model (OA.exec (OA.mkTable 3) [Op.ins 5 7]) 5 = some 7 →
        (OA.insert (OA.exec (OA.mkTable 3) [Op.ins 5 7]) 5 8).2 = true ∧
        (OA.insert (OA.exec (OA.mkTable 3) [Op.ins 5 7]) 5 8).1.current_size
          = (OA.exec (OA.mkTable 3) [Op.ins 5 7]).current_size ∧
        (∀ q, OA.model
            (OA.insert (OA.exec (OA.mkTable 3) [Op.ins 5 7]) 5 8).1 q
          = if q = 5 then some 8
            else OA.model (OA.exec (OA.mkTable 3) [Op.ins 5 7]) q)) ∧
      (AVL.find (AVL.exec (AVL.mkTable 3) [Op.ins 5 7]) 5 = some 7 →
        (AVL.insert (AVL.exec (AVL.mkTable 3) [Op.ins 5 7]) 5 8).2 = true ∧
        (AVL.insert (AVL.exec (AVL.mkTable 3)
            [Op.ins 5 7]) 5 8).1.current_size
          = (AVL.exec (AVL.mkTable 3) [Op.ins 5 7]).current_size ∧
        (∀ q, AVL.find
            (AVL.insert (AVL.exec (AVL.mkTable 3) [Op.ins 5 7]) 5 8).1 q
          = if q = 5 then some 8
            else AVL.find (AVL.exec (AVL.mkTable 3) [Op.ins 5 7]) q))) :=
  ⟨by decide, by decide, ⟨by decide, by decide, trivial⟩,
    claim_C2 3 [(1, 10), (2, 20)] [Op.ins 5 7] 5 8 7 (by decide)
      (by decide) ⟨by decide, by decide, trivial⟩⟩

/-- Claim C3: in every reachable open-addressing table, each live slot is
reached by its key's probe sequence before any `EMPTY` slot; `remove`
marks the matching slot `DELETED`, never `EMPTY`, and the reachability
invariant still holds after the removal. -/
theorem claim_C3 (cap : Nat) (ops : List Op) (k : Int) (hcap : 0 < cap) :
    (∀ i, i < (OA.exec (OA.mkTable cap) ops).table_size →
      OA.slotState (OA.exec (OA.mkTable cap) ops) i
        = OA.EntryState.OCCUPIED →
      OA.ReachesBeforeEmpty (OA.exec (OA.mkTable cap) ops) i) ∧
    (∀ j, j < (OA.exec (OA.mkTable cap) ops).table_size →
      OA.slotState (OA.exec (OA.mkTable cap) ops) j
        = OA.EntryState.OCCUPIED →
      OA.slotKey (OA.exec (OA.mkTable cap) ops) j = k →
      OA.slotState (OA.remove (OA.exec (OA.mkTable cap) ops) k).1 j
        = OA.EntryState.DELETED) ∧
    (∀ x, OA.slotState (OA.remove (OA.exec (OA.mkTable cap) ops) k).1 x
        = OA.EntryState.EMPTY →
      OA.slotState (OA.exec (OA.mkTable cap) ops) x
        = OA.EntryState.EMPTY) ∧
    (∀ i, i < (OA.remove (OA.exec (OA.mkTable cap) ops) k).1.table_size →
      OA.slotState (OA.remove (OA.exec (OA.mkTable cap) ops) k).1 i
        = OA.EntryState.OCCUPIED →
      OA.ReachesBeforeEmpty (OA.remove (OA.exec (OA.mkTable cap) ops) k).1 i)
    := by
  have hInv := OA.exec_inv ops (OA.mkTable cap) (OA.mk_spec cap hcap).1
  obtain ⟨hIr, _, _, _, _, _, hemp, hmark⟩ :=
    OA.remove_spec (OA.exec (OA.mkTable cap) ops) k hInv
  exact ⟨hInv.2.2.2.2, hmark, hemp, hIr.2.2.2.2⟩

/-- Claim C3, witnessed at a concrete instance. -/
theorem claim_C3_witness :
    0 < 2
    ∧ ((∀ i, i < (OA.exec (OA.mkTable 2) [Op.ins 1 5]).table_size →
        OA.slotState (OA.exec (OA.mkTable 2) [Op.ins 1 5]) i
          = OA.EntryState.OCCUPIED →
        OA.ReachesBeforeEmpty (OA.exec (OA.mkTable 2) [Op.ins 1 5]) i) ∧
      (∀ j, j < (OA.exec (OA.mkTable 2) [Op.ins 1 5]).table_size →
        OA.slotState (OA.exec (OA.mkTable 2) [Op.ins 1 5]) j
          = OA.EntryState.OCCUPIED →
        OA.slotKey (OA.exec (OA.mkTable 2) [Op.ins 1 5]) j = 1 →
        OA.slotState (OA.remove (OA.exec (OA.mkTable 2) [Op.ins 1 5]) 1).1 j
          = OA.EntryState.DELETED) ∧
      (∀ x, OA.slotState
          (OA.remove (OA.exec (OA.mkTable 2) [Op.ins 1 5]) 1).1 x
          = OA.EntryState.EMPTY →
        OA.slotState (OA.exec (OA.mkTable 2) [Op.ins 1 5]) x
          = OA.EntryState.EMPTY) ∧
      (∀ i, i < (OA.remove
          (OA.exec (OA.mkTable 2) [Op.ins 1 5]) 1).1.table_size →
        OA.slotState (OA.remove (OA.exec (OA.mkTable 2) [Op.ins 1 5]) 1).1 i
          = OA.EntryState.OCCUPIED →
        OA.ReachesBeforeEmpty
          (OA.remove (OA.exec (OA.mkTable 2) [Op.ins 1 5]) 1).1 i)) :=
  ⟨by decide, claim_C3 2 [Op.ins 1 5] 1 (by decide)⟩

/-- Claim C4: in every reachable AVL table, each bucket's tree is a
binary search tree, its stored height fields are consistent, and it is
AVL-balanced. -/
theorem claim_C4 (cap : Nat) (ops : List Op) (hcap : 0 < cap) :
    ∀ i, i < (AVL.exec (AVL.mkTable cap) ops).table_size →
      AVL.BSTp ((AVL.exec (AVL.mkTable cap) ops).table.getD i
        AVL.AVLNode.nil) ∧
      AVL.HeightsOK ((AVL.exec (AVL.mkTable cap) ops).table.getD i
        AVL.AVLNode.nil) ∧
      AVL.BalancedP ((AVL.exec (AVL.mkTable cap) ops).table.getD i
        AVL.AVLNode.nil) := by
  have hInv := AVL.avl_exec_inv ops (AVL.mkTable cap)
    (AVL.avl_mk_spec cap hcap).1
  intro i hi
  exact (hInv.2.2.2.2 i hi).1

/-- Claim C4, witnessed at a concrete instance. -/
theorem claim_C4_witness :
    0 < 2
    ∧ (∀ i, i < (AVL.exec (AVL.mkTable 2)
        [Op.ins 1 2, Op.ins 3 4, Op.ins 5 6, Op.del 3]).table_size →
      AVL.BSTp ((AVL.exec (AVL.mkTable 2)
        [Op.ins 1 2, Op.ins 3 4, Op.ins 5 6, Op.del 3]).table.getD i
        AVL.AVLNode.nil) ∧
      AVL.HeightsOK ((AVL.exec (AVL.mkTable 2)
        [Op.ins 1 2, Op.ins 3 4, Op.ins 5 6, Op.del 3]).table.getD i
        AVL.AVLNode.nil) ∧
      AVL.BalancedP ((AVL.exec (AVL.mkTable 2)
        [Op.ins 1 2, Op.ins 3 4, Op.ins 5 6, Op.del 3]).table.getD i
        AVL.AVLNode.nil)) :=
  ⟨by decide,
    claim_C4 2 [Op.ins 1 2, Op.ins 3 4, Op.ins 5 6, Op.del 3] (by decide)⟩

/-- Claim C5: when the load factor check fires, `insert` goes through a
resize; the resize exactly doubles the capacity, keeps the size, keeps
every findable binding, and — for open addressing — the doubled table
carries no tombstone. -/
theorem claim_C5 (cap : Nat) (ops : List Op) (k v : Int) (hcap : 0 < cap) :
    (2 * (OA.exec (OA.mkTable cap) ops).current_size
        > (OA.exec (OA.mkTable cap) ops).table_size →
      OA.insert (OA.exec (OA.mkTable cap) ops) k v
        = OA.insert_entry (OA.resize (OA.exec (OA.mkTable cap) ops)) k v) ∧
    (OA.resize (OA.exec (OA.mkTable cap) ops)).table_size
      = 2 * (OA.exec (OA.mkTable cap) ops).table_size ∧
    (OA.resize (OA.exec (OA.mkTable cap) ops)).current_size
      = (OA.exec (OA.mkTable cap) ops).current_size ∧
    (∀ q, OA.find (OA.resize (OA.exec (OA.mkTable cap) ops)) q
      = OA.find (OA.exec (OA.mkTable cap) ops) q) ∧
    (∀ x, OA.slotState (OA.resize (OA.exec (OA.mkTable cap) ops)) x
      ≠ OA.EntryState.DELETED) ∧
    ((AVL.exec (AVL.mkTable cap) ops).current_size
        > (AVL.exec (AVL.mkTable cap) ops).table_size →
      AVL.insert (AVL.exec (AVL.mkTable cap) ops) k v
        = AVL.insert_bucket (AVL.resize (AVL.exec (AVL.mkTable cap) ops))
            k v) ∧
    (AVL.resize (AVL.exec (AVL.mkTable cap) ops)).table_size
      = 2 * (AVL.exec (AVL.mkTable cap) ops).table_size ∧
    (AVL.resize (AVL.exec (AVL.mkTable cap) ops)).current_size
      = (AVL.exec (AVL.mkTable cap) ops).current_size ∧
    (∀ q, AVL.find (AVL.resize (AVL.exec (AVL.mkTable cap) ops)) q
      = AVL.find (AVL.exec (AVL.mkTable cap) ops) q) := by
  have hInv := OA.exec_inv ops (OA.mkTable cap) (OA.mk_spec cap hcap).1
  have hInvA := AVL.avl_exec_inv ops (AVL.mkTable cap)
    (AVL.avl_mk_spec cap hcap).1
  obtain ⟨hIr, hsz, hcs, hmodel, hnd⟩ :=
    OA.resize_spec (OA.exec (OA.mkTable cap) ops) hInv
  obtain ⟨hIra, hsza, hcsa, hfinda⟩ :=
    AVL.avl_resize_spec (AVL.exec (AVL.mkTable cap) ops) hInvA
  refine ⟨?_, hsz, hcs, ?_, hnd, ?_, hsza, hcsa, hfinda⟩
  · intro hcond
    have h0 : OA.insert (OA.exec (OA.mkTable cap) ops) k v
        = OA.insert_entry
            (if 2 * (OA.exec (OA.mkTable cap) ops).current_size
                > (OA.exec (OA.mkTable cap) ops).table_size
              then OA.resize (OA.exec (OA.mkTable cap) ops)
              else OA.exec (OA.mkTable cap) ops) k v := rfl
    rw [h0, if_pos hcond]
  · intro q
    rw [OA.find_eq_model _ q hIr, OA.find_eq_model _ q hInv, hmodel q]
  · intro hcond
    have h0 : AVL.insert (AVL.exec (AVL.mkTable cap) ops) k v
        = AVL.insert_bucket
            (if (AVL.exec (AVL.mkTable cap) ops).current_size
                > (AVL.exec (AVL.mkTable cap) ops).table_size
              then AVL.resize (AVL.exec (AVL.mkTable cap) ops)
              else AVL.exec (AVL.mkTable cap) ops) k v := rfl
    rw [h0, if_pos hcond]

/-- Claim C5, witnessed at a concrete instance. -/
theorem claim_C5_witness :
    0 < 2
    ∧ ((2 * (OA.exec (OA.mkTable 2) [Op.ins 1 5]).current_size
          > (OA.exec (OA.mkTable 2) [Op.ins 1 5]).table_size →
        OA.insert (OA.exec (OA.mkTable 2) [Op.ins 1 5]) 3 4
          = OA.insert_entry
              (OA.resize (OA.exec (OA.mkTable 2) [Op.ins 1 5]))
              3 4) ∧
      (OA.resize (OA.exec (OA.mkTable 2) [Op.ins 1 5])).table_size
        = 2 * (OA.exec (OA.mkTable 2) [Op.ins 1 5]).table_size ∧
      (OA.resize (OA.exec (OA.mkTable 2) [Op.ins 1 5])).current_size
        = (OA.exec (OA.mkTable 2) [Op.ins 1 5]).current_size ∧
      (∀ q, OA.find (OA.resize (OA.exec (OA.mkTable 2) [Op.ins 1 5])) q
        = OA.find (OA.exec (OA.mkTable 2) [Op.ins 1 5]) q) ∧
      (∀ x, OA.slotState (OA.resize (OA.exec (OA.mkTable 2)
          [Op.ins 1 5])) x ≠ OA.EntryState.DELETED) ∧
      ((AVL.exec (AVL.mkTable 2) [Op.ins 1 5]).current_size
          > (AVL.exec (AVL.mkTable 2) [Op.ins 1 5]).table_size →
        AVL.insert (AVL.exec (AVL.mkTable 2) [Op.ins 1 5]) 3 4
          = AVL.insert_bucket
              (AVL.resize (AVL.exec (AVL.mkTable 2) [Op.ins 1 5]))
              3 4) ∧
      (AVL.resize (AVL.exec (AVL.mkTable 2) [Op.ins 1 5])).table_size
        = 2 * (AVL.exec (AVL.mkTable 2) [Op.ins 1 5]).table_size ∧
      (AVL.resize (AVL.exec (AVL.mkTable 2) [Op.ins 1 5])).current_size
        = (AVL.exec (AVL.mkTable 2) [Op.ins 1 5]).current_size ∧
      (∀ q, AVL.find (AVL.resize (AVL.exec (AVL.mkTable 2)
          [Op.ins 1 5])) q
        = AVL.find (AVL.exec (AVL.mkTable 2) [Op.ins 1 5]) q)) :=
  ⟨by decide, claim_C5 2 [Op.ins 1 5] 3 4 (by decide)⟩

/-- Claim C6: the open-addressing insert reports failure exactly when the
whole probe cycle of the table actually inserted into (after the
pre-emptive resize, if any) contains no `EMPTY` slot and no slot holding
the key — so the probe wrapped — and the start slot is occupied by a
different key; a failing insert changes no binding and no size.  The
AVL-table insert always reports success. -/
theorem claim_C6 (cap : Nat) (ops : List Op) (k v : Int) (hcap : 0 < cap) :
    (∀ t1, t1 = (if 2 * (OA.exec (OA.mkTable cap) ops).current_size
          > (OA.exec (OA.mkTable cap) ops).table_size
        then OA.resize (OA.exec (OA.mkTable cap) ops)
        else OA.exec (OA.mkTable cap) ops) →
      ((OA.insert (OA.exec (OA.mkTable cap) ops) k v).2 = false ↔
        ((∀ s, s < t1.table_size →
            ¬ OA.Stops t1 k
              ((hash_function k t1.table_size + s) % t1.table_size)) ∧
          OA.slotState t1 (hash_function k t1.table_size)
            = OA.EntryState.OCCUPIED ∧
          OA.slotKey t1 (hash_function k t1.table_size) ≠ k))) ∧
    ((OA.insert (OA.exec (OA.mkTable cap) ops) k v).2 = false →
      ∀ q, OA.model (OA.insert (OA.exec (OA.mkTable cap) ops) k v).1 q
        = OA.model (OA.exec (OA.mkTable cap) ops) q) ∧
    ((OA.insert (OA.exec (OA.mkTable cap) ops) k v).2 = false →
      (OA.insert (OA.exec (OA.mkTable cap) ops) k v).1.current_size
        = (OA.exec (OA.mkTable cap) ops).current_size) ∧
    (AVL.insert (AVL.exec (AVL.mkTable cap) ops) k v).2 = true := by
  have hInv := OA.exec_inv ops (OA.mkTable cap) (OA.mk_spec cap hcap).1
  have hInvA := AVL.avl_exec_inv ops (AVL.mkTable cap)
    (AVL.avl_mk_spec cap hcap).1
  obtain ⟨_, _, hmf, hcf, _, _⟩ :=
    OA.insert_spec (OA.exec (OA.mkTable cap) ops) k v hInv
  refine ⟨?_, hmf, hcf,
    (AVL.avl_insert_spec (AVL.exec (AVL.mkTable cap) ops) k v hInvA).2.1⟩
  intro t1 ht1
  have hInv1 : OA.Inv t1 := by
    rw [ht1]
    by_cases hcond : 2 * (OA.exec (OA.mkTable cap) ops).current_size
        > (OA.exec (OA.mkTable cap) ops).table_size
    · rw [if_pos hcond]
      exact (OA.resize_spec (OA.exec (OA.mkTable cap) ops) hInv).1
    · rw [if_neg hcond]
      exact hInv
  have hfl : (OA.insert (OA.exec (OA.mkTable cap) ops) k v).2
      = (OA.insert_entry t1 k v).2 := by
    rw [ht1]
    rfl
  rw [hfl]
  exact (OA.insert_entry_fail_iff t1 k v hInv1).1

/-- Claim C6, witnessed at a concrete instance. -/
theorem claim_C6_witness :
    0 < 1
    ∧ ((∀ t1, t1 = (if 2 * (OA.exec (OA.mkTable 1) []).current_size
            > (OA.exec (OA.mkTable 1) []).table_size
          then OA.resize (OA.exec (OA.mkTable 1) [])
          else OA.exec (OA.mkTable 1) []) →
        ((OA.insert (OA.exec (OA.mkTable 1) []) 1 2).2 = false ↔
          ((∀ s, s < t1.table_size →
              ¬ OA.Stops t1 1
                ((hash_function 1 t1.table_size + s) % t1.table_size)) ∧
            OA.slotState t1 (hash_function 1 t1.table_size)
              = OA.EntryState.OCCUPIED ∧
            OA.slotKey t1 (hash_function 1 t1.table_size) ≠ 1))) ∧
      ((OA.insert (OA.exec (OA.mkTable 1) []) 1 2).2 = false →
        ∀ q, OA.model (OA.insert (OA.exec (OA.mkTable 1) []) 1 2).1 q
          = OA.model (OA.exec (OA.mkTable 1) []) q) ∧
      ((OA.insert (OA.exec (OA.mkTable 1) []) 1 2).2 = false →
        (OA.insert (OA.exec (OA.mkTable 1) []) 1 2).1.current_size
          = (OA.exec (OA.mkTable 1) []).current_size) ∧
      (AVL.insert (AVL.exec (AVL.mkTable 1) []) 1 2).2 = true) :=
  ⟨by decide, claim_C6 1 [] 1 2 (by decide)⟩

/-- Claim C7: for both tables `remove` reports success exactly when the
key is live, decrements the size by one exactly on success, and on
failure leaves the size and every stored binding unchanged (for open
addressing the failing remove leaves the table literally unchanged). -/
theorem claim_C7 (cap : Nat) (ops : List Op) (k : Int) (hcap : 0 < cap) :
    ((OA.remove (OA.exec (OA.mkTable cap) ops) k).2 = true ↔
      ∃ w, OA.find (OA.exec (OA.mkTable cap) ops) k = some w) ∧
    ((OA.remove (OA.exec (OA.mkTable cap) ops) k).2 = true →
      (OA.exec (OA.mkTable cap) ops).current_size
        = (OA.remove (OA.exec (OA.mkTable cap) ops) k).1.current_size + 1) ∧
    ((OA.remove (OA.exec (OA.mkTable cap) ops) k).2 = false →
      (OA.remove (OA.exec (OA.mkTable cap) ops) k).1
        = OA.exec (OA.mkTable cap) ops) ∧
    ((AVL.remove (AVL.exec (AVL.mkTable cap) ops) k).2 = true ↔
      (AVL.find (AVL.exec (AVL.mkTable cap) ops) k).isSome = true) ∧
    ((AVL.remove (AVL.exec (AVL.mkTable cap) ops) k).2 = true →
      (AVL.exec (AVL.mkTable cap) ops).current_size
        = (AVL.remove (AVL.exec (AVL.mkTable cap) ops) k).1.current_size
          + 1) ∧
    ((AVL.remove (AVL.exec (AVL.mkTable cap) ops) k).2 = false →
      (AVL.remove (AVL.exec (AVL.mkTable cap) ops) k).1.current_size
        = (AVL.exec (AVL.mkTable cap) ops).current_size ∧
      ∀ q, AVL.find (AVL.remove (AVL.exec (AVL.mkTable cap) ops) k).1 q
        = AVL.find (AVL.exec (AVL.mkTable cap) ops) q) := by
  have hInv := OA.exec_inv ops (OA.mkTable cap) (OA.mk_spec cap hcap).1
  have hInvA := AVL.avl_exec_inv ops (AVL.mkTable cap)
    (AVL.avl_mk_spec cap hcap).1
  obtain ⟨_, _, hiff, hfid, hdec, _, _, _⟩ :=
    OA.remove_spec (OA.exec (OA.mkTable cap) ops) k hInv
  obtain ⟨_, hiffa, hfinda, hcsa, hdeca, _⟩ :=
    AVL.avl_remove_spec (AVL.exec (AVL.mkTable cap) ops) k hInvA
  refine ⟨?_, hdec, hfid, hiffa, hdeca, ?_⟩
  · rw [hiff, OA.find_eq_model _ k hInv]
  · intro hf
    have hns : (AVL.find (AVL.exec (AVL.mkTable cap) ops) k).isSome
        = false := by
      cases hs : (AVL.find (AVL.exec (AVL.mkTable cap) ops) k).isSome with
      | true =>
        rw [← hiffa] at hs
        rw [hs] at hf
        cases hf
      | false => rfl
    constructor
    · rw [hcsa, hns]
      rfl
    · intro q
      rw [hfinda q]
      by_cases hq : q = k
      · rw [if_pos hq, hq]
        cases hfk : AVL.find (AVL.exec (AVL.mkTable cap) ops) k with
        | none => rfl
        | some w =>
          rw [hfk] at hns
          cases hns
      · rw [if_neg hq]

/-- Claim C7, witnessed at a concrete instance. -/
theorem claim_C7_witness :
    0 < 2
    ∧ (((OA.remove (OA.exec (OA.mkTable 2) [Op.ins 1 5]) 9).2 = true ↔
        ∃ w, OA.find (OA.exec (OA.mkTable 2) [Op.ins 1 5]) 9 = some w) ∧
      ((OA.remove (OA.exec (OA.mkTable 2) [Op.ins 1 5]) 9).2 = true →
        (OA.exec (OA.mkTable 2) [Op.ins 1 5]).current_size
          = (OA.remove (OA.exec (OA.mkTable 2)
              [Op.ins 1 5]) 9).1.current_size + 1) ∧
      ((OA.remove (OA.exec (OA.mkTable 2) [Op.ins 1 5]) 9).2 = false →
        (OA.remove (OA.exec (OA.mkTable 2) [Op.ins 1 5]) 9).1
          = OA.exec (OA.mkTable 2) [Op.ins 1 5]) ∧
      ((AVL.remove (AVL.exec (AVL.mkTable 2) [Op.ins 1 5]) 9).2 = true ↔
        (AVL.find (AVL.exec (AVL.mkTable 2) [Op.ins 1 5]) 9).isSome
          = true) ∧
      ((AVL.remove (AVL.exec (AVL.mkTable 2) [Op.ins 1 5]) 9).2 = true →
        (AVL.exec (AVL.mkTable 2) [Op.ins 1 5]).current_size
          = (AVL.remove (AVL.exec (AVL.mkTable 2)
              [Op.ins 1 5]) 9).1.current_size + 1) ∧
      ((AVL.remove (AVL.exec (AVL.mkTable 2) [Op.ins 1 5]) 9).2 = false →
        (AVL.remove (AVL.exec (AVL.mkTable 2)
            [Op.ins 1 5]) 9).1.current_size
          = (AVL.exec (AVL.mkTable 2) [Op.ins 1 5]).current_size ∧
        ∀ q, AVL.find (AVL.remove (AVL.exec (AVL.mkTable 2)
            [Op.ins 1 5]) 9).1 q
          = AVL.find (AVL.exec (AVL.mkTable 2) [Op.ins 1 5]) q)) :=
  ⟨by decide, claim_C7 2 [Op.ins 1 5] 9 (by decide)⟩

/-- Claim C8: the probe loop never consumes fuel beyond the capacity (it
examines at most `table_size` slots), its result is in bounds, and the
returned slot is `EMPTY`, the slot `OCCUPIED` by the key, or — only when
no offset in the whole probe cycle stops the probe — the start index
itself. -/
theorem claim_C8 (cap : Nat) (ops : List Op) (k : Int) (extra : Nat)
    (hcap : 0 < cap) :
    (OA.probeGo (OA.exec (OA.mkTable cap) ops).table
        (OA.exec (OA.mkTable cap) ops).table_size k
        (hash_function k (OA.exec (OA.mkTable cap) ops).table_size)
        ((OA.exec (OA.mkTable cap) ops).table_size + extra)
        (hash_function k (OA.exec (OA.mkTable cap) ops).table_size)
      = OA.probe (OA.exec (OA.mkTable cap) ops) k) ∧
    OA.probe (OA.exec (OA.mkTable cap) ops) k
      < (OA.exec (OA.mkTable cap) ops).table_size ∧
    (OA.slotState (OA.exec (OA.mkTable cap) ops)
        (OA.probe (OA.exec (OA.mkTable cap) ops) k)
        = OA.EntryState.EMPTY ∨
      (OA.slotState (OA.exec (OA.mkTable cap) ops)
          (OA.probe (OA.exec (OA.mkTable cap) ops) k)
          = OA.EntryState.OCCUPIED ∧
        OA.slotKey (OA.exec (OA.mkTable cap) ops)
          (OA.probe (OA.exec (OA.mkTable cap) ops) k) = k) ∨
      (OA.probe (OA.exec (OA.mkTable cap) ops) k
          = hash_function k (OA.exec (OA.mkTable cap) ops).table_size ∧
        ∀ s, s < (OA.exec (OA.mkTable cap) ops).table_size →
          ¬ OA.Stops (OA.exec (OA.mkTable cap) ops) k
            ((hash_function k (OA.exec (OA.mkTable cap) ops).table_size + s)
              % (OA.exec (OA.mkTable cap) ops).table_size))) := by
  have hInv := OA.exec_inv ops (OA.mkTable cap) (OA.mk_spec cap hcap).1
  have hpos := hInv.2.1
  refine ⟨OA.probeGo_fuel_stable (OA.exec (OA.mkTable cap) ops) k hpos extra,
    OA.probe_lt (OA.exec (OA.mkTable cap) ops) k hpos, ?_⟩
  rcases OA.probe_trichotomy (OA.exec (OA.mkTable cap) ops) k hpos with
    hs | hwrap
  · have hs2 : OA.slotState (OA.exec (OA.mkTable cap) ops)
          (OA.probe (OA.exec (OA.mkTable cap) ops) k)
          = OA.EntryState.EMPTY ∨
        (OA.slotState (OA.exec (OA.mkTable cap) ops)
            (OA.probe (OA.exec (OA.mkTable cap) ops) k)
            = OA.EntryState.OCCUPIED ∧
          OA.slotKey (OA.exec (OA.mkTable cap) ops)
            (OA.probe (OA.exec (OA.mkTable cap) ops) k) = k) := hs
    rcases hs2 with h1 | h2
    · exact Or.inl h1
    · exact Or.inr (Or.inl h2)
  · exact Or.inr (Or.inr hwrap)

/-- Claim C8, witnessed at a concrete instance. -/
theorem claim_C8_witness :
    0 < 2
    ∧ ((OA.probeGo (OA.exec (OA.mkTable 2) [Op.ins 1 5]).table
          (OA.exec (OA.mkTable 2) [Op.ins 1 5]).table_size 1
          (hash_function 1 (OA.exec (OA.mkTable 2) [Op.ins 1 5]).table_size)
          ((OA.exec (OA.mkTable 2) [Op.ins 1 5]).table_size + 4)
          (hash_function 1 (OA.exec (OA.mkTable 2) [Op.ins 1 5]).table_size)
        = OA.probe (OA.exec (OA.mkTable 2) [Op.ins 1 5]) 1) ∧
      OA.probe (OA.exec (OA.mkTable 2) [Op.ins 1 5]) 1
        < (OA.exec (OA.mkTable 2) [Op.ins 1 5]).table_size ∧
      (OA.slotState (OA.exec (OA.mkTable 2) [Op.ins 1 5])
          (OA.probe (OA.exec (OA.mkTable 2) [Op.ins 1 5]) 1)
          = OA.EntryState.EMPTY ∨
        (OA.slotState (OA.exec (OA.mkTable 2) [Op.ins 1 5])
            (OA.probe (OA.exec (OA.mkTable 2) [Op.ins 1 5]) 1)
            = OA.EntryState.OCCUPIED ∧
          OA.slotKey (OA.exec (OA.mkTable 2) [Op.ins 1 5])
            (OA.probe (OA.exec (OA.mkTable 2) [Op.ins 1 5]) 1) = 1) ∨
        (OA.probe (OA.exec (OA.mkTable 2) [Op.ins 1 5]) 1
            = hash_function 1
                (OA.exec (OA.mkTable 2) [Op.ins 1 5]).table_size ∧
          ∀ s, s < (OA.exec (OA.mkTable 2) [Op.ins 1 5]).table_size →
            ¬ OA.Stops (OA.exec (OA.mkTable 2) [Op.ins 1 5]) 1
              ((hash_function 1
                  (OA.exec (OA.mkTable 2) [Op.ins 1 5]).table_size + s)
                % (OA.exec (OA.mkTable 2) [Op.ins 1 5]).table_size)))) :=
  ⟨by decide, claim_C8 2 [Op.ins 1 5] 1 4 (by decide)⟩

/-- Claim C9: both hashing variants are total (also on negative keys),
return an index strictly below any positive capacity, and are
deterministic functions of the key and the capacity. -/
theorem claim_C9 (k k2 : Int) (n n2 : Nat) (hpos : 0 < n) :
    hash_function k n < n ∧
    hash_function_mix k n < n ∧
    (k2 = k → n2 = n →
      hash_function k2 n2 = hash_function k n ∧
      hash_function_mix k2 n2 = hash_function_mix k n) := by
  refine ⟨OA.hash_lt k n hpos, ?_, ?_⟩
  · unfold hash_function_mix
    simp only []
    exact Nat.mod_lt _ hpos
  · intro hk hn
    rw [hk, hn]
    exact ⟨rfl, rfl⟩

/-- Claim C9, witnessed at a concrete instance with a negative key. -/
theorem claim_C9_witness :
    0 < 7
    ∧ (hash_function (-5) 7 < 7 ∧
      hash_function_mix (-5) 7 < 7 ∧
      ((-5 : Int) = -5 → (7 : Nat) = 7 →
        hash_function (-5) 7 = hash_function (-5) 7 ∧
        hash_function_mix (-5) 7 = hash_function_mix (-5) 7)) :=
  ⟨by decide, claim_C9 (-5) (-5) 7 7 (by decide)⟩

/-- Claim C10: a table constructed with positive capacity keeps a
positive capacity across every operation sequence, so the hash modulus is
never zero and every probe or bucket index stays in bounds; but with
initial capacity 0 — which the constructors accept — the first insert,
find or remove reduces modulo zero (undefined behaviour, recorded by the
checked variants), so positive capacity is a necessary precondition. -/
theorem claim_C10 (cap : Nat) (ops : List Op) (k v : Int)
    (hcap : 0 < cap) :
    0 < (OA.exec (OA.mkTable cap) ops).table_size ∧
    0 < (AVL.exec (AVL.mkTable cap) ops).table_size ∧
    hash_function k (OA.exec (OA.mkTable cap) ops).table_size
      < (OA.exec (OA.mkTable cap) ops).table_size ∧
    OA.probe (OA.exec (OA.mkTable cap) ops) k
      < (OA.exec (OA.mkTable cap) ops).table_size ∧
    hash_function k (AVL.exec (AVL.mkTable cap) ops).table_size
      < (AVL.exec (AVL.mkTable cap) ops).table_size ∧
    (∀ q, hash_function_checked q
      (OA.exec (OA.mkTable cap) ops).table_size ≠ none) ∧
    OA.find_checked (OA.mkTable 0) k = none ∧
    OA.insert_checked (OA.mkTable 0) k v = none ∧
    OA.remove_checked (OA.mkTable 0) k = none ∧
    AVL.find_checked (AVL.mkTable 0) k = none ∧
    AVL.insert_checked (AVL.mkTable 0) k v = none ∧
    AVL.remove_checked (AVL.mkTable 0) k = none := by
  have hInv := OA.exec_inv ops (OA.mkTable cap) (OA.mk_spec cap hcap).1
  have hInvA := AVL.avl_exec_inv ops (AVL.mkTable cap)
    (AVL.avl_mk_spec cap hcap).1
  have hpos := hInv.2.1
  have hposA := hInvA.2.1
  refine ⟨hpos, hposA, OA.hash_lt k _ hpos,
    OA.probe_lt (OA.exec (OA.mkTable cap) ops) k hpos,
    OA.hash_lt k _ hposA, ?_, rfl, rfl, rfl, rfl, rfl, rfl⟩
  intro q
  unfold hash_function_checked
  rw [if_neg (by omega)]
  simp

/-- Claim C10, witnessed at a concrete instance. -/
theorem claim_C10_witness :
    0 < 1
    ∧ (0 < (OA.exec (OA.mkTable 1) []).table_size ∧
      0 < (AVL.exec (AVL.mkTable 1) []).table_size ∧
      hash_function 0 (OA.exec (OA.mkTable 1) []).table_size
        < (OA.exec (OA.mkTable 1) []).table_size ∧
      OA.probe (OA.exec (OA.mkTable 1) []) 0
        < (OA.exec (OA.mkTable 1) []).table_size ∧
      hash_function 0 (AVL.exec (AVL.mkTable 1) []).table_size
        < (AVL.exec (AVL.mkTable 1) []).table_size ∧
      (∀ q, hash_function_checked q
        (OA.exec (OA.mkTable 1) []).table_size ≠ none) ∧
      OA.find_checked (OA.mkTable 0) 0 = none ∧
      OA.insert_checked (OA.mkTable 0) 0 0 = none ∧
      OA.remove_checked (OA.mkTable 0) 0 = none ∧
      AVL.find_checked (AVL.mkTable 0) 0 = none ∧
      AVL.insert_checked (AVL.mkTable 0) 0 0 = none ∧
      AVL.remove_checked (AVL.mkTable 0) 0 = none) :=
  ⟨by decide, claim_C10 1 [] 0 0 (by decide)⟩
